import Mathlib

/-!
# Aho-Corasick automaton of `aca/machine.go`

A shallow embedding of `New`, `Next`, `Indexes` and `Counts`.

* Go `int` values are `Int` (ids never approach the 64-bit range: one node per pattern atom).
* `[]*Node[T]` is a `List (Node T)`; a pointer into it is the `Int` position of the node in
  the list, so pointer equality (`temp != root`) is equality of positions and a write through
  a pointer is a write at that position.
* `map[T]int` is an association list with unique keys, the keys compared by a decidable
  equality. The order in which `range` enumerates a map is not fixed by Go: it is a parameter,
  `MapOrder`, and the theorems hold for every order.
* An out-of-range index panics in Go: the embedding returns `none`.
* Unbounded `for` loops and the `goto` take a fuel argument and return `none` when it runs out.
-/

namespace aca

/-! ## Data model -/

/-- The struct `Node[T]` (machine.go:13-23). The field `match` is spelled `match_`. -/
structure Node (T : Type) where
  id : Int
  data : T
  children : List (T × Int)
  fail : Int
  alternative : Int
  match_ : Int
  matchLen : Int

/-- The struct `ACAutomata[T]` (machine.go:8-10). -/
structure ACAutomata (T : Type) where
  nodes : List (Node T)

/-- An enumeration order for `range` over a `map[T]int`: any rearrangement of the entries,
chosen by the contents of the map. `New` ranges over each non-empty map once (the children
of the root when the queue is seeded, the children of a node when it is popped) and the
children maps of two nodes differ when they are not empty, so a function of the contents
covers every order an execution can meet. -/
structure MapOrder (T : Type) where
  enum : List (T × Int) → List (T × Int)
  perm : ∀ m, (enum m).Perm m

/-- The order in which the entries were inserted. -/
def MapOrder.insertion (T : Type) : MapOrder T := ⟨fun m => m, fun m => List.Perm.refl m⟩

/-- The opposite of the insertion order. -/
def MapOrder.reversed (T : Type) : MapOrder T := ⟨fun m => m.reverse, fun m => List.reverse_perm m⟩

section Model

variable {T : Type} [DecidableEq T]

/-- The map read `id, ok := m[k]`. -/
def mapGet : List (T × Int) → T → Option Int
  | [], _ => none
  | (a, v) :: m, k => if a = k then some v else mapGet m k

/-- The map write `m[k] = v`. -/
def mapSet : List (T × Int) → T → Int → List (T × Int)
  | [], k, v => [(k, v)]
  | (a, w) :: m, k, v => if a = k then (a, v) :: m else (a, w) :: mapSet m k v

/-- The slice read `nodes[i]`. -/
def getNode (nodes : List (Node T)) (i : Int) : Option (Node T) :=
  if 0 ≤ i then nodes[i.toNat]? else none

/-- A write to fields of the node `nodes[i]` points to. -/
def updNode (nodes : List (Node T)) (i : Int) (f : Node T → Node T) : Option (List (Node T)) :=
  match getNode nodes i with
  | none => none
  | some n => some (nodes.set i.toNat (f n))

/-! ## `New`: the trie (machine.go:29-85) -/

/-- The variables of the pattern loops: the node slice, the pointer `cur` and the counter `ids`. -/
structure Build (T : Type) where
  nodes : List (Node T)
  cur : Int
  ids : Int

/-- The assignments `n.match = i; n.matchLen = j` when `j == len(pattern)-1`. -/
def markLast (nodes : List (Node T)) (p : Int) (i plen j : Int) : Option (List (Node T)) :=
  if j = plen - 1 then updNode nodes p (fun n => { n with match_ := i, matchLen := j })
  else some nodes

/-- One iteration of the loop over the atoms of pattern `i` (machine.go:51-84). -/
def addAtom [Inhabited T] (i plen j : Int) (atom : T) (st : Build T) : Option (Build T) :=
  match getNode st.nodes st.cur with
  | none => none
  | some curN =>
    match mapGet curN.children atom with
    | some id =>
      match markLast st.nodes id i plen j with
      | none => none
      | some nodes1 =>
        match getNode nodes1 id with
        | none => none
        | some _ => some { nodes := nodes1, cur := id, ids := st.ids }
    | none =>
      let node : Node T :=
        { id := st.ids, data := atom, children := [], fail := -1, alternative := 0,
          match_ := -1, matchLen := 0 }
      let p : Int := st.nodes.length
      match markLast (st.nodes ++ [node]) p i plen j with
      | none => none
      | some nodes2 =>
        match getNode nodes2 p with
        | none => none
        | some nd =>
          match updNode nodes2 st.cur
              (fun n => { n with children := mapSet n.children atom nd.id }) with
          | none => none
          | some nodes3 => some { nodes := nodes3, cur := p, ids := st.ids + 1 }

/-- The loop `for j, atom := range pattern`, from index `j` on. -/
def addAtoms [Inhabited T] (i plen : Int) : List T → Int → Build T → Option (Build T)
  | [], _, st => some st
  | atom :: rest, j, st =>
    match addAtom i plen j atom st with
    | none => none
    | some st1 => addAtoms i plen rest (j + 1) st1

/-- The loop `for i, pattern := range patterns`, from index `i` on; `cur = root` first. -/
def addPatterns [Inhabited T] : List (List T) → Int → Build T → Option (Build T)
  | [], _, st => some st
  | pattern :: rest, i, st =>
    match addAtoms i pattern.length pattern 0 { st with cur := 0 } with
    | none => none
    | some st1 => addPatterns rest (i + 1) st1

/-- The root node (machine.go:31-38); `data` is the zero value of `T`. -/
def rootNode (T : Type) [Inhabited T] : Node T :=
  { id := 0, data := default, children := [], fail := -1, alternative := -1,
    match_ := -1, matchLen := -1 }

/-- Lines 29-85 of `New`: the node slice after all patterns are inserted. -/
def buildTrie [Inhabited T] (patterns : List (List T)) : Option (List (Node T)) :=
  match addPatterns patterns 0 { nodes := [rootNode T], cur := 0, ids := 1 } with
  | none => none
  | some st => some st.nodes

/-! ## `New`: failure and alternative links (machine.go:87-144) -/

/-- The loop `for _, childId := range root.children` (machine.go:93-97). -/
def seedQueue : List Int → List (Node T) → List Int → Option (List (Node T) × List Int)
  | [], nodes, queue => some (nodes, queue)
  | childId :: rest, nodes, queue =>
    match updNode nodes childId (fun n => { n with fail := 0 }) with
    | none => none
    | some nodes1 => seedQueue rest nodes1 (queue ++ [childId])

/-- The suffix search (machine.go:115-127); `temp` is a pointer, the result is its last value. -/
def suffixSearch : Nat → List (Node T) → Int → T → Option Int
  | 0, _, _, _ => none
  | fuel + 1, nodes, temp, a =>
    match getNode nodes temp with
    | none => none
    | some t =>
      let ok := (mapGet t.children a).isSome
      let next : Option Int :=
        if !ok && temp ≠ 0 then (getNode nodes t.fail).map (fun _ => t.fail) else some temp
      match next with
      | none => none
      | some temp1 =>
        if temp1 = 0 || ok then some temp1 else suffixSearch fuel nodes temp1 a

/-- The value assigned to `child.fail` (machine.go:129-133): the child of `temp` along the
atom of `child` if there is one, `root.id` otherwise. -/
def failTarget (t root : Node T) (a : T) : Int :=
  match mapGet t.children a with
  | some node => node
  | none => root.id

/-- The loop `for _, childId := range cur.children` (machine.go:111-137). -/
def linkChildren (fuel : Nat) (cur : Int) :
    List Int → List (Node T) → List Int → Option (List (Node T) × List Int)
  | [], nodes, queue => some (nodes, queue)
  | childId :: rest, nodes, queue =>
    match getNode nodes childId with
    | none => none
    | some child =>
      match getNode nodes cur with
      | none => none
      | some curN =>
        match getNode nodes curN.fail with
        | none => none
        | some _ =>
          match suffixSearch fuel nodes curN.fail child.data with
          | none => none
          | some temp =>
            match getNode nodes temp with
            | none => none
            | some t =>
              match getNode nodes 0 with
              | none => none
              | some root =>
                match updNode nodes childId
                    (fun n => { n with fail := failTarget t root child.data }) with
                | none => none
                | some nodes1 => linkChildren fuel cur rest nodes1 (queue ++ [child.id])

/-- The assignment of `cur.alternative` (machine.go:139-143). -/
def setAlternative (nodes : List (Node T)) (cur : Int) : Option (List (Node T)) :=
  match getNode nodes cur with
  | none => none
  | some curN =>
    match getNode nodes curN.fail with
    | none => none
    | some f =>
      if f.match_ ≥ 0 then updNode nodes cur (fun n => { n with alternative := curN.fail })
      else updNode nodes cur (fun n => { n with alternative := f.alternative })

/-- The queue loop (machine.go:99-144). -/
def linkLoop (o : MapOrder T) : Nat → List (Node T) → List Int → Option (List (Node T))
  | 0, _, _ => none
  | _ + 1, nodes, [] => some nodes
  | fuel + 1, nodes, id :: failQueue =>
    match getNode nodes id with
    | none => none
    | some curN =>
      match linkChildren (nodes.length + 1) id ((o.enum curN.children).map Prod.snd)
          nodes failQueue with
      | none => none
      | some (nodes1, queue1) =>
        match setAlternative nodes1 id with
        | none => none
        | some nodes2 => linkLoop o fuel nodes2 queue1

/-- Lines 87-144 of `New`, on the node slice of the trie. -/
def linkFailures (o : MapOrder T) (fuel : Nat) (nodes : List (Node T)) :
    Option (List (Node T)) :=
  match getNode nodes 0 with
  | none => none
  | some root =>
    match updNode nodes 0 (fun n => { n with fail := root.id }) with
    | none => none
    | some nodes1 =>
      match seedQueue ((o.enum root.children).map Prod.snd) nodes1 [] with
      | none => none
      | some (nodes2, queue) => linkLoop o fuel nodes2 queue

/-- The function `New` (machine.go:28-147). -/
def New [Inhabited T] (o : MapOrder T) (patterns : List (List T)) : Option (ACAutomata T) :=
  match buildTrie patterns with
  | none => none
  | some nodes =>
    match linkFailures o (nodes.length + 1) nodes with
    | none => none
    | some nodes1 => some { nodes := nodes1 }

/-! ## `Next` (machine.go:199-242) -/

/-- The loop over the alternative chain (machine.go:211-219). -/
def altLoop : Nat → List (Node T) → Int → List Int → Option (List Int)
  | 0, _, _, _ => none
  | fuel + 1, nodes, temp, matched =>
    if temp < 0 then some matched
    else
      match getNode nodes temp with
      | none => none
      | some n => altLoop fuel nodes n.alternative (matched ++ [n.match_])

/-- The fallback loop (machine.go:222-234). -/
def failLoop : Nat → List (Node T) → Node T → T → Option (Node T)
  | 0, _, _, _ => none
  | fuel + 1, nodes, node, c =>
    let ok := (mapGet node.children c).isSome
    if node.id = 0 then some node
    else if ok then some node
    else
      match getNode nodes node.fail with
      | none => none
      | some n => failLoop fuel nodes n c

/-- The body of `Next` from the label `Start`; each `goto Start` costs one unit of `gas`. -/
def nextFrom (a : ACAutomata T) (fuel : Nat) :
    Nat → Node T → List Int → T → Option (List Int × Int)
  | 0, _, _, _ => none
  | gas + 1, node, matched, c =>
    match mapGet node.children c with
    | some id =>
      match getNode a.nodes id with
      | none => none
      | some node1 =>
        let matched1 := if node1.match_ ≥ 0 then matched ++ [node1.match_] else matched
        match altLoop fuel a.nodes node1.alternative matched1 with
        | none => none
        | some matched2 => some (matched2, node1.id)
    | none =>
      match failLoop fuel a.nodes node c with
      | none => none
      | some node1 =>
        if (mapGet node1.children c).isSome then nextFrom a fuel gas node1 matched c
        else some (matched, node1.id)

/-- The method `Next` with explicit loop bounds. -/
def NextFuel (fuel : Nat) (a : ACAutomata T) (index : Int) (_patterns : List (List T)) (c : T) :
    Option (List Int × Int) :=
  match getNode a.nodes index with
  | none => none
  | some node => nextFrom a fuel fuel node [] c

/-- The method `Next` (machine.go:199-242). -/
def Next (a : ACAutomata T) (index : Int) (patterns : List (List T)) (c : T) :
    Option (List Int × Int) :=
  NextFuel (a.nodes.length + 1) a index patterns c

/-! ## `Counts` (machine.go:302-322) -/

/-- The loop `for _, x := range xs { matched[x]++ }`. -/
def bump : List Int → List Int → Option (List Int)
  | [], matched => some matched
  | x :: xs, matched =>
    if 0 ≤ x then
      match matched[x.toNat]? with
      | none => none
      | some v => bump xs (matched.set x.toNat (v + 1))
    else none

/-- The loop `for _, atom := range input` of `Counts`. -/
def countsLoop (a : ACAutomata T) (patterns : List (List T)) :
    List T → Int → List Int → Option (List Int)
  | [], _, matched => some matched
  | atom :: rest, cur, matched =>
    match Next a cur patterns atom with
    | none => none
    | some (xs, cur1) =>
      match bump xs matched with
      | none => none
      | some matched1 => countsLoop a patterns rest cur1 matched1

/-- The method `Counts` (machine.go:302-322). -/
def Counts (a : ACAutomata T) (patterns : List (List T)) (input : List T) : Option (List Int) :=
  countsLoop a patterns input 0 (List.replicate patterns.length 0)

/-! ## `Indexes` (machine.go:247-297) -/

/-- The statement `indexes[k] = append(indexes[k], v)`. -/
def pushAt (indexes : List (List Int)) (k v : Int) : Option (List (List Int)) :=
  if 0 ≤ k then
    match indexes[k.toNat]? with
    | none => none
    | some l => some (indexes.set k.toNat (l ++ [v]))
  else none

/-- The loop over the alternative chain in `Indexes` (machine.go:265-273). -/
def altIndexLoop : Nat → List (Node T) → Int → Int → List (List Int) → Option (List (List Int))
  | 0, _, _, _, _ => none
  | fuel + 1, nodes, temp, i, indexes =>
    if temp < 0 then some indexes
    else
      match getNode nodes temp with
      | none => none
      | some n =>
        match pushAt indexes n.match_ (i - n.matchLen) with
        | none => none
        | some indexes1 => altIndexLoop fuel nodes n.alternative i indexes1

/-- The fallback loop in `Indexes` (machine.go:276-288). -/
def indexFailLoop : Nat → List (Node T) → Node T → T → Option (Node T)
  | 0, _, _, _ => none
  | fuel + 1, nodes, node, c =>
    let ok := (mapGet node.children c).isSome
    if node.id = 0 then some node
    else if ok then some node
    else
      match getNode nodes node.fail with
      | none => none
      | some n => indexFailLoop fuel nodes n c

/-- The main loop of `Indexes` (machine.go:254-294), one unit of `gas` per iteration. -/
def indexesLoop (a : ACAutomata T) (fuel : Nat) (input : List T) :
    Nat → Int → Node T → List (List Int) → Option (List (List Int))
  | 0, _, _, _ => none
  | gas + 1, i, node, indexes =>
    if i < input.length then
      if 0 ≤ i then
        match input[i.toNat]? with
        | none => none
        | some c =>
          match mapGet node.children c with
          | some id =>
            match getNode a.nodes id with
            | none => none
            | some node1 =>
              let marked : Option (List (List Int)) :=
                if node1.match_ ≥ 0 then pushAt indexes node1.match_ (i - node1.matchLen)
                else some indexes
              match marked with
              | none => none
              | some indexes1 =>
                match altIndexLoop fuel a.nodes node1.alternative i indexes1 with
                | none => none
                | some indexes2 => indexesLoop a fuel input gas (i + 1) node1 indexes2
          | none =>
            match indexFailLoop fuel a.nodes node c with
            | none => none
            | some node1 =>
              let i1 := if (mapGet node1.children c).isSome then i - 1 else i
              indexesLoop a fuel input gas (i1 + 1) node1 indexes
      else none
    else some indexes

/-- The method `Indexes` (machine.go:247-297). -/
def Indexes (a : ACAutomata T) (patterns : List (List T)) (input : List T) :
    Option (List (List Int)) :=
  match getNode a.nodes 0 with
  | none => none
  | some node =>
    indexesLoop a (a.nodes.length + 1) input (2 * input.length + 1) 0 node
      (List.replicate patterns.length [])

end Model

/-! ## Paths of the trie -/

section Paths

variable {T : Type} [DecidableEq T]

/-- The child of the node at `v` along the atom `a`: `nodes[v].children[a]`. -/
def childOf (nodes : List (Node T)) (v : Int) (a : T) : Option Int :=
  match getNode nodes v with
  | none => none
  | some n => mapGet n.children a

/-- The node reached from `v` by following `children` along a word. -/
def walkFrom (nodes : List (Node T)) : Int → List T → Option Int
  | v, [] => some v
  | v, a :: w =>
    match childOf nodes v a with
    | none => none
    | some c => walkFrom nodes c w

/-- The node whose path from the root (node 0) is the word `w`, if there is one. -/
def walk (nodes : List (Node T)) (w : List T) : Option Int := walkFrom nodes 0 w

/-- The longest suffix of `u` that is the path of a node. -/
def lsuf (nodes : List (Node T)) : List T → List T
  | [] => []
  | a :: u => if (walk nodes (a :: u)).isSome then a :: u else lsuf nodes u

/-- The `match` field of the node with path `y`, as a list: empty when there is no such node
or the field is negative. -/
def markAt (nodes : List (Node T)) (y : List T) : List Int :=
  match walk nodes y with
  | none => []
  | some v =>
    match getNode nodes v with
    | none => []
    | some n => if n.match_ ≥ 0 then [n.match_] else []

/-- The `match` fields met along the non-empty suffixes of `u`, longest suffix first. -/
def outs (nodes : List (Node T)) : List T → List Int
  | [] => []
  | a :: u => markAt nodes (a :: u) ++ outs nodes u

/-! ## Invariants -/

/-- Shape of the trie: ids are positions, every node has exactly one path from the root, paths
are shorter than the node count, a child carries the atom of its edge, map keys are unique. -/
structure Trie (nodes : List (Node T)) : Prop where
  ids : ∀ v n, getNode nodes v = some n → n.id = v
  reach : ∀ v n, getNode nodes v = some n → ∃ w, walk nodes w = some v
  inj : ∀ w1 w2 v, walk nodes w1 = some v → walk nodes w2 = some v → w1 = w2
  depth : ∀ w v, walk nodes w = some v → 0 ≤ v ∧ v < nodes.length ∧ w.length < nodes.length
  data : ∀ v a c n, childOf nodes v a = some c → getNode nodes c = some n → n.data = a
  keys : ∀ v n, getNode nodes v = some n → (n.children.map Prod.fst).Nodup

/-- The paths of the trie are the prefixes of the patterns `Q` and of the word `extra`. -/
def Covers (nodes : List (Node T)) (Q : List (List T)) (extra : List T) : Prop :=
  ∀ y, (walk nodes y).isSome ↔ ((∃ q, q ∈ Q ∧ y <+: q) ∨ y <+: extra)

/-- The `match` field of the node with path `y` is the last index at which the non-empty
pattern `y` stands in `Q` (and `matchLen` its length minus one), or `-1` if there is none. -/
def Marks (nodes : List (Node T)) (Q : List (List T)) : Prop :=
  ∀ y v n, walk nodes y = some v → getNode nodes v = some n →
    (n.match_ = -1 ∨
      (0 ≤ n.match_ ∧ Q[n.match_.toNat]? = some y ∧ y ≠ [] ∧
        n.matchLen = (y.length : Int) - 1)) ∧
    (∀ k : Nat, Q[k]? = some y → y ≠ [] → (k : Int) ≤ n.match_)

/-- The nodes of two slices agree on `id`, `data` and `children`. -/
def SameShape (nodes nodes1 : List (Node T)) : Prop :=
  nodes1.length = nodes.length ∧
  ∀ v n, getNode nodes v = some n →
    ∃ n1, getNode nodes1 v = some n1 ∧ n1.id = n.id ∧ n1.data = n.data ∧
      n1.children = n.children

/-- The nodes of two slices agree on `match` and `matchLen`. -/
def SameMarks (nodes nodes1 : List (Node T)) : Prop :=
  ∀ v n n1, getNode nodes v = some n → getNode nodes1 v = some n1 →
    n1.match_ = n.match_ ∧ n1.matchLen = n.matchLen

/-- The failure link of `v` leads to the node of the longest proper suffix of the path of `v`
that is a path (for the root: to the root). -/
def FailAt (nodes : List (Node T)) (v : Int) : Prop :=
  ∀ w n, walk nodes w = some v → getNode nodes v = some n →
    walk nodes (lsuf nodes w.tail) = some n.fail

/-- The alternative link of `v` is its failure node when that one is marked, and the
alternative link of the failure node otherwise. -/
def AltAt (nodes : List (Node T)) (v : Int) : Prop :=
  ∀ n, getNode nodes v = some n →
    ∃ f, getNode nodes n.fail = some f ∧
      n.alternative = if f.match_ ≥ 0 then n.fail else f.alternative

/-- The links of a finished automaton. -/
structure Linked (nodes : List (Node T)) : Prop where
  failOK : ∀ w v, walk nodes w = some v → FailAt nodes v
  altRoot : ∀ r, getNode nodes 0 = some r → r.alternative = -1
  altOK : ∀ w v, w ≠ [] → walk nodes w = some v → AltAt nodes v

/-- A function giving every node of the trie its path from the root. -/
structure PathFn (nodes0 : List (Node T)) (path : Int → List T) : Prop where
  trie : Trie nodes0
  onPath : ∀ v : Int, 0 ≤ v → v < nodes0.length → walk nodes0 (path v) = some v

/-- The invariant of the queue loop of `New`: `done` lists the nodes popped so far, `q` is the
queue, `path` gives every node its path in the trie `nodes0` built by the first phase. -/
structure LinkInv (nodes0 nodes : List (Node T)) (path : Int → List T) (done q : List Int) :
    Prop where
  shape : SameShape nodes0 nodes
  marks : SameMarks nodes0 nodes
  rootFail : ∀ r, getNode nodes 0 = some r → r.fail = 0 ∧ r.alternative = -1
  valid : ∀ v, v ∈ done ++ q → 0 < v ∧ v < nodes0.length
  nodup : (done ++ q).Nodup
  sorted : (done ++ q).Pairwise (fun x y => (path x).length ≤ (path y).length)
  near : ∀ x, x ∈ q → ∀ y, y ∈ q → (path y).length ≤ (path x).length + 1
  front : ∀ v a c, childOf nodes0 v a = some c → (c ∈ done ++ q ↔ (v = 0 ∨ v ∈ done))
  failOK : ∀ v, v ∈ done ++ q → FailAt nodes v
  altOK : ∀ v, v ∈ done → AltAt nodes v

/-! ## Scans -/

/-- The pattern `p` stands in `S` at the start offset `j`: `S[j .. j+len(p)) == p`. -/
def occursAt (p S : List T) (j : Nat) : Prop :=
  j + p.length ≤ S.length ∧ (S.drop j).take p.length = p

instance occursAtDecidable (p S : List T) (j : Nat) : Decidable (occursAt p S j) := by
  unfold occursAt
  exact inferInstance

/-- The start offsets of `p` in `S` found by naive scanning, in increasing order. -/
def occurrences (p S : List T) : List Nat :=
  (List.range (S.length + 1)).filter (fun j => decide (occursAt p S j))

/-- The number of (possibly overlapping) occurrences of `p` in `S`. -/
def naiveCount (p S : List T) : Nat := (occurrences p S).length

/-- The index `k` is the last one at which its pattern stands in `P`. -/
def lastIndex (P : List (List T)) (k : Nat) : Prop :=
  ∀ j, j < P.length → k < j → P[j]? ≠ P[k]?

instance lastIndexDecidable (P : List (List T)) (k : Nat) : Decidable (lastIndex P k) := by
  unfold lastIndex
  exact inferInstance

/-- The length of the pattern with index `k`: `len(P[k])`. -/
def patLen (P : List (List T)) (k : Int) : Int := ((P.getD k.toNat []).length : Int)

/-- The start offset `i - (len(P[k]) - 1)`, once for each occurrence of `k` in the matches
`xs` returned at position `i`. -/
def offsetsAt (P : List (List T)) (i : Int) (xs : List Int) (k : Nat) : List Int :=
  List.replicate (xs.count (k : Int)) (i - (patLen P k - 1))

/-- The start offsets recorded for `k` from the match lists `xs_i, xs_(i+1), ...`. -/
def offsetsFrom (P : List (List T)) (k : Nat) : Nat → List (List Int) → List Int
  | _, [] => []
  | i, xs :: runs => offsetsAt P i xs k ++ offsetsFrom P k (i + 1) runs

/-- The match lists returned by `Next` driven over an input from the state `s`, the state
threaded from call to call. -/
def nextRuns (a : ACAutomata T) (patterns : List (List T)) :
    List T → Int → Option (List (List Int))
  | [], _ => some []
  | c :: rest, s =>
    match Next a s patterns c with
    | none => none
    | some (xs, s1) =>
      match nextRuns a patterns rest s1 with
      | none => none
      | some runs => some (xs :: runs)

/-- The marks met along the suffixes of each prefix `u ++ rest[0..i]` of the input. -/
def scanOuts (nodes : List (Node T)) : List T → List T → List (List Int)
  | _, [] => []
  | u, c :: rest => outs nodes (u ++ [c]) :: scanOuts nodes (u ++ [c]) rest

/-- The start offsets of index `k` over the scan of `rest` after the input `u`. -/
def hitOffsets (nodes : List (Node T)) (P : List (List T)) (k : Nat) (u rest : List T) :
    List Int :=
  offsetsFrom P k u.length (scanOuts nodes u rest)

/-! ## The single step, as the specification words it -/

/-- The first node in the sequence `s, fail(s), fail(fail(s)), ...` (ending at the root,
node 0) that has a child for `c`: `some (some v)` when `v` is that node, `some none` when the
sequence reaches the root and none of its nodes has such a child, `none` when the sequence
leaves the node slice or is longer than `fuel`. -/
def firstWithChild (nodes : List (Node T)) : Nat → Int → T → Option (Option Int)
  | 0, _, _ => none
  | fuel + 1, s, c =>
    match getNode nodes s with
    | none => none
    | some n =>
      if (mapGet n.children c).isSome then some (some s)
      else if s = 0 then some none
      else firstWithChild nodes fuel n.fail c

/-- The list of `match(u)` for each `u` on the chain `u, alternative(u), ...` until `-1`;
`none` when the chain leaves the node slice or is longer than `fuel`. -/
def altMatches (nodes : List (Node T)) : Nat → Int → Option (List Int)
  | 0, _ => none
  | fuel + 1, u =>
    if u = -1 then some []
    else
      match getNode nodes u with
      | none => none
      | some n =>
        match altMatches nodes fuel n.alternative with
        | none => none
        | some l => some (n.match_ :: l)

/-- The structured definition of one step: fall back to the first node with a child for `c`,
then one direct transition to `t = child(v, c)`, reporting `match(t)` if it is not negative
and then the matches along the alternative chain of `t`; the empty list and state 0 when no
node of the fallback sequence has a child for `c`. -/
def nextSpec (nodes : List (Node T)) (s : Int) (c : T) : Option (List Int × Int) :=
  match firstWithChild nodes (nodes.length + 1) s c with
  | none => none
  | some none => some ([], 0)
  | some (some v) =>
    match childOf nodes v c with
    | none => none
    | some t =>
      match getNode nodes t with
      | none => none
      | some n =>
        match altMatches nodes (nodes.length + 1) n.alternative with
        | none => none
        | some l => some ((if n.match_ ≥ 0 then [n.match_] else []) ++ l, t)

/-! ## Inputs of the tests (machine_test.go), atoms as code points -/

/-- The input `"foobarfoobazbarr"`. -/
def testInput : List Nat :=
  [102, 111, 111, 98, 97, 114, 102, 111, 111, 98, 97, 122, 98, 97, 114, 114]

/-- The patterns `"foobar", "oobar", "obar", "bar", "ar", "r"` of `TestWithStrings`. -/
def testPatterns : List (List Nat) :=
  [[102, 111, 111, 98, 97, 114], [111, 111, 98, 97, 114], [111, 98, 97, 114], [98, 97, 114],
    [97, 114], [114]]

/-- The pattern `"o"` of `TestIndexes`. -/
def testPatternO : List (List Nat) := [[111]]

/-- A pattern list with a zero-length pattern at index 1. -/
def testWithEmpty : List (List Nat) := [[98, 97, 114], [], [114]]

/-- A pattern list in which `"ar"` stands at the indices 0 and 2. -/
def testDuplicates : List (List Nat) := [[97, 114], [114], [97, 114]]

/-- What `New` establishes for the pattern list `P`. -/
structure Built (nodes : List (Node T)) (P : List (List T)) : Prop where
  trie : Trie nodes
  covers : Covers nodes P []
  marks : Marks nodes P
  linked : Linked nodes

end Paths

end aca


namespace aca

section Logs

variable {T : Type} [DecidableEq T]

/-! ## The failure-link pass of `New` with a log (machine.go:87-144) -/

/-- The suffix search (machine.go:115-127) together with the number of executions of the
statement `temp = nodes[temp.fail]`. -/
def suffixSearchSteps : Nat → List (Node T) → Int → T → Option (Int × Nat)
  | 0, _, _, _ => none
  | fuel + 1, nodes, temp, a =>
    match getNode nodes temp with
    | none => none
    | some t =>
      let ok := (mapGet t.children a).isSome
      let moved := !ok && temp ≠ 0
      let next : Option Int :=
        if moved then (getNode nodes t.fail).map (fun _ => t.fail) else some temp
      match next with
      | none => none
      | some temp1 =>
        let k : Nat := if moved then 1 else 0
        if temp1 = 0 || ok then some (temp1, k)
        else
          match suffixSearchSteps fuel nodes temp1 a with
          | none => none
          | some (r, n) => some (r, n + k)

/-- The loop `for _, childId := range cur.children` (machine.go:111-137), with the number of
fail steps of each suffix search. -/
def linkChildrenLog (fuel : Nat) (cur : Int) :
    List Int → List (Node T) → List Int → List Nat →
      Option (List (Node T) × List Int × List Nat)
  | [], nodes, queue, steps => some (nodes, queue, steps)
  | childId :: rest, nodes, queue, steps =>
    match getNode nodes childId with
    | none => none
    | some child =>
      match getNode nodes cur with
      | none => none
      | some curN =>
        match getNode nodes curN.fail with
        | none => none
        | some _ =>
          match suffixSearchSteps fuel nodes curN.fail child.data with
          | none => none
          | some (temp, k) =>
            match getNode nodes temp with
            | none => none
            | some t =>
              match getNode nodes 0 with
              | none => none
              | some root =>
                match updNode nodes childId
                    (fun n => { n with fail := failTarget t root child.data }) with
                | none => none
                | some nodes1 =>
                  linkChildrenLog fuel cur rest nodes1 (queue ++ [child.id]) (steps ++ [k])

/-- One round of the queue loop: the id popped, the node slice at that moment, the ids the
round appended to the queue, and the fail steps of the suffix search of each child. -/
structure Round (T : Type) where
  cur : Int
  before : List (Node T)
  pushed : List Int
  steps : List Nat

/-- The queue loop (machine.go:99-144) with the log of its rounds. -/
def linkLoopLog (o : MapOrder T) :
    Nat → List (Node T) → List Int → Option (List (Node T) × List (Round T))
  | 0, _, _ => none
  | _ + 1, nodes, [] => some (nodes, [])
  | fuel + 1, nodes, id :: failQueue =>
    match getNode nodes id with
    | none => none
    | some curN =>
      match linkChildrenLog (nodes.length + 1) id ((o.enum curN.children).map Prod.snd)
          nodes failQueue [] with
      | none => none
      | some (nodes1, queue1, steps) =>
        match setAlternative nodes1 id with
        | none => none
        | some nodes2 =>
          match linkLoopLog o fuel nodes2 queue1 with
          | none => none
          | some (nodes3, log) =>
            some (nodes3,
              { cur := id, before := nodes, pushed := queue1.drop failQueue.length,
                steps := steps } :: log)

/-- Lines 87-144 of `New` with the ids queued by the seeding loop and the log of the rounds. -/
def linkFailuresLog (o : MapOrder T) (fuel : Nat) (nodes : List (Node T)) :
    Option (List (Node T) × List Int × List (Round T)) :=
  match getNode nodes 0 with
  | none => none
  | some root =>
    match updNode nodes 0 (fun n => { n with fail := root.id }) with
    | none => none
    | some nodes1 =>
      match seedQueue ((o.enum root.children).map Prod.snd) nodes1 [] with
      | none => none
      | some (nodes2, queue) =>
        match linkLoopLog o fuel nodes2 queue with
        | none => none
        | some (nodes3, log) => some (nodes3, queue, log)

/-- The function `New` with the log of its failure-link pass. -/
def NewLog [Inhabited T] (o : MapOrder T) (patterns : List (List T)) :
    Option (ACAutomata T × List Int × List (Round T)) :=
  match buildTrie patterns with
  | none => none
  | some nodes =>
    match linkFailuresLog o (nodes.length + 1) nodes with
    | none => none
    | some (nodes1, seeds, log) => some ({ nodes := nodes1 }, seeds, log)

/-- The ids the rounds of a log appended to the queue, in order. -/
def pushedAll : List (Round T) → List Int
  | [] => []
  | r :: log => r.pushed ++ pushedAll log

/-- The ids the queue received, in order: the seeds, then what each round appended. -/
def received (seeds : List Int) (log : List (Round T)) : List Int :=
  seeds ++ pushedAll log

/-! ## `Indexes` with a log of the iterations of its main loop (machine.go:254-294) -/

/-- One execution of the body of the main loop of `Indexes`: the position `i` at its start,
whether the direct-child branch was taken, and whether it ended with `i--`. -/
structure Visit where
  pos : Int
  direct : Bool
  dec : Bool
deriving DecidableEq

/-- The main loop of `Indexes` (machine.go:254-294) with the log of its iterations. -/
def indexesLoopLog (a : ACAutomata T) (fuel : Nat) (input : List T) :
    Nat → Int → Node T → List (List Int) → Option (List (List Int) × List Visit)
  | 0, _, _, _ => none
  | gas + 1, i, node, indexes =>
    if i < input.length then
      if 0 ≤ i then
        match input[i.toNat]? with
        | none => none
        | some c =>
          match mapGet node.children c with
          | some id =>
            match getNode a.nodes id with
            | none => none
            | some node1 =>
              let marked : Option (List (List Int)) :=
                if node1.match_ ≥ 0 then pushAt indexes node1.match_ (i - node1.matchLen)
                else some indexes
              match marked with
              | none => none
              | some indexes1 =>
                match altIndexLoop fuel a.nodes node1.alternative i indexes1 with
                | none => none
                | some indexes2 =>
                  match indexesLoopLog a fuel input gas (i + 1) node1 indexes2 with
                  | none => none
                  | some (r, log) => some (r, { pos := i, direct := true, dec := false } :: log)
          | none =>
            match indexFailLoop fuel a.nodes node c with
            | none => none
            | some node1 =>
              let found := (mapGet node1.children c).isSome
              let i1 := if found then i - 1 else i
              match indexesLoopLog a fuel input gas (i1 + 1) node1 indexes with
              | none => none
              | some (r, log) => some (r, { pos := i, direct := false, dec := found } :: log)
      else none
    else some (indexes, [])

/-- The method `Indexes` with the log of the iterations of its main loop. -/
def IndexesLog (a : ACAutomata T) (patterns : List (List T)) (input : List T) :
    Option (List (List Int) × List Visit) :=
  match getNode a.nodes 0 with
  | none => none
  | some node =>
    indexesLoopLog a (a.nodes.length + 1) input (2 * input.length + 1) 0 node
      (List.replicate patterns.length [])

/-- The shape of a log that advances over `n` positions from `i`: at each position either one
direct iteration, or a fallback iteration ending with `i--` followed by a direct iteration at
the same position, or one fallback iteration that found no child. -/
def Blocks : Int → Nat → List Visit → Prop
  | _, 0, tr => tr = []
  | i, n + 1, tr =>
    ∃ rest,
      (tr = { pos := i, direct := true, dec := false } :: rest ∨
        tr = { pos := i, direct := false, dec := true } ::
          { pos := i, direct := true, dec := false } :: rest ∨
        tr = { pos := i, direct := false, dec := false } :: rest) ∧
      Blocks (i + 1) n rest

/-! ## Chains and scans, as the specification words them -/

/-- The first node `u` on the chain `u, fail(u), fail(fail(u)), ...` with `match(u) >= 0`, and
`-1` if no node on that chain up to and including the root has `match >= 0`; `none` when the
chain leaves the node slice or does not reach the root within `fuel` steps. -/
def firstMarked (nodes : List (Node T)) : Nat → Int → Option Int
  | 0, _ => none
  | fuel + 1, u =>
    match getNode nodes u with
    | none => none
    | some n =>
      if n.match_ ≥ 0 then some u
      else if u = 0 then some (-1)
      else firstMarked nodes fuel n.fail

/-- The states `s_1, s_2, ...` returned by `Next` driven over an input from the state `s`. -/
def nextStates (a : ACAutomata T) (patterns : List (List T)) :
    List T → Int → Option (List Int)
  | [], _ => some []
  | c :: rest, s =>
    match Next a s patterns c with
    | none => none
    | some (_, s1) =>
      match nextStates a patterns rest s1 with
      | none => none
      | some states => some (s1 :: states)

/-- A pattern list of two zero-length patterns. -/
def testAllEmpty : List (List Nat) := [[], []]

/-- The patterns `"aac", "c"`: the suffix search for the child `c` of the node `"aa"` makes a
fail step. -/
def testFallback : List (List Nat) := [[97, 97, 99], [99]]

end Logs

end aca

set_option linter.unusedSectionVars false
set_option linter.unusedVariables false

namespace aca

/-! ## Slices and maps -/

section Basic

variable {T : Type} [DecidableEq T]

theorem getNode_valid {nodes : List (Node T)} {i : Int} {n : Node T}
    (h : getNode nodes i = some n) : 0 ≤ i ∧ i < nodes.length := by
  unfold getNode at h
  split at h
  · rename_i h0
    have := (List.getElem?_eq_some.1 h).1
    omega
  · cases h

theorem getNode_of_valid {nodes : List (Node T)} {i : Int} (h0 : 0 ≤ i)
    (h1 : i < nodes.length) : ∃ n, getNode nodes i = some n := by
  have h2 : i.toNat < nodes.length := by omega
  exact ⟨nodes[i.toNat], by simp [getNode, h0, List.getElem?_eq_getElem h2]⟩

theorem getNode_in (nodes : List (Node T)) {i : Int} (h0 : 0 ≤ i)
    (h1 : i < nodes.length) : ∃ n, getNode nodes i = some n :=
  getNode_of_valid h0 h1

theorem getNode_none_of_ge {nodes : List (Node T)} {i : Int}
    (h1 : (nodes.length : Int) ≤ i) : getNode nodes i = none := by
  cases h : getNode nodes i with
  | none => rfl
  | some n => have := getNode_valid h; omega

theorem getNode_none_of_neg {nodes : List (Node T)} {i : Int}
    (h1 : i < 0) : getNode nodes i = none := by
  cases h : getNode nodes i with
  | none => rfl
  | some n => have := getNode_valid h; omega

theorem updNode_some {nodes : List (Node T)} {i : Int} {n : Node T} (f : Node T → Node T)
    (h : getNode nodes i = some n) : updNode nodes i f = some (nodes.set i.toNat (f n)) := by
  simp [updNode, h]

theorem updNode_spec {nodes nodes1 : List (Node T)} {i : Int} {f : Node T → Node T}
    (h : updNode nodes i f = some nodes1) :
    ∃ n, getNode nodes i = some n ∧ nodes1.length = nodes.length ∧
      ∀ j, getNode nodes1 j = if j = i then some (f n) else getNode nodes j := by
  unfold updNode at h
  cases hn : getNode nodes i with
  | none => simp [hn] at h
  | some n =>
    simp only [hn, Option.some.injEq] at h
    subst h
    refine ⟨n, rfl, by simp, ?_⟩
    intro j
    have hv := getNode_valid hn
    by_cases hj : j = i
    · subst hj
      have h2 : j.toNat < nodes.length := by omega
      simp [getNode, hv.1, List.getElem?_set, h2]
    · simp only [hj, if_false]
      unfold getNode
      by_cases h0 : 0 ≤ j
      · simp only [h0, if_true]
        have : i.toNat ≠ j.toNat := by omega
        simp [List.getElem?_set, this]
      · simp [h0]

theorem updNode_other {nodes nodes1 : List (Node T)} {i : Int} {f : Node T → Node T}
    (h : updNode nodes i f = some nodes1) {v : Int} (hv : v ≠ i) :
    getNode nodes1 v = getNode nodes v := by
  obtain ⟨n, _, _, hg⟩ := updNode_spec h
  rw [hg]; simp [hv]

theorem updNode_self {nodes nodes1 : List (Node T)} {i : Int} {f : Node T → Node T}
    (h : updNode nodes i f = some nodes1) {n : Node T} (hn : getNode nodes i = some n) :
    getNode nodes1 i = some (f n) := by
  obtain ⟨m, hm, _, hg⟩ := updNode_spec h
  rw [hn] at hm; cases hm
  rw [hg]; simp

theorem updNode_field {nodes nodes1 : List (Node T)} {i : Int} {f : Node T → Node T}
    (h : updNode nodes i f = some nodes1) {α : Type} (g : Node T → α)
    (hf : ∀ n, g (f n) = g n) (v : Int) (n n1 : Node T) (hn : getNode nodes v = some n)
    (h1 : getNode nodes1 v = some n1) : g n1 = g n := by
  by_cases hv : v = i
  · subst hv
    rw [updNode_self h hn] at h1
    cases h1
    exact hf n
  · rw [updNode_other h hv, hn] at h1
    cases h1; rfl

theorem updNode_shape {nodes nodes1 : List (Node T)} {i : Int} {f : Node T → Node T}
    (h : updNode nodes i f = some nodes1)
    (hf : ∀ n, (f n).id = n.id ∧ (f n).data = n.data ∧ (f n).children = n.children) :
    SameShape nodes nodes1 := by
  refine ⟨(updNode_spec h).choose_spec.2.1, ?_⟩
  intro v n hn
  by_cases hv : v = i
  · subst hv
    exact ⟨f n, updNode_self h hn, hf n⟩
  · exact ⟨n, by rw [updNode_other h hv]; exact hn, rfl, rfl, rfl⟩

theorem updNode_marks {nodes nodes1 : List (Node T)} {i : Int} {f : Node T → Node T}
    (h : updNode nodes i f = some nodes1)
    (hf : ∀ n, (f n).match_ = n.match_ ∧ (f n).matchLen = n.matchLen) :
    SameMarks nodes nodes1 := by
  intro v n n1 hn h1
  exact ⟨updNode_field h Node.match_ (fun n => (hf n).1) v n n1 hn h1,
    updNode_field h Node.matchLen (fun n => (hf n).2) v n n1 hn h1⟩

theorem getNode_append_left {nodes : List (Node T)} {i : Int} (x : Node T)
    (h : i < nodes.length) : getNode (nodes ++ [x]) i = getNode nodes i := by
  unfold getNode
  by_cases h0 : 0 ≤ i
  · simp only [h0, if_true]
    have : i.toNat < nodes.length := by omega
    simp [List.getElem?_append_left this]
  · simp [h0]

theorem getNode_append_length (nodes : List (Node T)) (x : Node T) :
    getNode (nodes ++ [x]) nodes.length = some x := by
  unfold getNode
  simp

/-! ### Maps -/

theorem mapGet_mem {m : List (T × Int)} {k : T} {v : Int} (h : mapGet m k = some v) :
    (k, v) ∈ m := by
  induction m with
  | nil => simp [mapGet] at h
  | cons e m ih =>
    obtain ⟨a, w⟩ := e
    unfold mapGet at h
    split at h
    · rename_i hak
      simp only [Option.some.injEq] at h
      subst hak; subst h
      simp
    · exact List.mem_cons_of_mem _ (ih h)

theorem mapGet_none_iff {m : List (T × Int)} {k : T} :
    mapGet m k = none ↔ k ∉ m.map Prod.fst := by
  induction m with
  | nil => simp [mapGet]
  | cons e m ih =>
    obtain ⟨a, w⟩ := e
    unfold mapGet
    by_cases hak : a = k
    · simp [hak]
    · simp only [hak, if_false, ih, List.map_cons, List.mem_cons]
      constructor
      · intro h hh
        rcases hh with hh | hh
        · exact hak hh.symm
        · exact h hh
      · intro h hh
        exact h (Or.inr hh)

theorem mapGet_of_mem {m : List (T × Int)} {k : T} {v : Int} (hnd : (m.map Prod.fst).Nodup)
    (h : (k, v) ∈ m) : mapGet m k = some v := by
  induction m with
  | nil => simp at h
  | cons e m ih =>
    obtain ⟨a, w⟩ := e
    simp only [List.map_cons, List.nodup_cons] at hnd
    unfold mapGet
    rcases List.mem_cons.1 h with h | h
    · simp only [Prod.mk.injEq] at h
      simp [h.1, h.2]
    · have hne : a ≠ k := by
        intro hak
        subst hak
        exact hnd.1 (List.mem_map.2 ⟨(a, v), h, rfl⟩)
      simp only [hne, if_false]
      exact ih hnd.2 h

theorem mapGet_mapSet (m : List (T × Int)) (k : T) (v : Int) (k1 : T) :
    mapGet (mapSet m k v) k1 = if k = k1 then some v else mapGet m k1 := by
  induction m with
  | nil => simp [mapSet, mapGet]
  | cons e m ih =>
    obtain ⟨a, w⟩ := e
    unfold mapSet
    by_cases hak : a = k
    · subst hak
      simp only [if_true]
      unfold mapGet
      by_cases h1 : a = k1 <;> simp [h1]
    · simp only [hak, if_false]
      unfold mapGet
      by_cases h1 : a = k1
      · subst h1
        have : ¬ k = a := fun h => hak h.symm
        simp [this]
      · simp [h1, ih]

theorem mapSet_keys_of_none {m : List (T × Int)} {k : T} (v : Int) (h : mapGet m k = none) :
    (mapSet m k v).map Prod.fst = m.map Prod.fst ++ [k] := by
  induction m with
  | nil => simp [mapSet]
  | cons e m ih =>
    obtain ⟨a, w⟩ := e
    unfold mapGet at h
    by_cases hak : a = k
    · simp [hak] at h
    · simp only [hak, if_false] at h
      unfold mapSet
      simp [hak, ih h]

end Basic

end aca

namespace aca

/-! ## Paths and slices of the same shape -/

section PathsLemmas

variable {T : Type} [DecidableEq T]

theorem walkFrom_append (nodes : List (Node T)) (v : Int) (w1 w2 : List T) :
    walkFrom nodes v (w1 ++ w2) = (walkFrom nodes v w1).bind (fun c => walkFrom nodes c w2) := by
  induction w1 generalizing v with
  | nil => simp [walkFrom]
  | cons a w ih =>
    simp only [List.cons_append, walkFrom]
    cases childOf nodes v a with
    | none => simp
    | some c => simpa using ih c

theorem walk_concat (nodes : List (Node T)) (w : List T) (a : T) :
    walk nodes (w ++ [a]) = (walk nodes w).bind (fun v => childOf nodes v a) := by
  unfold walk
  rw [walkFrom_append]
  congr 1
  funext c
  simp only [walkFrom]
  cases childOf nodes c a <;> rfl

theorem walk_nil (nodes : List (Node T)) : walk nodes [] = some 0 := rfl

theorem walk_concat_of {nodes : List (Node T)} {w : List T} {v : Int} (a : T)
    (h : walk nodes w = some v) : walk nodes (w ++ [a]) = childOf nodes v a := by
  rw [walk_concat, h]; rfl

theorem walk_concat_none {nodes : List (Node T)} {w : List T} (a : T)
    (h : walk nodes w = none) : walk nodes (w ++ [a]) = none := by
  rw [walk_concat, h]; rfl

/-- The paths are closed under taking prefixes. -/
theorem walk_isSome_of_append {nodes : List (Node T)} {w1 w2 : List T}
    (h : (walk nodes (w1 ++ w2)).isSome) : (walk nodes w1).isSome := by
  unfold walk at *
  rw [walkFrom_append] at h
  cases h1 : walkFrom nodes 0 w1 with
  | none => simp [h1] at h
  | some c => simp

theorem childOf_congr {nodes nodes1 : List (Node T)}
    (h : ∀ v, (getNode nodes1 v).map Node.children = (getNode nodes v).map Node.children)
    (v : Int) (a : T) : childOf nodes1 v a = childOf nodes v a := by
  have := h v
  unfold childOf
  cases h1 : getNode nodes1 v <;> cases h2 : getNode nodes v <;> simp_all

theorem walkFrom_congr {nodes nodes1 : List (Node T)}
    (h : ∀ v a, childOf nodes1 v a = childOf nodes v a) (v : Int) (w : List T) :
    walkFrom nodes1 v w = walkFrom nodes v w := by
  induction w generalizing v with
  | nil => rfl
  | cons a w ih =>
    simp only [walkFrom, h]
    cases childOf nodes v a with
    | none => rfl
    | some c => exact ih c

theorem SameShape.getNode_iff {nodes nodes1 : List (Node T)} (h : SameShape nodes nodes1)
    (v : Int) : (getNode nodes1 v).isSome = (getNode nodes v).isSome := by
  cases h2 : getNode nodes v with
  | some n =>
    obtain ⟨n1, h1, _⟩ := h.2 v n h2
    simp [h1]
  | none =>
    cases h1 : getNode nodes1 v with
    | none => rfl
    | some n1 =>
      have hv := getNode_valid h1
      rw [h.1] at hv
      obtain ⟨n, hn⟩ := getNode_of_valid hv.1 hv.2
      rw [hn] at h2; cases h2

theorem SameShape.childOf {nodes nodes1 : List (Node T)} (h : SameShape nodes nodes1)
    (v : Int) (a : T) : childOf nodes1 v a = childOf nodes v a := by
  apply childOf_congr
  intro v
  cases h2 : getNode nodes v with
  | some n =>
    obtain ⟨n1, h1, _, _, hc⟩ := h.2 v n h2
    simp [h1, hc]
  | none =>
    have := h.getNode_iff v
    rw [h2] at this
    cases h1 : getNode nodes1 v with
    | none => rfl
    | some n1 => simp [h1] at this

theorem SameShape.walk {nodes nodes1 : List (Node T)} (h : SameShape nodes nodes1)
    (w : List T) : walk nodes1 w = walk nodes w :=
  walkFrom_congr h.childOf 0 w

theorem SameShape.refl (nodes : List (Node T)) : SameShape nodes nodes :=
  ⟨rfl, fun _ n hn => ⟨n, hn, rfl, rfl, rfl⟩⟩

theorem SameShape.shapeTrans {n1 n2 n3 : List (Node T)} (h12 : SameShape n1 n2)
    (h23 : SameShape n2 n3) : SameShape n1 n3 := by
  refine ⟨h23.1.trans h12.1, ?_⟩
  intro v n hn
  obtain ⟨m, hm, e1, e2, e3⟩ := h12.2 v n hn
  obtain ⟨k, hk, f1, f2, f3⟩ := h23.2 v m hm
  exact ⟨k, hk, f1.trans e1, f2.trans e2, f3.trans e3⟩

theorem SameShape.back {nodes nodes1 : List (Node T)} (h : SameShape nodes nodes1)
    {v : Int} {n1 : Node T} (h1 : getNode nodes1 v = some n1) :
    ∃ n, getNode nodes v = some n ∧ n1.id = n.id ∧ n1.data = n.data ∧
      n1.children = n.children := by
  have hv := getNode_valid h1
  rw [h.1] at hv
  obtain ⟨n, hn⟩ := getNode_of_valid hv.1 hv.2
  obtain ⟨n2, h2, e⟩ := h.2 v n hn
  rw [h1] at h2
  cases h2
  exact ⟨n, hn, e⟩

theorem Trie.trieOfShape {nodes nodes1 : List (Node T)} (hT : Trie nodes)
    (h : SameShape nodes nodes1) : Trie nodes1 := by
  constructor
  · intro v n1 h1
    obtain ⟨n, hn, e1, _, _⟩ := h.back h1
    rw [e1]; exact hT.ids v n hn
  · intro v n1 h1
    obtain ⟨n, hn, _⟩ := h.back h1
    obtain ⟨w, hw⟩ := hT.reach v n hn
    exact ⟨w, by rw [h.walk]; exact hw⟩
  · intro w1 w2 v h1 h2
    rw [h.walk] at h1 h2
    exact hT.inj w1 w2 v h1 h2
  · intro w v h1
    rw [h.walk] at h1
    rw [h.1]
    exact hT.depth w v h1
  · intro v a c n1 hc h1
    rw [h.childOf] at hc
    obtain ⟨n, hn, _, e2, _⟩ := h.back h1
    rw [e2]; exact hT.data v a c n hc hn
  · intro v n1 h1
    obtain ⟨n, hn, _, _, e3⟩ := h.back h1
    rw [e3]; exact hT.keys v n hn

theorem Covers.coversOfShape {nodes nodes1 : List (Node T)} {Q : List (List T)} {e : List T}
    (hC : Covers nodes Q e) (h : SameShape nodes nodes1) : Covers nodes1 Q e := by
  intro y
  rw [h.walk]
  exact hC y

theorem Marks.marksOfSame {nodes nodes1 : List (Node T)} {Q : List (List T)}
    (hM : Marks nodes Q) (h : SameShape nodes nodes1) (hm : SameMarks nodes nodes1) :
    Marks nodes1 Q := by
  intro y v n1 hw h1
  rw [h.walk] at hw
  obtain ⟨n, hn, _⟩ := h.back h1
  obtain ⟨e1, e2⟩ := hm v n n1 hn h1
  rw [e1, e2]
  exact hM y v n hw hn

theorem Trie.hasRoot {nodes : List (Node T)} (hT : Trie nodes) :
    ∃ r, getNode nodes 0 = some r := by
  have := hT.depth [] 0 (walk_nil nodes)
  exact getNode_of_valid this.1 this.2.1

theorem Trie.node_of_walk {nodes : List (Node T)} (hT : Trie nodes) {w : List T} {v : Int}
    (h : walk nodes w = some v) : ∃ n, getNode nodes v = some n := by
  have := hT.depth w v h
  exact getNode_of_valid this.1 this.2.1

end PathsLemmas

end aca

namespace aca

/-! ## Hanging a new node into the trie -/

section Extend

variable {T : Type} [DecidableEq T]

theorem childOf_some_valid {nodes : List (Node T)} (hT : Trie nodes) {v c : Int} {a : T}
    (h : childOf nodes v a = some c) : 0 ≤ c ∧ c < nodes.length := by
  have hv : ∃ n, getNode nodes v = some n := by
    unfold childOf at h
    cases hn : getNode nodes v with
    | none => simp [hn] at h
    | some n => exact ⟨n, rfl⟩
  obtain ⟨n, hn⟩ := hv
  obtain ⟨w, hw⟩ := hT.reach v n hn
  have h2 : walk nodes (w ++ [a]) = some c := by rw [walk_concat_of a hw]; exact h
  have := hT.depth _ _ h2
  exact ⟨this.1, this.2.1⟩

/-- Paths of the trie after a new node is hung below `cur` along `atom`. -/
theorem walk_extend {nodes nodes3 : List (Node T)} (hT : Trie nodes) {done : List T}
    {cur : Int} {atom : T} (hw : walk nodes done = some cur)
    (hnone : childOf nodes cur atom = none)
    (hch : ∀ v a, childOf nodes3 v a =
      if v = cur ∧ a = atom then some (nodes.length : Int)
      else if v = nodes.length then none else childOf nodes v a)
    (w : List T) :
    walk nodes3 w = if w = done ++ [atom] then some (nodes.length : Int) else walk nodes w := by
  induction w using List.reverseRecOn with
  | nil => simp [walk_nil]
  | append_singleton w0 a ih =>
    have hcurlt := (hT.depth _ _ hw).2.1
    rw [walk_concat, ih]
    by_cases h0 : w0 = done ++ [atom]
    · subst h0
      have hne : ¬ ((nodes.length : Int) = cur ∧ a = atom) := by
        intro h; omega
      have h2 : walk nodes (done ++ [atom]) = none := by
        rw [walk_concat_of atom hw]; exact hnone
      have h3 : ¬ (done ++ [atom] ++ [a] = done ++ [atom]) := by
        intro h
        have := congrArg List.length h
        simp at this
      simp only [if_true, Option.bind, hch, hne, if_false, h3]
      rw [walk_concat_none a h2]
    · simp only [h0, if_false]
      cases hv : walk nodes w0 with
      | none =>
        have h3 : ¬ (w0 ++ [a] = done ++ [atom]) := by
          intro h
          have := (List.append_inj' h rfl).1
          subst this
          rw [hw] at hv; cases hv
        simp only [Option.bind, h3, if_false]
        rw [walk_concat_none a hv]
      | some v =>
        have hvlt := (hT.depth _ _ hv).2.1
        have hvne : ¬ (v = (nodes.length : Int)) := by omega
        simp only [Option.bind, hch, hvne, if_false]
        rw [walk_concat_of a hv]
        by_cases hc : v = cur ∧ a = atom
        · obtain ⟨h1, h2⟩ := hc
          subst h1; subst h2
          have := hT.inj _ _ _ hv hw
          subst this
          simp
        · have h3 : ¬ (w0 ++ [a] = done ++ [atom]) := by
            intro h
            have h4 := List.append_inj' h rfl
            apply hc
            refine ⟨?_, by simpa using h4.2⟩
            rw [h4.1, hw] at hv
            cases hv; rfl
          simp [hc, h3]

/-- The trie shape survives hanging a new node below `cur`. -/
theorem Trie.extend {nodes nodes3 : List (Node T)} (hT : Trie nodes) {done : List T}
    {cur : Int} {atom : T} {curN nd : Node T} (hw : walk nodes done = some cur)
    (hcurN : getNode nodes cur = some curN)
    (hnone : mapGet curN.children atom = none)
    (hlen : nodes3.length = nodes.length + 1)
    (hcur : getNode nodes3 cur =
      some { curN with children := mapSet curN.children atom (nodes.length : Int) })
    (hnew : getNode nodes3 nodes.length = some nd)
    (hid : nd.id = nodes.length) (hdata : nd.data = atom) (hkids : nd.children = [])
    (hold : ∀ v, v ≠ cur → v ≠ (nodes.length : Int) → getNode nodes3 v = getNode nodes v) :
    Trie nodes3 ∧
    ∀ w, walk nodes3 w =
      if w = done ++ [atom] then some (nodes.length : Int) else walk nodes w := by
  have hcurlt := (hT.depth _ _ hw).2.1
  have hcurne : cur ≠ (nodes.length : Int) := by omega
  have hnone1 : childOf nodes cur atom = none := by simp [childOf, hcurN, hnone]
  have hch : ∀ v a, childOf nodes3 v a =
      if v = cur ∧ a = atom then some (nodes.length : Int)
      else if v = nodes.length then none else childOf nodes v a := by
    intro v a
    by_cases h1 : v = cur
    · subst h1
      simp only [childOf, hcur, mapGet_mapSet, hcurN, true_and, hcurne, if_false]
      by_cases h2 : atom = a
      · subst h2; simp
      · have : ¬ a = atom := fun h => h2 h.symm
        simp [h2, this]
    · by_cases h2 : v = (nodes.length : Int)
      · subst h2
        simp [childOf, hnew, hkids, mapGet, h1]
      · simp [childOf, hold v h1 h2, h1, h2]
  have hwalk := walk_extend hT hw hnone1 hch
  have hD : walk nodes (done ++ [atom]) = none := by
    rw [walk_concat_of atom hw]; exact hnone1
  have hback : ∀ w v, walk nodes3 w = some v →
      (w = done ++ [atom] ∧ v = nodes.length) ∨ (w ≠ done ++ [atom] ∧ walk nodes w = some v) := by
    intro w v h
    rw [hwalk] at h
    by_cases h0 : w = done ++ [atom]
    · simp only [h0, if_true, Option.some.injEq] at h
      exact Or.inl ⟨h0, h.symm⟩
    · simp only [h0, if_false] at h
      exact Or.inr ⟨h0, h⟩
  refine ⟨?_, hwalk⟩
  constructor
  · intro v n hn
    by_cases h1 : v = cur
    · subst h1
      rw [hcur] at hn; cases hn
      exact hT.ids v curN hcurN
    · by_cases h2 : v = (nodes.length : Int)
      · subst h2
        rw [hnew] at hn; cases hn; exact hid
      · rw [hold v h1 h2] at hn
        exact hT.ids v n hn
  · intro v n hn
    by_cases h2 : v = (nodes.length : Int)
    · subst h2
      exact ⟨done ++ [atom], by rw [hwalk]; simp⟩
    · have hv := getNode_valid hn
      rw [hlen] at hv
      obtain ⟨m, hm⟩ := getNode_in nodes hv.1 (by omega)
      obtain ⟨w, hw1⟩ := hT.reach v m hm
      refine ⟨w, ?_⟩
      rw [hwalk]
      have : w ≠ done ++ [atom] := by
        intro h; rw [h, hD] at hw1; cases hw1
      simp [this, hw1]
  · intro w1 w2 v h1 h2
    rcases hback w1 v h1 with ⟨e1, f1⟩ | ⟨e1, f1⟩ <;> rcases hback w2 v h2 with ⟨e2, f2⟩ | ⟨e2, f2⟩
    · rw [e1, e2]
    · have := (hT.depth _ _ f2).2.1; omega
    · have := (hT.depth _ _ f1).2.1; omega
    · exact hT.inj w1 w2 v f1 f2
  · intro w v h
    rcases hback w v h with ⟨e1, f1⟩ | ⟨e1, f1⟩
    · have := (hT.depth _ _ hw).2.2
      subst e1; subst f1
      simp only [List.length_append, List.length_singleton, hlen]
      omega
    · have := hT.depth _ _ f1
      rw [hlen]; omega
  · intro v a c n hc hn
    rw [hch] at hc
    by_cases h1 : v = cur ∧ a = atom
    · simp only [h1, and_self, if_true, Option.some.injEq] at hc
      subst hc
      rw [hnew] at hn; cases hn
      rw [hdata, h1.2]
    · simp only [h1, if_false] at hc
      by_cases h2 : v = (nodes.length : Int)
      · simp [h2] at hc
      · simp only [h2, if_false] at hc
        have hcv := childOf_some_valid hT hc
        have hcne : c ≠ (nodes.length : Int) := by omega
        by_cases h3 : c = cur
        · subst h3
          rw [hcur] at hn; cases hn
          exact hT.data v a c curN hc hcurN
        · rw [hold c h3 hcne] at hn
          exact hT.data v a c n hc hn
  · intro v n hn
    by_cases h1 : v = cur
    · subst h1
      rw [hcur] at hn; cases hn
      simp only
      rw [mapSet_keys_of_none _ hnone]
      have := hT.keys v curN hcurN
      rw [List.nodup_append]
      refine ⟨this, by simp, ?_⟩
      intro a ha hb
      simp only [List.mem_singleton] at hb
      subst hb
      exact (mapGet_none_iff.1 hnone) ha
    · by_cases h2 : v = (nodes.length : Int)
      · subst h2
        rw [hnew] at hn; cases hn; simp [hkids]
      · rw [hold v h1 h2] at hn
        exact hT.keys v n hn

end Extend

end aca

namespace aca

/-! ## One atom of a pattern -/

section BuildLemmas

variable {T : Type} [DecidableEq T]

theorem Marks.last {nodes nodes1 : List (Node T)} {Q : List (List T)} {D : List T}
    {vD : Int} {nD : Node T} (hM : Marks nodes Q)
    (hwD : walk nodes1 D = some vD) (hnD : getNode nodes1 vD = some nD)
    (hmatch : nD.match_ = Q.length) (hlen : nD.matchLen = (D.length : Int) - 1) (hD : D ≠ [])
    (hold : ∀ y v n1, y ≠ D → walk nodes1 y = some v → getNode nodes1 v = some n1 →
      ∃ n, walk nodes y = some v ∧ getNode nodes v = some n ∧ n1.match_ = n.match_ ∧
        n1.matchLen = n.matchLen) :
    Marks nodes1 (Q ++ [D]) := by
  intro y v n1 hw h1
  by_cases hy : y = D
  · subst hy
    rw [hwD] at hw; cases hw
    rw [hnD] at h1; cases h1
    constructor
    · right
      refine ⟨by omega, ?_, hD, hlen⟩
      rw [hmatch]
      simp
    · intro k hk _
      have := (List.getElem?_eq_some.1 hk).1
      simp at this
      omega
  · obtain ⟨n, hw0, hn0, e1, e2⟩ := hold y v n1 hy hw h1
    obtain ⟨hA, hB⟩ := hM y v n hw0 hn0
    rw [e1, e2]
    constructor
    · rcases hA with hA | ⟨h0, hq, hne, hl⟩
      · exact Or.inl hA
      · right
        refine ⟨h0, ?_, hne, hl⟩
        have := (List.getElem?_eq_some.1 hq).1
        rw [List.getElem?_append_left this]
        exact hq
    · intro k hk hne
      have hlt := (List.getElem?_eq_some.1 hk).1
      simp at hlt
      by_cases hkq : k < Q.length
      · rw [List.getElem?_append_left hkq] at hk
        exact hB k hk hne
      · have : k = Q.length := by omega
        subst this
        simp at hk
        exact absurd hk.symm hy

theorem Marks.unmarked {nodes nodes1 : List (Node T)} {Q : List (List T)} {D : List T}
    {vD : Int} {nD : Node T} (hM : Marks nodes Q)
    (hwD : walk nodes1 D = some vD) (hnD : getNode nodes1 vD = some nD)
    (hmatch : nD.match_ = -1) (hDQ : D ∉ Q)
    (hold : ∀ y v n1, y ≠ D → walk nodes1 y = some v → getNode nodes1 v = some n1 →
      ∃ n, walk nodes y = some v ∧ getNode nodes v = some n ∧ n1.match_ = n.match_ ∧
        n1.matchLen = n.matchLen) :
    Marks nodes1 Q := by
  intro y v n1 hw h1
  by_cases hy : y = D
  · subst hy
    rw [hwD] at hw; cases hw
    rw [hnD] at h1; cases h1
    constructor
    · exact Or.inl hmatch
    · intro k hk _
      exact absurd (List.getElem?_mem hk) hDQ
  · obtain ⟨n, hw0, hn0, e1, e2⟩ := hold y v n1 hy hw h1
    rw [e1, e2]
    exact hM y v n hw0 hn0

theorem markLast_spec {nodes : List (Node T)} {p : Int} (i plen j : Int) {n : Node T}
    (hn : getNode nodes p = some n) :
    ∃ nodes1 n1, markLast nodes p i plen j = some nodes1 ∧ nodes1.length = nodes.length ∧
      getNode nodes1 p = some n1 ∧
      n1.id = n.id ∧ n1.data = n.data ∧ n1.children = n.children ∧
      (∀ v, v ≠ p → getNode nodes1 v = getNode nodes v) ∧
      (j = plen - 1 → n1.match_ = i ∧ n1.matchLen = j) ∧ (j ≠ plen - 1 → n1 = n) := by
  unfold markLast
  by_cases hj : j = plen - 1
  · rw [if_pos hj]
    have h1 := updNode_some (fun n => { n with match_ := i, matchLen := j }) hn
    obtain ⟨m, hm, hl, hg⟩ := updNode_spec h1
    rw [hn] at hm; cases hm
    refine ⟨_, { n with match_ := i, matchLen := j }, h1, hl, by rw [hg]; simp, rfl, rfl, rfl,
      ?_, fun _ => ⟨rfl, rfl⟩,
      fun h => absurd hj h⟩
    intro v hv
    rw [hg]; simp [hv]
  · rw [if_neg hj]
    exact ⟨nodes, n, rfl, rfl, hn, rfl, rfl, rfl, fun _ _ => rfl, fun h => absurd h hj,
      fun _ => rfl⟩

/-- One atom of a pattern: the step of the inner loop of `New` keeps the trie invariants. -/
theorem addAtom_spec [Inhabited T] {Q : List (List T)} {done : List T} (rest : List T)
    (atom : T)
    {st : Build T} (hT : Trie st.nodes) (hids : st.ids = st.nodes.length)
    (hw : walk st.nodes done = some st.cur) (hC : Covers st.nodes Q done)
    (hM : Marks st.nodes Q) :
    ∃ st1, addAtom (Q.length : Int) ((done ++ atom :: rest).length : Int) (done.length : Int)
        atom st = some st1 ∧
      Trie st1.nodes ∧ st1.ids = st1.nodes.length ∧
      walk st1.nodes (done ++ [atom]) = some st1.cur ∧
      Covers st1.nodes Q (done ++ [atom]) ∧
      (rest ≠ [] → Marks st1.nodes Q) ∧
      (rest = [] → Marks st1.nodes (Q ++ [done ++ [atom]])) := by
  obtain ⟨nodes, cur, ids⟩ := st
  simp only at hT hids hw hC hM
  obtain ⟨curN, hcurN⟩ := hT.node_of_walk hw
  have hjl : ((done.length : Int) = ((done ++ atom :: rest).length : Int) - 1) ↔ rest = [] := by
    simp only [List.length_append, List.length_cons]
    constructor
    · intro h
      have : rest.length = 0 := by push_cast at h; omega
      exact List.length_eq_zero.1 this
    · intro h; subst h; simp
  have hDne : done ++ [atom] ≠ [] := by simp
  have hDlen : (((done ++ [atom]).length : Nat) : Int) - 1 = (done.length : Int) := by
    simp
  unfold addAtom
  simp only [hcurN]
  cases hget : mapGet curN.children atom with
  | some id =>
    simp only
    have hchild : childOf nodes cur atom = some id := by simp [childOf, hcurN, hget]
    have hwD : walk nodes (done ++ [atom]) = some id := by
      rw [walk_concat_of atom hw]; exact hchild
    obtain ⟨nId, hnId⟩ := hT.node_of_walk hwD
    obtain ⟨nodes1, n1, hml, hlen1, hg1, e1, e2, e3, hother, hlast, hnot⟩ :=
      markLast_spec (Q.length : Int) ((done ++ atom :: rest).length : Int) (done.length : Int)
        hnId
    have hshape : SameShape nodes nodes1 := by
      refine ⟨hlen1, ?_⟩
      intro v n hn
      by_cases hv : v = id
      · subst hv
        rw [hnId] at hn; cases hn
        exact ⟨n1, hg1, e1, e2, e3⟩
      · exact ⟨n, by rw [hother v hv]; exact hn, rfl, rfl, rfl⟩
    simp only [hml, hg1]
    refine ⟨_, rfl, hT.trieOfShape hshape, by simp [hlen1, hids], ?_, ?_, ?_, ?_⟩
    · simp only; rw [hshape.walk]; exact hwD
    · simp only
      intro y
      rw [hshape.walk]
      constructor
      · intro h
        rcases (hC y).1 h with h | h
        · exact Or.inl h
        · exact Or.inr (h.trans (List.prefix_append _ _))
      · intro h
        rcases h with h | h
        · exact (hC y).2 (Or.inl h)
        · rcases List.prefix_concat_iff.1 h with h | h
          · rw [h, hwD]; rfl
          · exact (hC y).2 (Or.inr h)
    · intro hr
      simp only
      have hj := mt hjl.1 hr
      have := hnot hj
      subst this
      have hm : SameMarks nodes nodes1 := by
        intro v n n2 hn h2
        by_cases hv : v = id
        · subst hv
          rw [hnId] at hn; rw [hg1] at h2; cases hn; cases h2; exact ⟨rfl, rfl⟩
        · rw [hother v hv, hn] at h2; cases h2; exact ⟨rfl, rfl⟩
      exact hM.marksOfSame hshape hm
    · intro hr
      simp only
      obtain ⟨hm1, hm2⟩ := hlast (hjl.2 hr)
      apply Marks.last hM (by rw [hshape.walk]; exact hwD) hg1 hm1 (by rw [hm2, hDlen]) hDne
      intro y v n2 hy hwy h2
      rw [hshape.walk] at hwy
      have hv : v ≠ id := by
        intro h; subst h
        exact hy (hT.inj _ _ _ hwy hwD)
      rw [hother v hv] at h2
      exact ⟨n2, hwy, h2, rfl, rfl⟩
  | none =>
    simp only
    have hchild : childOf nodes cur atom = none := by simp [childOf, hcurN, hget]
    have hwD : walk nodes (done ++ [atom]) = none := by
      rw [walk_concat_of atom hw]; exact hchild
    have hcurlt := (hT.depth _ _ hw).2.1
    have hcur0 := (hT.depth _ _ hw).1
    have hcurne : cur ≠ (nodes.length : Int) := by omega
    obtain ⟨nodes2, nd, hml, hlen2, hg2, e1, e2, e3, hother, hlast, hnot⟩ :=
      markLast_spec (Q.length : Int) ((done ++ atom :: rest).length : Int) (done.length : Int)
        (getNode_append_length nodes
          ({ id := ids, data := atom, children := [], fail := -1, alternative := 0,
             match_ := -1, matchLen := 0 } : Node T))
    simp only at e1 e2 e3
    have hcur2 : getNode nodes2 cur = some curN := by
      rw [hother cur hcurne, getNode_append_left _ hcurlt]; exact hcurN
    have hupd := updNode_some
      (fun n => { n with children := mapSet n.children atom nd.id }) hcur2
    obtain ⟨m, hm, hlen3, hg3⟩ := updNode_spec hupd
    rw [hcur2] at hm; cases hm
    simp only [hml, hg2, hupd]
    have hndid : nd.id = (nodes.length : Int) := by rw [e1]; exact hids
    have hlen3' : (List.set nodes2 cur.toNat
        { curN with children := mapSet curN.children atom nd.id }).length
          = nodes.length + 1 := by
      rw [hlen3, hlen2]; simp
    have hold : ∀ v, v ≠ cur → v ≠ (nodes.length : Int) →
        getNode (List.set nodes2 cur.toNat
          { curN with children := mapSet curN.children atom nd.id }) v = getNode nodes v := by
      intro v h1 h2
      rw [hg3]; simp only [h1, if_false]
      rw [hother v h2]
      by_cases hv : v < nodes.length
      · exact getNode_append_left _ hv
      · rw [getNode_none_of_ge (by simp; omega), getNode_none_of_ge (by omega)]
    have hnew : getNode (List.set nodes2 cur.toNat
          { curN with children := mapSet curN.children atom nd.id }) nodes.length = some nd := by
      rw [hg3]
      have : ¬ ((nodes.length : Int) = cur) := fun h => hcurne h.symm
      simp only [this, if_false]; exact hg2
    have hcur3 : getNode (List.set nodes2 cur.toNat
          { curN with children := mapSet curN.children atom nd.id }) cur =
        some { curN with children := mapSet curN.children atom (nodes.length : Int) } := by
      rw [hg3]; simp [hndid]
    obtain ⟨hT3, hwalk⟩ :=
      hT.extend hw hcurN hget hlen3' hcur3 hnew hndid e2 e3 hold
    have hback : ∀ y v n1, y ≠ done ++ [atom] →
        walk (List.set nodes2 cur.toNat
          { curN with children := mapSet curN.children atom nd.id }) y = some v →
        getNode (List.set nodes2 cur.toNat
          { curN with children := mapSet curN.children atom nd.id }) v = some n1 →
        ∃ n, walk nodes y = some v ∧ getNode nodes v = some n ∧ n1.match_ = n.match_ ∧
          n1.matchLen = n.matchLen := by
      intro y v n1 hy hwy h1
      rw [hwalk] at hwy
      simp only [hy, if_false] at hwy
      have hvlt := (hT.depth _ _ hwy).2.1
      by_cases hv : v = cur
      · subst hv
        rw [hcur3] at h1; cases h1
        exact ⟨curN, hwy, hcurN, rfl, rfl⟩
      · rw [hold v hv (by omega)] at h1
        exact ⟨n1, hwy, h1, rfl, rfl⟩
    have hwD3 : walk (List.set nodes2 cur.toNat
          { curN with children := mapSet curN.children atom nd.id }) (done ++ [atom])
        = some (nodes.length : Int) := by
      rw [hwalk]; simp
    refine ⟨_, rfl, hT3, by simp only [hlen3']; rw [hids]; simp, hwD3, ?_, ?_, ?_⟩
    · simp only
      intro y
      rw [hwalk]
      by_cases hy : y = done ++ [atom]
      · subst hy; simp
      · simp only [hy, if_false]
        rw [hC y]
        constructor
        · intro h
          rcases h with h | h
          · exact Or.inl h
          · exact Or.inr (h.trans (List.prefix_append _ _))
        · intro h
          rcases h with h | h
          · exact Or.inl h
          · rcases List.prefix_concat_iff.1 h with h | h
            · exact absurd h hy
            · exact Or.inr h
    · intro hr
      simp only
      have hj := mt hjl.1 hr
      have hnd := hnot hj
      apply Marks.unmarked hM hwD3 hnew (by rw [hnd]) ?_ hback
      intro hmem
      have := (hC (done ++ [atom])).2 (Or.inl ⟨_, hmem, List.prefix_refl _⟩)
      rw [hwD] at this
      cases this
    · intro hr
      simp only
      obtain ⟨hm1, hm2⟩ := hlast (hjl.2 hr)
      exact Marks.last hM hwD3 hnew hm1 (by rw [hm2, hDlen]) hDne hback

end BuildLemmas

end aca

namespace aca

/-! ## The trie phase of `New` -/

section BuildLemmas2

variable {T : Type} [DecidableEq T]

theorem Marks.append_nil {nodes : List (Node T)} {Q : List (List T)} (hM : Marks nodes Q) :
    Marks nodes (Q ++ [[]]) := by
  intro y v n hw hn
  obtain ⟨hA, hB⟩ := hM y v n hw hn
  constructor
  · rcases hA with hA | ⟨h0, hq, hne, hl⟩
    · exact Or.inl hA
    · right
      refine ⟨h0, ?_, hne, hl⟩
      have := (List.getElem?_eq_some.1 hq).1
      rw [List.getElem?_append_left this]
      exact hq
  · intro k hk hne
    have hlt := (List.getElem?_eq_some.1 hk).1
    simp at hlt
    by_cases hkq : k < Q.length
    · rw [List.getElem?_append_left hkq] at hk
      exact hB k hk hne
    · have : k = Q.length := by omega
      subst this
      simp at hk
      exact absurd hk hne

theorem Covers.finish {nodes : List (Node T)} {Q : List (List T)} {p : List T}
    (hC : Covers nodes Q p) : Covers nodes (Q ++ [p]) [] := by
  intro y
  rw [hC y]
  constructor
  · intro h
    rcases h with ⟨q, hq, hy⟩ | h
    · exact Or.inl ⟨q, by simp [hq], hy⟩
    · exact Or.inl ⟨p, by simp, h⟩
  · intro h
    rcases h with ⟨q, hq, hy⟩ | h
    · rcases List.mem_append.1 hq with hq | hq
      · exact Or.inl ⟨q, hq, hy⟩
      · simp only [List.mem_singleton] at hq
        subst hq
        exact Or.inr hy
    · simp only [List.prefix_nil] at h
      subst h
      exact Or.inr (List.nil_prefix)

/-- The loop over the atoms of one pattern keeps the trie invariants and marks the pattern. -/
theorem addAtoms_spec [Inhabited T] {Q : List (List T)} (rest : List T) :
    ∀ (done : List T) (st : Build T), Trie st.nodes → st.ids = st.nodes.length →
      walk st.nodes done = some st.cur → Covers st.nodes Q done →
      (rest ≠ [] → Marks st.nodes Q) → (rest = [] → Marks st.nodes (Q ++ [done])) →
      ∃ st1, addAtoms (Q.length : Int) ((done ++ rest).length : Int) rest (done.length : Int) st
          = some st1 ∧
        Trie st1.nodes ∧ st1.ids = st1.nodes.length ∧
        Covers st1.nodes Q (done ++ rest) ∧ Marks st1.nodes (Q ++ [done ++ rest]) := by
  induction rest with
  | nil =>
    intro done st hT hids hw hC _ hM
    refine ⟨st, rfl, hT, hids, by simpa using hC, by simpa using hM rfl⟩
  | cons atom rest ih =>
    intro done st hT hids hw hC hM _
    obtain ⟨st1, h1, hT1, hids1, hw1, hC1, hMa, hMb⟩ :=
      addAtom_spec rest atom hT hids hw hC (hM (by simp))
    obtain ⟨st2, h2, hT2, hids2, hC2, hM2⟩ := ih (done ++ [atom]) st1 hT1 hids1 hw1 hC1 hMa hMb
    simp only [List.append_assoc, List.singleton_append, List.length_append,
      List.length_singleton, Nat.cast_add, Nat.cast_one] at h2 hC2 hM2
    refine ⟨st2, ?_, hT2, hids2, hC2, hM2⟩
    unfold addAtoms
    rw [h1]
    simp only
    rw [← h2]
    simp

/-- The loop over the patterns keeps the trie invariants. -/
theorem addPatterns_spec [Inhabited T] (rest : List (List T)) :
    ∀ (Q : List (List T)) (st : Build T), Trie st.nodes → st.ids = st.nodes.length →
      Covers st.nodes Q [] → Marks st.nodes Q →
      ∃ st1, addPatterns rest (Q.length : Int) st = some st1 ∧
        Trie st1.nodes ∧ Covers st1.nodes (Q ++ rest) [] ∧ Marks st1.nodes (Q ++ rest) := by
  induction rest with
  | nil =>
    intro Q st hT _ hC hM
    exact ⟨st, rfl, hT, by simpa using hC, by simpa using hM⟩
  | cons p rest ih =>
    intro Q st hT hids hC hM
    obtain ⟨st1, h1, hT1, hids1, hC1, hM1⟩ :=
      addAtoms_spec (Q := Q) p [] { st with cur := 0 } hT hids (walk_nil _) hC
        (fun _ => hM) (fun _ => hM.append_nil)
    simp only [List.nil_append, List.length_nil, Nat.cast_zero] at h1 hC1 hM1
    obtain ⟨st2, h2, hT2, hC2, hM2⟩ := ih (Q ++ [p]) st1 hT1 hids1 hC1.finish hM1
    simp only [List.append_assoc, List.singleton_append, List.length_append,
      List.length_singleton, Nat.cast_add, Nat.cast_one] at h2 hC2 hM2
    refine ⟨st2, ?_, hT2, hC2, hM2⟩
    unfold addPatterns
    rw [h1]
    exact h2

theorem walk_root_only [Inhabited T] (w : List T) (v : Int)
    (h : walk [rootNode T] w = some v) : w = [] ∧ v = 0 := by
  cases w with
  | nil => simp [walk, walkFrom] at h; exact ⟨rfl, h.symm⟩
  | cons a w =>
    simp [walk, walkFrom, childOf, getNode, rootNode, mapGet] at h

theorem getNode_root_only [Inhabited T] (v : Int) (n : Node T)
    (h : getNode [rootNode T] v = some n) : v = 0 ∧ n = rootNode T := by
  have hv := getNode_valid h
  simp at hv
  have : v = 0 := by omega
  subst this
  simp [getNode] at h
  exact ⟨rfl, h.symm⟩

theorem Trie.init [Inhabited T] : Trie [rootNode T] := by
  constructor
  · intro v n hn
    obtain ⟨h1, h2⟩ := getNode_root_only v n hn
    subst h1; subst h2; rfl
  · intro v n hn
    obtain ⟨h1, _⟩ := getNode_root_only v n hn
    subst h1
    exact ⟨[], rfl⟩
  · intro w1 w2 v h1 h2
    rw [(walk_root_only w1 v h1).1, (walk_root_only w2 v h2).1]
  · intro w v h
    obtain ⟨h1, h2⟩ := walk_root_only w v h
    subst h1; subst h2
    simp
  · intro v a c n hc _
    have : walk [rootNode T] [a] = some c := by
      have hv : v = 0 := by
        unfold childOf at hc
        cases hn : getNode [rootNode T] v with
        | none => simp [hn] at hc
        | some m => exact (getNode_root_only v m hn).1
      subst hv
      simp only [walk, walkFrom, hc]
    exact absurd (walk_root_only _ _ this).1 (by simp)
  · intro v n hn
    obtain ⟨_, h2⟩ := getNode_root_only v n hn
    subst h2
    simp [rootNode]

/-- The trie phase of `New` succeeds; its result has the shape of a trie whose paths are the
prefixes of the patterns and whose `match` fields mark the patterns. -/
theorem buildTrie_spec [Inhabited T] (P : List (List T)) :
    ∃ nodes, buildTrie P = some nodes ∧ Trie nodes ∧ Covers nodes P [] ∧ Marks nodes P := by
  have hC : Covers [rootNode T] [] [] := by
    intro y
    constructor
    · intro h
      cases hw : walk [rootNode T] y with
      | none => rw [hw] at h; cases h
      | some v =>
        right
        rw [(walk_root_only y v hw).1]
    · intro h
      rcases h with ⟨q, hq, _⟩ | h
      · cases hq
      · simp only [List.prefix_nil] at h
        subst h; rfl
  have hM : Marks [rootNode T] [] := by
    intro y v n hw hn
    obtain ⟨_, h2⟩ := getNode_root_only v n hn
    subst h2
    exact ⟨Or.inl rfl, fun k hk _ => by simp at hk⟩
  obtain ⟨st1, h1, hT1, hC1, hM1⟩ :=
    addPatterns_spec P [] { nodes := [rootNode T], cur := 0, ids := 1 } Trie.init
      (by simp) hC hM
  simp only [List.nil_append, List.length_nil, Nat.cast_zero] at h1 hC1 hM1
  exact ⟨st1.nodes, by simp [buildTrie, h1], hT1, hC1, hM1⟩

end BuildLemmas2

end aca

namespace aca

/-! ## Longest suffixes and the suffix search -/

section Suffixes

variable {T : Type} [DecidableEq T]

theorem lsuf_suffix (nodes : List (Node T)) (u : List T) : lsuf nodes u <:+ u := by
  induction u with
  | nil => exact List.suffix_refl _
  | cons a u ih =>
    unfold lsuf
    split
    · exact List.suffix_refl _
    · exact ih.trans (List.suffix_cons a u)

theorem lsuf_isSome (nodes : List (Node T)) (u : List T) :
    (walk nodes (lsuf nodes u)).isSome := by
  induction u with
  | nil => rfl
  | cons a u ih =>
    unfold lsuf
    split
    · assumption
    · exact ih

theorem lsuf_of_isSome {nodes : List (Node T)} {u : List T} (h : (walk nodes u).isSome) :
    lsuf nodes u = u := by
  cases u with
  | nil => rfl
  | cons a u => simp [lsuf, h]

theorem lsuf_length_le (nodes : List (Node T)) (u : List T) :
    (lsuf nodes u).length ≤ u.length := (lsuf_suffix nodes u).length_le

/-- The longest suffix of `u ++ [c]` in the trie extends the longest suffix of `u`. -/
theorem lsuf_concat (nodes : List (Node T)) (u : List T) (c : T) :
    lsuf nodes (u ++ [c]) = lsuf nodes (lsuf nodes u ++ [c]) := by
  induction u with
  | nil => rfl
  | cons a u ih =>
    by_cases h1 : (walk nodes (a :: u)).isSome
    · rw [lsuf_of_isSome h1]
    · have h2 : ¬ (walk nodes (a :: u ++ [c])).isSome := fun h => h1 (walk_isSome_of_append h)
      have e1 : lsuf nodes (a :: u ++ [c]) = lsuf nodes (u ++ [c]) := by
        simp only [List.cons_append] at h2 ⊢
        simp [lsuf, h2]
      have e2 : lsuf nodes (a :: u) = lsuf nodes u := by simp [lsuf, h1]
      rw [e1, e2, ih]

/-- Every suffix of `u` that is a path is a suffix of `lsuf u`. -/
theorem lsuf_max {nodes : List (Node T)} {u y : List T} (hy : y <:+ u)
    (h : (walk nodes y).isSome) : y <:+ lsuf nodes u := by
  induction u with
  | nil =>
    simp only [List.suffix_nil] at hy
    subst hy; exact List.suffix_refl _
  | cons a u ih =>
    rcases List.suffix_cons_iff.1 hy with hy | hy
    · subst hy
      rw [lsuf_of_isSome h]
    · unfold lsuf
      split
      · exact hy.trans (List.suffix_cons a u)
      · exact ih hy

theorem lsuf_step {nodes : List (Node T)} {x : List T} {a : T} (hx : x ≠ [])
    (h : walk nodes (x ++ [a]) = none) :
    lsuf nodes (x ++ [a]) = lsuf nodes (lsuf nodes x.tail ++ [a]) := by
  cases x with
  | nil => exact absurd rfl hx
  | cons b x =>
    simp only [List.cons_append] at h
    simp only [List.cons_append, List.tail_cons]
    rw [← lsuf_concat]
    simp [lsuf, h]

theorem walk_eq_root {nodes : List (Node T)} (hT : Trie nodes) {w : List T}
    (h : walk nodes w = some 0) : w = [] :=
  hT.inj w [] 0 h (walk_nil nodes)

theorem childOf_isSome_eq {nodes : List (Node T)} {v : Int} {n : Node T} (a : T)
    (hn : getNode nodes v = some n) : childOf nodes v a = mapGet n.children a := by
  simp [childOf, hn]

/-- The suffix search of the failure linker ends on the node below which the longest suffix
of `x ++ [a]` hangs. -/
theorem suffixSearch_spec {nodes : List (Node T)} (hT : Trie nodes) (D : Nat)
    (hF : ∀ x v n, walk nodes x = some v → x.length ≤ D → getNode nodes v = some n →
      walk nodes (lsuf nodes x.tail) = some n.fail)
    (a : T) (fuel : Nat) :
    ∀ (x : List T) (temp : Int), walk nodes x = some temp → x.length ≤ D →
      x.length < fuel →
      ∃ t, suffixSearch fuel nodes temp a = some t ∧ 0 ≤ t ∧ t < nodes.length ∧
        walk nodes (lsuf nodes (x ++ [a])) = some ((childOf nodes t a).getD 0) := by
  induction fuel with
  | zero => intro x temp _ _ h; omega
  | succ fuel ih =>
    intro x temp hw hD hfuel
    obtain ⟨t, ht⟩ := hT.node_of_walk hw
    have hv := hT.depth _ _ hw
    unfold suffixSearch
    simp only [ht]
    have hch := childOf_isSome_eq a ht
    cases hc : mapGet t.children a with
    | some c =>
      simp only [Option.isSome_some, Bool.not_true, Bool.false_and, Bool.or_true, if_true,
        Bool.false_eq_true, if_false]
      refine ⟨temp, rfl, hv.1, hv.2.1, ?_⟩
      rw [hch, hc]
      have h2 : walk nodes (x ++ [a]) = some c := by
        rw [walk_concat_of a hw, hch, hc]
      rw [lsuf_of_isSome (by rw [h2]; rfl), h2]
      rfl
    | none =>
      have h2 : walk nodes (x ++ [a]) = none := by
        rw [walk_concat_of a hw, hch, hc]
      by_cases h0 : temp = 0
      · subst h0
        have hx := walk_eq_root hT hw
        subst hx
        simp only [Option.isSome_none, Bool.not_false, Bool.true_and, ne_eq, not_true,
          decide_False, Bool.false_eq_true, if_false, Bool.or_false, decide_True, if_true]
        refine ⟨0, rfl, hv.1, hv.2.1, ?_⟩
        rw [hch, hc]
        simp only [List.nil_append] at h2 ⊢
        simp [lsuf, h2, walk_nil]
      · have hx : x ≠ [] := by
          intro h; subst h
          rw [walk_nil] at hw; cases hw; exact h0 rfl
        have hf := hF x temp t hw hD ht
        obtain ⟨f, hfn⟩ := hT.node_of_walk hf
        have hlt : (lsuf nodes x.tail).length < x.length := by
          have := lsuf_length_le nodes x.tail
          have : x.tail.length < x.length := by
            cases x with
            | nil => exact absurd rfl hx
            | cons b x => simp
          omega
        simp only [Option.isSome_none, Bool.not_false, Bool.true_and, ne_eq, h0,
          not_false_eq_true, decide_True, if_true, hfn, Option.map_some', Bool.or_false]
        rw [lsuf_step hx h2]
        by_cases hf0 : t.fail = 0
        · simp only [hf0, decide_True, if_true]
          have hv0 := hT.depth _ _ (walk_nil nodes)
          refine ⟨0, rfl, hv0.1, hv0.2.1, ?_⟩
          rw [hf0] at hf
          rw [walk_eq_root hT hf]
          simp only [List.nil_append]
          cases hr : walk nodes [a] with
          | none =>
            have : childOf nodes 0 a = none := by
              rw [← hr, ← walk_concat_of a (walk_nil nodes)]; rfl
            simp [lsuf, hr, this, walk_nil]
          | some c =>
            have : childOf nodes 0 a = some c := by
              rw [← hr, ← walk_concat_of a (walk_nil nodes)]; rfl
            simp [lsuf, hr, this]
        · simp only [hf0, decide_False, Bool.false_eq_true, if_false]
          exact ih (lsuf nodes x.tail) t.fail hf (by omega) (by omega)

end Suffixes

end aca

namespace aca

/-! ## The children of a popped node -/

section LinkChildren

variable {T : Type} [DecidableEq T]

theorem lsuf_congr {nodes nodes1 : List (Node T)} (h : ∀ w, walk nodes1 w = walk nodes w)
    (u : List T) : lsuf nodes1 u = lsuf nodes u := by
  induction u with
  | nil => rfl
  | cons a u ih => simp only [lsuf, h, ih]

theorem FailAt.failOfSame {nodes nodes1 : List (Node T)} {v : Int} (hs : SameShape nodes nodes1)
    (hv : ∀ n n1, getNode nodes v = some n → getNode nodes1 v = some n1 → n1.fail = n.fail)
    (h : FailAt nodes v) : FailAt nodes1 v := by
  intro w n1 hw h1
  obtain ⟨n, hn, _⟩ := hs.back h1
  rw [hs.walk] at hw
  rw [hs.walk, lsuf_congr hs.walk, hv n n1 hn h1]
  exact h w n hw hn

theorem walk_child_ne {nodes : List (Node T)} (hT : Trie nodes) {w : List T} {v c : Int}
    {a : T} (hw : walk nodes w = some v) (hc : childOf nodes v a = some c) : c ≠ v ∧ c ≠ 0 := by
  have h2 : walk nodes (w ++ [a]) = some c := by rw [walk_concat_of a hw]; exact hc
  constructor
  · intro h
    subst h
    have := hT.inj _ _ _ h2 hw
    have := congrArg List.length this
    simp at this
  · intro h
    subst h
    have := walk_eq_root hT h2
    simp at this

/-- The loop over the children of a popped node sets their failure links and queues them. -/
theorem linkChildren_spec {cur : Int} {wcur : List T} (hne : wcur ≠ []) (fuel : Nat)
    (cs : List Int) :
    ∀ (nodes : List (Node T)) (queue : List Int), Trie nodes →
      walk nodes wcur = some cur → nodes.length < fuel →
      (∀ c, c ∈ cs → ∃ a, childOf nodes cur a = some c) →
      FailAt nodes cur →
      (∀ x v, walk nodes x = some v → x.length < wcur.length → FailAt nodes v) →
      ∃ nodes1, linkChildren fuel cur cs nodes queue = some (nodes1, queue ++ cs) ∧
        SameShape nodes nodes1 ∧ SameMarks nodes nodes1 ∧
        (∀ v, v ∉ cs → getNode nodes1 v = getNode nodes v) ∧
        (∀ v n n1, getNode nodes v = some n → getNode nodes1 v = some n1 →
          n1.alternative = n.alternative) ∧
        (∀ c, c ∈ cs → FailAt nodes1 c) := by
  induction cs with
  | nil =>
    intro nodes queue _ _ _ _ _ _
    refine ⟨nodes, by simp [linkChildren], SameShape.refl _, ?_, fun _ _ => rfl, ?_, ?_⟩
    · intro v n n1 hn h1
      rw [hn] at h1; cases h1; exact ⟨rfl, rfl⟩
    · intro v n n1 hn h1
      rw [hn] at h1; cases h1; rfl
    · intro c hc; cases hc
  | cons c rest ih =>
    intro nodes queue hT hwcur hfuel hcs hFcur hF
    obtain ⟨a, hca⟩ := hcs c (List.mem_cons_self _ _)
    have hwc : walk nodes (wcur ++ [a]) = some c := by
      rw [walk_concat_of a hwcur]; exact hca
    obtain ⟨child, hchild⟩ := hT.node_of_walk hwc
    obtain ⟨curN, hcurN⟩ := hT.node_of_walk hwcur
    have hdata := hT.data cur a c child hca hchild
    subst hdata
    have hcid := hT.ids c child hchild
    have hfc := hFcur wcur curN hwcur hcurN
    obtain ⟨fN, hfN⟩ := hT.node_of_walk hfc
    have hx0 : (lsuf nodes wcur.tail).length < wcur.length := by
      have := lsuf_length_le nodes wcur.tail
      cases wcur with
      | nil => exact absurd rfl hne
      | cons b x => simp at this ⊢; omega
    have hdep := (hT.depth _ _ hfc).2.2
    obtain ⟨t, hss, ht0, ht1, hres⟩ :=
      suffixSearch_spec hT (wcur.length - 1)
        (fun x v n hx hl hn => hF x v hx (by omega) x n hx hn) child.data fuel
        (lsuf nodes wcur.tail) curN.fail hfc (by omega) (by omega)
    obtain ⟨tN, htN⟩ := getNode_of_valid ht0 ht1
    obtain ⟨root, hroot⟩ := hT.hasRoot
    have hrid := hT.ids 0 root hroot
    have hfv : failTarget tN root child.data = (childOf nodes t child.data).getD 0 := by
      rw [childOf_isSome_eq child.data htN, failTarget, hrid]
      cases mapGet tN.children child.data <;> rfl
    generalize (childOf nodes t child.data).getD 0 = fv at hres hfv
    have hupd := updNode_some (fun n => { n with fail := fv }) hchild
    generalize hn1 : nodes.set c.toNat { child with fail := fv } = nodes1 at hupd
    have hg1 := updNode_self hupd hchild
    have hshape : SameShape nodes nodes1 := updNode_shape hupd (fun _ => ⟨rfl, rfl, rfl⟩)
    have hmarks : SameMarks nodes nodes1 := updNode_marks hupd (fun _ => ⟨rfl, rfl⟩)
    have hlen1 := hshape.1
    have hT1 := hT.trieOfShape hshape
    have hcne := walk_child_ne hT hwcur hca
    have hFc : FailAt nodes1 c := by
      intro w n1 hw h1
      rw [hshape.walk] at hw
      have hw' := hT.inj _ _ _ hw hwc
      subst hw'
      rw [hg1] at h1
      cases h1
      simp only
      rw [hshape.walk, lsuf_congr hshape.walk, ← hres]
      congr 1
      have : (wcur ++ [child.data]).tail = wcur.tail ++ [child.data] := by
        cases wcur with
        | nil => exact absurd rfl hne
        | cons b x => rfl
      rw [this, lsuf_concat]
    have hsameFail : ∀ v, v ≠ c → ∀ n n1, getNode nodes v = some n →
        getNode nodes1 v = some n1 → n1.fail = n.fail := by
      intro v hv n n1 hn h1
      rw [updNode_other hupd hv, hn] at h1
      cases h1; rfl
    obtain ⟨nodes2, hl2, hs2, hm2, hout2, halt2, hF2⟩ :=
      ih nodes1 (queue ++ [child.id]) hT1 (by rw [hshape.walk]; exact hwcur)
        (by rw [hlen1]; exact hfuel)
        (fun c1 hc1 => by
          obtain ⟨a1, ha1⟩ := hcs c1 (List.mem_cons_of_mem _ hc1)
          exact ⟨a1, by rw [hshape.childOf]; exact ha1⟩)
        (hFcur.failOfSame hshape (hsameFail cur (fun h => hcne.1 h.symm)))
        (fun x v hx hl => by
          rw [hshape.walk] at hx
          refine (hF x v hx hl).failOfSame hshape (hsameFail v ?_)
          intro h
          subst h
          have := hT.inj _ _ _ hx hwc
          subst this
          simp at hl)
    refine ⟨nodes2, ?_, hshape.shapeTrans hs2, ?_, ?_, ?_, ?_⟩
    · unfold linkChildren
      simp only [hchild, hcurN, hfN, hss, htN, hroot, hfv, hupd]
      rw [hl2, hcid]
      simp
    · intro v n n2 hn h2
      obtain ⟨n1, h1, _⟩ := hshape.2 v n hn
      obtain ⟨e1, e2⟩ := hmarks v n n1 hn h1
      obtain ⟨f1, f2⟩ := hm2 v n1 n2 h1 h2
      exact ⟨f1.trans e1, f2.trans e2⟩
    · intro v hv
      simp only [List.mem_cons, not_or] at hv
      rw [hout2 v hv.2, updNode_other hupd hv.1]
    · intro v n n2 hn h2
      obtain ⟨n1, h1, _⟩ := hshape.2 v n hn
      rw [halt2 v n1 n2 h1 h2]
      exact updNode_field hupd Node.alternative (fun _ => rfl) v n n1 hn h1
    · intro c1 hc1
      by_cases hmem : c1 ∈ rest
      · exact hF2 c1 hmem
      · have : c1 = c := by
          rcases List.mem_cons.1 hc1 with h | h
          · exact h
          · exact absurd h hmem
        subst this
        refine hFc.failOfSame hs2 ?_
        intro n n1 hn h1
        rw [hout2 c1 hmem, hn] at h1
        cases h1; rfl

/-- The assignment of `cur.alternative`. -/
theorem setAlternative_spec {nodes : List (Node T)} {cur : Int} {curN f : Node T}
    (hcurN : getNode nodes cur = some curN) (hf : getNode nodes curN.fail = some f)
    (hne : curN.fail ≠ cur) :
    ∃ nodes1, setAlternative nodes cur = some nodes1 ∧
      SameShape nodes nodes1 ∧ SameMarks nodes nodes1 ∧
      (∀ v, v ≠ cur → getNode nodes1 v = getNode nodes v) ∧
      (∀ v n n1, getNode nodes v = some n → getNode nodes1 v = some n1 → n1.fail = n.fail) ∧
      AltAt nodes1 cur := by
  have key : ∀ alt : Int, ∃ nodes1,
      updNode nodes cur (fun n => { n with alternative := alt }) = some nodes1 ∧
      SameShape nodes nodes1 ∧ SameMarks nodes nodes1 ∧
      (∀ v, v ≠ cur → getNode nodes1 v = getNode nodes v) ∧
      (∀ v n n1, getNode nodes v = some n → getNode nodes1 v = some n1 → n1.fail = n.fail) ∧
      getNode nodes1 cur = some { curN with alternative := alt } := by
    intro alt
    have hupd := updNode_some (fun n => { n with alternative := alt }) hcurN
    exact ⟨_, hupd, updNode_shape hupd (fun _ => ⟨rfl, rfl, rfl⟩),
      updNode_marks hupd (fun _ => ⟨rfl, rfl⟩), fun v hv => updNode_other hupd hv,
      updNode_field hupd Node.fail (fun _ => rfl), updNode_self hupd hcurN⟩
  unfold setAlternative
  simp only [hcurN, hf]
  by_cases hm : f.match_ ≥ 0
  · obtain ⟨nodes1, h1, h2, h3, h4, h5, h6⟩ := key curN.fail
    refine ⟨nodes1, by simp [hm, h1], h2, h3, h4, h5, ?_⟩
    intro n hn
    rw [h6] at hn; cases hn
    refine ⟨f, by simp only; rw [h4 _ hne]; exact hf, by simp [hm]⟩
  · obtain ⟨nodes1, h1, h2, h3, h4, h5, h6⟩ := key f.alternative
    refine ⟨nodes1, by simp [hm, h1], h2, h3, h4, h5, ?_⟩
    intro n hn
    rw [h6] at hn; cases hn
    refine ⟨f, by simp only; rw [h4 _ hne]; exact hf, by simp [hm]⟩

end LinkChildren

end aca

namespace aca

/-! ## The queue -/

section Queue

variable {T : Type} [DecidableEq T]

theorem nodup_bound {l : List Int} {n : Nat} (hn : 0 < n) (hnd : l.Nodup)
    (hv : ∀ v, v ∈ l → 0 < v ∧ v < n) : l.length + 1 ≤ n := by
  have h1 : (0 :: l.map Int.toNat).Nodup := by
    rw [List.nodup_cons]
    constructor
    · intro h
      obtain ⟨x, hx, h0⟩ := List.mem_map.1 h
      have := hv x hx
      omega
    · refine List.Nodup.map_on ?_ hnd
      intro x hx y hy hxy
      have := hv x hx
      have := hv y hy
      omega
  have h2 : (0 :: l.map Int.toNat) ⊆ List.range n := by
    intro x hx
    rw [List.mem_range]
    rcases List.mem_cons.1 hx with h | h
    · omega
    · obtain ⟨y, hy, h0⟩ := List.mem_map.1 h
      have := hv y hy
      omega
  have := (List.subperm_of_subset h1 h2).length_le
  simpa using this

theorem childOf_node {nodes : List (Node T)} {v c : Int} {a : T}
    (h : childOf nodes v a = some c) :
    ∃ n, getNode nodes v = some n ∧ mapGet n.children a = some c := by
  unfold childOf at h
  cases hn : getNode nodes v with
  | none => simp [hn] at h
  | some n => exact ⟨n, rfl, by simpa [hn] using h⟩

/-- The ids enumerated by `range n.children` are the children of the node, each once. -/
theorem enum_children {nodes : List (Node T)} (hT : Trie nodes) (o : MapOrder T) {v : Int}
    {n : Node T} (hn : getNode nodes v = some n) :
    (∀ c, c ∈ (o.enum n.children).map Prod.snd ↔ ∃ a, childOf nodes v a = some c) ∧
    ((o.enum n.children).map Prod.snd).Nodup := by
  have hk := hT.keys v n hn
  obtain ⟨w, hw⟩ := hT.reach v n hn
  constructor
  · intro c
    constructor
    · intro h
      obtain ⟨⟨a, c1⟩, hm, hc⟩ := List.mem_map.1 h
      simp only at hc
      subst hc
      have := (o.perm n.children).mem_iff.1 hm
      exact ⟨a, by rw [childOf_isSome_eq a hn]; exact mapGet_of_mem hk this⟩
    · intro ⟨a, ha⟩
      rw [childOf_isSome_eq a hn] at ha
      exact List.mem_map.2 ⟨(a, c), (o.perm n.children).mem_iff.2 (mapGet_mem ha), rfl⟩
  · have hnd : (o.enum n.children).Nodup := by
      rw [(o.perm n.children).nodup_iff]
      exact List.Nodup.of_map _ hk
    refine List.Nodup.map_on ?_ hnd
    intro x hx y hy hxy
    obtain ⟨a, c⟩ := x
    obtain ⟨b, d⟩ := y
    simp only at hxy
    subst hxy
    have h1 := mapGet_of_mem hk ((o.perm n.children).mem_iff.1 hx)
    have h2 := mapGet_of_mem hk ((o.perm n.children).mem_iff.1 hy)
    have w1 : walk nodes (w ++ [a]) = some c := by
      rw [walk_concat_of a hw, childOf_isSome_eq a hn]; exact h1
    have w2 : walk nodes (w ++ [b]) = some c := by
      rw [walk_concat_of b hw, childOf_isSome_eq b hn]; exact h2
    have := hT.inj _ _ _ w1 w2
    have := (List.append_inj' this rfl).2
    simp only [List.cons.injEq, and_true] at this
    rw [this]

theorem PathFn.exists {nodes0 : List (Node T)} (hT : Trie nodes0) :
    ∃ path, PathFn nodes0 path := by
  have : ∀ v : Int, ∃ w : List T, 0 ≤ v → v < nodes0.length → walk nodes0 w = some v := by
    intro v
    by_cases h : 0 ≤ v ∧ v < nodes0.length
    · obtain ⟨n, hn⟩ := getNode_of_valid h.1 h.2
      obtain ⟨w, hw⟩ := hT.reach v n hn
      exact ⟨w, fun _ _ => hw⟩
    · exact ⟨[], fun h0 h1 => absurd ⟨h0, h1⟩ h⟩
  choose path hpath using this
  exact ⟨path, hT, hpath⟩

theorem PathFn.eq {nodes0 : List (Node T)} {path : Int → List T} (hp : PathFn nodes0 path)
    {w : List T} {v : Int} (hw : walk nodes0 w = some v) : path v = w := by
  have hv := hp.trie.depth _ _ hw
  exact hp.trie.inj _ _ _ (hp.onPath v hv.1 hv.2.1) hw

theorem PathFn.rootPath {nodes0 : List (Node T)} {path : Int → List T} (hp : PathFn nodes0 path) :
    path 0 = [] := hp.eq (walk_nil nodes0)

theorem PathFn.child {nodes0 : List (Node T)} {path : Int → List T} (hp : PathFn nodes0 path)
    {u c : Int} {a : T} (hc : childOf nodes0 u a = some c) : path c = path u ++ [a] := by
  obtain ⟨n, hn, _⟩ := childOf_node hc
  have hu := getNode_valid hn
  apply hp.eq
  rw [walk_concat_of a (hp.onPath u hu.1 hu.2)]
  exact hc

theorem PathFn.parent {nodes0 : List (Node T)} {path : Int → List T} (hp : PathFn nodes0 path)
    {v : Int} (h0 : 0 < v) (h1 : v < nodes0.length) :
    ∃ u a, childOf nodes0 u a = some v ∧ 0 ≤ u ∧ u < nodes0.length := by
  have hw := hp.onPath v (by omega) h1
  rcases List.eq_nil_or_concat (path v) with h | ⟨w, a, h⟩
  · rw [h, walk_nil] at hw
    cases hw
    omega
  · rw [h] at hw
    simp only [List.concat_eq_append] at hw
    cases hu : walk nodes0 w with
    | none => rw [walk_concat_none a hu] at hw; cases hw
    | some u =>
      rw [walk_concat_of a hu] at hw
      have := hp.trie.depth _ _ hu
      exact ⟨u, a, hw, this.1, this.2.1⟩

theorem PathFn.parent_unique {nodes0 : List (Node T)} {path : Int → List T}
    (hp : PathFn nodes0 path) {u1 u2 c : Int} {a1 a2 : T}
    (h1 : childOf nodes0 u1 a1 = some c) (h2 : childOf nodes0 u2 a2 = some c) : u1 = u2 := by
  have e1 := hp.child h1
  have e2 := hp.child h2
  rw [e1] at e2
  have := (List.append_inj' e2 rfl).1
  obtain ⟨n1, hn1, _⟩ := childOf_node h1
  obtain ⟨n2, hn2, _⟩ := childOf_node h2
  have v1 := getNode_valid hn1
  have v2 := getNode_valid hn2
  have w1 := hp.onPath u1 v1.1 v1.2
  have w2 := hp.onPath u2 v2.1 v2.2
  rw [this, w2] at w1
  cases w1; rfl

theorem PathFn.ne_nil {nodes0 : List (Node T)} {path : Int → List T} (hp : PathFn nodes0 path)
    {v : Int} (h0 : 0 < v) (h1 : v < nodes0.length) : path v ≠ [] := by
  intro h
  have hw := hp.onPath v (by omega) h1
  rw [h, walk_nil] at hw
  cases hw
  omega

theorem failAt_root {nodes : List (Node T)} (hT : Trie nodes)
    (h : ∀ r, getNode nodes 0 = some r → r.fail = 0) : FailAt nodes 0 := by
  intro w n hw hn
  rw [walk_eq_root hT hw, h n hn]
  rfl

theorem SameMarks.marksTrans {n1 n2 n3 : List (Node T)} (hs : SameShape n1 n2)
    (h12 : SameMarks n1 n2) (h23 : SameMarks n2 n3) : SameMarks n1 n3 := by
  intro v a c ha hc
  obtain ⟨b, hb, _⟩ := hs.2 v a ha
  obtain ⟨e1, e2⟩ := h12 v a b ha hb
  obtain ⟨f1, f2⟩ := h23 v b c hb hc
  exact ⟨f1.trans e1, f2.trans e2⟩

theorem AltAt.altOfSame {nodes nodes1 : List (Node T)} {v : Int}
    (hv : getNode nodes1 v = getNode nodes v)
    (hf : ∀ n, getNode nodes v = some n → getNode nodes1 n.fail = getNode nodes n.fail)
    (h : AltAt nodes v) : AltAt nodes1 v := by
  intro n hn
  rw [hv] at hn
  obtain ⟨f, h1, h2⟩ := h n hn
  exact ⟨f, by rw [hf n hn]; exact h1, h2⟩

/-- Every node above the head of the queue has been popped. -/
theorem LinkInv.shallow_done {nodes0 nodes : List (Node T)} {path : Int → List T}
    {done rest : List Int} {cur : Int} (hp : PathFn nodes0 path)
    (inv : LinkInv nodes0 nodes path done (cur :: rest)) (k : Nat) :
    ∀ v : Int, 0 < v → v < nodes0.length → (path v).length ≤ k →
      (path v).length < (path cur).length → v ∈ done := by
  induction k with
  | zero =>
    intro v h0 h1 hk _
    have := hp.ne_nil h0 h1
    have : (path v).length ≠ 0 := fun h => this (List.length_eq_zero.1 h)
    omega
  | succ k ih =>
    intro v h0 h1 hk hlt
    obtain ⟨u, a, hc, hu0, hu1⟩ := hp.parent h0 h1
    have hpc := hp.child hc
    have hlen : (path v).length = (path u).length + 1 := by rw [hpc]; simp
    have hu : u = 0 ∨ u ∈ done := by
      by_cases h : u = 0
      · exact Or.inl h
      · exact Or.inr (ih u (by omega) hu1 (by omega) (by omega))
    have hmem := (inv.front u a v hc).2 hu
    rcases List.mem_append.1 hmem with h | h
    · exact h
    · exfalso
      have hs := inv.sorted
      rw [List.pairwise_append] at hs
      rcases List.mem_cons.1 h with h | h
      · subst h; omega
      · have := (List.pairwise_cons.1 hs.2.1).1 v h
        omega

/-- When the queue is empty every node has been popped. -/
theorem LinkInv.all_done {nodes0 nodes : List (Node T)} {path : Int → List T}
    {done : List Int} (hp : PathFn nodes0 path)
    (inv : LinkInv nodes0 nodes path done []) (k : Nat) :
    ∀ v : Int, 0 < v → v < nodes0.length → (path v).length ≤ k → v ∈ done := by
  induction k with
  | zero =>
    intro v h0 h1 hk
    have := hp.ne_nil h0 h1
    have : (path v).length ≠ 0 := fun h => this (List.length_eq_zero.1 h)
    omega
  | succ k ih =>
    intro v h0 h1 hk
    obtain ⟨u, a, hc, hu0, hu1⟩ := hp.parent h0 h1
    have hpc := hp.child hc
    have hlen : (path v).length = (path u).length + 1 := by rw [hpc]; simp
    have hu : u = 0 ∨ u ∈ done := by
      by_cases h : u = 0
      · exact Or.inl h
      · exact Or.inr (ih u (by omega) hu1 (by omega))
    simpa using (inv.front u a v hc).2 hu

end Queue

end aca

namespace aca

/-! ## One round of the queue loop -/

section Loop

variable {T : Type} [DecidableEq T]

theorem tail_length_lt {x : List T} (h : x ≠ []) : x.tail.length < x.length := by
  cases x with
  | nil => exact absurd rfl h
  | cons b x => simp

/-- One round of the queue loop of `New`: the loop over the children and the assignment of
the alternative link succeed, the children are appended to the queue, and the invariant is
kept. -/
theorem linkLoop_round (o : MapOrder T) {nodes0 nodes : List (Node T)} {path : Int → List T}
    {done rest : List Int} {cur : Int} (hp : PathFn nodes0 path)
    (inv : LinkInv nodes0 nodes path done (cur :: rest)) :
    ∃ curN nodes1 nodes2, getNode nodes cur = some curN ∧
      linkChildren (nodes.length + 1) cur ((o.enum curN.children).map Prod.snd) nodes rest =
        some (nodes1, rest ++ (o.enum curN.children).map Prod.snd) ∧
      setAlternative nodes1 cur = some nodes2 ∧
      LinkInv nodes0 nodes2 path (done ++ [cur])
        (rest ++ (o.enum curN.children).map Prod.snd) := by
  have hT0 := hp.trie
  have hT : Trie nodes := hT0.trieOfShape inv.shape
  have hlen : nodes.length = nodes0.length := inv.shape.1
  have hcurv := inv.valid cur (by simp)
  have hwcur0 := hp.onPath cur (by omega) hcurv.2
  have hwcur : walk nodes (path cur) = some cur := by rw [inv.shape.walk]; exact hwcur0
  have hne : path cur ≠ [] := hp.ne_nil hcurv.1 hcurv.2
  obtain ⟨curN, hcurN⟩ := hT.node_of_walk hwcur
  obtain ⟨hmem, hnd⟩ := enum_children hT o hcurN
  generalize hcs : (o.enum curN.children).map Prod.snd = cs at hmem hnd
  have hFcur : FailAt nodes cur := inv.failOK cur (by simp)
  have hroot : FailAt nodes 0 := failAt_root hT (fun r hr => (inv.rootFail r hr).1)
  have hshallow : ∀ v : Int, 0 < v → v < nodes0.length →
      (path v).length < (path cur).length → v ∈ done :=
    fun v h0 h1 hl => inv.shallow_done hp (path v).length v h0 h1 (le_refl _) hl
  have hF : ∀ x v, walk nodes x = some v → x.length < (path cur).length → FailAt nodes v := by
    intro x v hx hl
    rw [inv.shape.walk] at hx
    have hv := hT0.depth _ _ hx
    by_cases h0 : v = 0
    · subst h0; exact hroot
    · have hpv := hp.eq hx
      have := hshallow v (by omega) hv.2.1 (by rw [hpv]; exact hl)
      exact inv.failOK v (by simp [this])
  obtain ⟨nodes1, hl1, hs1, hm1, hout1, halt1, hF1⟩ :=
    linkChildren_spec hne (nodes.length + 1) cs nodes rest hT hwcur (by omega)
      (fun c hc => (hmem c).1 hc) hFcur hF
  have hchild0 : ∀ c, c ∈ cs → ∃ a, childOf nodes0 cur a = some c := by
    intro c hc
    obtain ⟨a, ha⟩ := (hmem c).1 hc
    exact ⟨a, by rw [← inv.shape.childOf]; exact ha⟩
  have hcdepth : ∀ c, c ∈ cs → (path c).length = (path cur).length + 1 := by
    intro c hc
    obtain ⟨a, ha⟩ := hchild0 c hc
    rw [hp.child ha]; simp
  have hcvalid : ∀ c, c ∈ cs → 0 < c ∧ c < nodes0.length := by
    intro c hc
    obtain ⟨a, ha⟩ := hchild0 c hc
    have h1 := childOf_some_valid hT0 ha
    have h2 := (walk_child_ne hT0 hwcur0 ha).2
    exact ⟨by omega, h1.2⟩
  have hcur_notin : cur ∉ cs := by
    intro h
    have := hcdepth cur h
    omega
  have hcurN1 : getNode nodes1 cur = some curN := by rw [hout1 cur hcur_notin]; exact hcurN
  have hfc := hFcur (path cur) curN hwcur hcurN
  have hfdepth : ∀ (v : Int) n, 0 < v → v < nodes0.length → getNode nodes v = some n →
      FailAt nodes v → 0 ≤ n.fail ∧ n.fail < nodes0.length ∧
        (path n.fail).length < (path v).length := by
    intro v n h0 h1 hn hfa
    have hw := hp.onPath v (by omega) h1
    have h2 := hfa (path v) n (by rw [inv.shape.walk]; exact hw) hn
    rw [inv.shape.walk] at h2
    have h3 := hT0.depth _ _ h2
    have h4 := hp.eq h2
    have h5 := lsuf_length_le nodes (path v).tail
    have h6 := tail_length_lt (hp.ne_nil h0 h1)
    refine ⟨h3.1, h3.2.1, ?_⟩
    rw [h4]; omega
  have hcf := hfdepth cur curN hcurv.1 hcurv.2 hcurN hFcur
  have hfne : curN.fail ≠ cur := by
    intro h
    rw [h] at hcf
    omega
  obtain ⟨fN, hfN⟩ : ∃ f, getNode nodes1 curN.fail = some f :=
    getNode_of_valid hcf.1 (by rw [hs1.1, hlen]; exact hcf.2.1)
  obtain ⟨nodes2, hsa, hs2, hm2, hother2, hfail2, hAlt⟩ := setAlternative_spec hcurN1 hfN hfne
  have hsame : ∀ v, v ≠ cur → v ∉ cs → getNode nodes2 v = getNode nodes v := by
    intro v h1 h2
    rw [hother2 v h1, hout1 v h2]
  have hL : done ++ [cur] ++ (rest ++ cs) = (done ++ cur :: rest) ++ cs := by simp
  have hdisj : ∀ c, c ∈ cs → c ∉ done ++ cur :: rest := by
    intro c hc hin
    obtain ⟨a, ha⟩ := hchild0 c hc
    rcases (inv.front cur a c ha).1 hin with h | h
    · omega
    · have := inv.nodup
      rw [List.nodup_append] at this
      exact this.2.2 h (List.mem_cons_self _ _) 
  have hdone_le : ∀ x, x ∈ done → (path x).length ≤ (path cur).length := by
    intro x hx
    have := inv.sorted
    rw [List.pairwise_append] at this
    exact this.2.2 x hx cur (List.mem_cons_self _ _)
  have hrest_ge : ∀ x, x ∈ rest → (path cur).length ≤ (path x).length := by
    intro x hx
    have := inv.sorted
    rw [List.pairwise_append] at this
    exact (List.pairwise_cons.1 this.2.1).1 x hx
  refine ⟨curN, nodes1, nodes2, hcurN, by rw [hcs]; exact hl1, hsa, ?_⟩
  rw [hcs]
  · constructor
    · exact inv.shape.shapeTrans (hs1.shapeTrans hs2)
    · exact SameMarks.marksTrans inv.shape inv.marks (SameMarks.marksTrans hs1 hm1 hm2)
    · intro r hr
      have h0 : (0 : Int) ∉ cs := fun h => by have := hcvalid 0 h; omega
      rw [hsame 0 (by omega) h0] at hr
      exact inv.rootFail r hr
    · intro v hv
      rw [hL] at hv
      rcases List.mem_append.1 hv with h | h
      · exact inv.valid v h
      · exact hcvalid v h
    · rw [hL, List.nodup_append]
      exact ⟨inv.nodup, hnd, fun {c} h1 h2 => hdisj c h2 h1⟩
    · rw [hL, List.pairwise_append]
      refine ⟨inv.sorted, ?_, ?_⟩
      · rw [List.pairwise_iff_forall_sublist]
        intro a b hab
        have ha := hab.subset (List.mem_cons_self _ _)
        have hb := hab.subset (List.mem_cons_of_mem _ (List.mem_singleton_self _))
        rw [hcdepth a ha, hcdepth b hb]
      · intro x hx y hy
        rw [hcdepth y hy]
        rcases List.mem_append.1 hx with h | h
        · have := hdone_le x h; omega
        · rcases List.mem_cons.1 h with h | h
          · subst h; omega
          · have := inv.near cur (List.mem_cons_self _ _) x (List.mem_cons_of_mem _ h)
            omega
    · intro x hx y hy
      rcases List.mem_append.1 hx with hx | hx <;> rcases List.mem_append.1 hy with hy | hy
      · exact inv.near x (List.mem_cons_of_mem _ hx) y (List.mem_cons_of_mem _ hy)
      · have := hrest_ge x hx
        rw [hcdepth y hy]; omega
      · have := inv.near cur (List.mem_cons_self _ _) y (List.mem_cons_of_mem _ hy)
        rw [hcdepth x hx]; omega
      · rw [hcdepth x hx, hcdepth y hy]; omega
    · intro v a c hc
      rw [hL]
      constructor
      · intro h
        rcases List.mem_append.1 h with h | h
        · rcases (inv.front v a c hc).1 h with h | h
          · exact Or.inl h
          · exact Or.inr (by simp [h])
        · obtain ⟨a1, ha1⟩ := hchild0 c h
          have := hp.parent_unique hc ha1
          exact Or.inr (by simp [this])
      · intro h
        have h' : (v = 0 ∨ v ∈ done) ∨ v = cur := by
          rcases h with h | h
          · exact Or.inl (Or.inl h)
          · rcases List.mem_append.1 h with h | h
            · exact Or.inl (Or.inr h)
            · exact Or.inr (by simpa using h)
        rcases h' with h | h
        · exact List.mem_append_left _ ((inv.front v a c hc).2 h)
        · subst h
          exact List.mem_append_right _ ((hmem c).2 ⟨a, by rw [inv.shape.childOf]; exact hc⟩)
    · intro v hv
      rw [hL] at hv
      by_cases hvc : v ∈ cs
      · exact (hF1 v hvc).failOfSame hs2 (hfail2 v)
      · have hv' : v ∈ done ++ cur :: rest := by
          rcases List.mem_append.1 hv with h | h
          · exact h
          · exact absurd h hvc
        refine (inv.failOK v hv').failOfSame (hs1.shapeTrans hs2) ?_
        intro n n2 hn h2
        obtain ⟨n1, h1, _⟩ := hs1.2 v n hn
        rw [hfail2 v n1 n2 h1 h2]
        rw [hout1 v hvc, hn] at h1
        cases h1; rfl
    · intro v hv
      rcases List.mem_append.1 hv with h | h
      · have hvv := inv.valid v (List.mem_append_left _ h)
        have hvne : v ≠ cur := by
          intro e
          subst e
          have := inv.nodup
          rw [List.nodup_append] at this
          exact this.2.2 h (List.mem_cons_self _ _) 
        have hvcs : v ∉ cs := fun hc => hdisj v hc (List.mem_append_left _ h)
        refine (inv.altOK v h).altOfSame (hsame v hvne hvcs) ?_
        intro n hn
        have hd := hfdepth v n hvv.1 hvv.2 hn (inv.failOK v (List.mem_append_left _ h))
        have := hdone_le v h
        apply hsame
        · intro e
          rw [e] at hd
          omega
        · intro hc
          have := hcdepth _ hc
          omega
      · simp only [List.mem_singleton] at h
        subst h
        exact hAlt

/-- One iteration of the queue loop of `New` keeps the invariant. -/
theorem linkLoop_step (o : MapOrder T) {nodes0 nodes : List (Node T)} {path : Int → List T}
    {done rest : List Int} {cur : Int} (hp : PathFn nodes0 path)
    (inv : LinkInv nodes0 nodes path done (cur :: rest)) :
    ∃ nodes2 cs,
      (∀ fuel, linkLoop o (fuel + 1) nodes (cur :: rest) = linkLoop o fuel nodes2 (rest ++ cs)) ∧
      LinkInv nodes0 nodes2 path (done ++ [cur]) (rest ++ cs) := by
  obtain ⟨curN, nodes1, nodes2, hcurN, hl1, hsa, inv2⟩ := linkLoop_round o hp inv
  refine ⟨nodes2, _, ?_, inv2⟩
  intro fuel
  rw [linkLoop]
  simp only [hcurN, hl1, hsa]

end Loop

end aca

namespace aca

/-! ## `New` establishes the invariants -/

section NewSpec

variable {T : Type} [DecidableEq T]

/-- The root keeps `alternative == -1` through one step of the trie construction. -/
theorem addAtom_rootAlt [Inhabited T] {i plen j : Int} {atom : T} {st st1 : Build T}
    (h : addAtom i plen j atom st = some st1)
    (hr : ∀ r, getNode st.nodes 0 = some r → r.alternative = -1) :
    ∀ r, getNode st1.nodes 0 = some r → r.alternative = -1 := by
  have hmark : ∀ (nodes nodes1 : List (Node T)) (p : Int),
      markLast nodes p i plen j = some nodes1 →
      (∀ r, getNode nodes 0 = some r → r.alternative = -1) →
      ∀ r, getNode nodes1 0 = some r → r.alternative = -1 := by
    intro nodes nodes1 p hm hr0 r hr1
    unfold markLast at hm
    split at hm
    · obtain ⟨n, hn, hlen, _⟩ := updNode_spec hm
      have hv := getNode_valid hr1
      rw [hlen] at hv
      obtain ⟨r0, hr0'⟩ := getNode_in nodes hv.1 hv.2
      rw [updNode_field hm Node.alternative (fun _ => rfl) 0 r0 r hr0' hr1]
      exact hr0 r0 hr0'
    · cases hm
      exact hr0 r hr1
  unfold addAtom at h
  split at h
  · cases h
  · rename_i curN hc
    split at h
    · rename_i id hg
      split at h
      · cases h
      · rename_i nodes1 hm
        split at h
        · cases h
        · simp only [Option.some.injEq] at h
          subst h
          exact hmark _ _ _ hm hr
    · simp only at h
      split at h
      · cases h
      · rename_i nodes2 hm
        split at h
        · cases h
        · rename_i nd hn
          split at h
          · cases h
          · rename_i nodes3 hu
            simp only [Option.some.injEq] at h
            subst h
            simp only
            have hcv := getNode_valid hc
            have h2 : ∀ r, getNode nodes2 0 = some r → r.alternative = -1 := by
              apply hmark _ _ _ hm
              intro r hr1
              rw [getNode_append_left _ (by omega)] at hr1
              exact hr r hr1
            intro r hr3
            obtain ⟨n, _, hlen, _⟩ := updNode_spec hu
            have hv := getNode_valid hr3
            rw [hlen] at hv
            obtain ⟨r2, hr2⟩ := getNode_in nodes2 hv.1 hv.2
            rw [updNode_field hu Node.alternative (fun _ => rfl) 0 r2 r hr2 hr3]
            exact h2 r2 hr2

theorem addAtoms_rootAlt [Inhabited T] {i plen : Int} (rest : List T) :
    ∀ (j : Int) (st st1 : Build T), addAtoms i plen rest j st = some st1 →
      (∀ r, getNode st.nodes 0 = some r → r.alternative = -1) →
      ∀ r, getNode st1.nodes 0 = some r → r.alternative = -1 := by
  induction rest with
  | nil =>
    intro j st st1 h hr
    simp only [addAtoms, Option.some.injEq] at h
    subst h; exact hr
  | cons atom rest ih =>
    intro j st st1 h hr
    unfold addAtoms at h
    cases h1 : addAtom i plen j atom st with
    | none => simp [h1] at h
    | some st2 =>
      simp only [h1] at h
      exact ih (j + 1) st2 st1 h (addAtom_rootAlt h1 hr)

theorem addPatterns_rootAlt [Inhabited T] (rest : List (List T)) :
    ∀ (i : Int) (st st1 : Build T), addPatterns rest i st = some st1 →
      (∀ r, getNode st.nodes 0 = some r → r.alternative = -1) →
      ∀ r, getNode st1.nodes 0 = some r → r.alternative = -1 := by
  induction rest with
  | nil =>
    intro i st st1 h hr
    simp only [addPatterns, Option.some.injEq] at h
    subst h; exact hr
  | cons p rest ih =>
    intro i st st1 h hr
    unfold addPatterns at h
    cases h1 : addAtoms i p.length p 0 { st with cur := 0 } with
    | none => simp [h1] at h
    | some st2 =>
      simp only [h1] at h
      exact ih (i + 1) st2 st1 h (addAtoms_rootAlt p 0 _ st2 h1 hr)

theorem buildTrie_rootAlt [Inhabited T] {P : List (List T)} {nodes : List (Node T)}
    (h : buildTrie P = some nodes) : ∀ r, getNode nodes 0 = some r → r.alternative = -1 := by
  unfold buildTrie at h
  cases h1 : addPatterns P 0 { nodes := [rootNode T], cur := 0, ids := 1 } with
  | none => simp [h1] at h
  | some st =>
    simp only [h1, Option.some.injEq] at h
    subst h
    apply addPatterns_rootAlt P 0 _ st h1
    intro r hr
    obtain ⟨_, h2⟩ := getNode_root_only 0 r hr
    subst h2; rfl

/-- The seeding loop sets the failure link of the listed nodes to the root and queues them. -/
theorem seedQueue_spec (cs : List Int) :
    ∀ (nodes : List (Node T)) (queue : List Int),
      (∀ c, c ∈ cs → 0 ≤ c ∧ c < nodes.length) →
      ∃ nodes1, seedQueue cs nodes queue = some (nodes1, queue ++ cs) ∧
        SameShape nodes nodes1 ∧ SameMarks nodes nodes1 ∧
        (∀ v, v ∉ cs → getNode nodes1 v = getNode nodes v) ∧
        (∀ c n, c ∈ cs → getNode nodes1 c = some n → n.fail = 0) := by
  induction cs with
  | nil =>
    intro nodes queue _
    refine ⟨nodes, by simp [seedQueue], SameShape.refl _, ?_, fun _ _ => rfl, ?_⟩
    · intro v n n1 hn h1
      rw [hn] at h1; cases h1; exact ⟨rfl, rfl⟩
    · intro c n hc; cases hc
  | cons c rest ih =>
    intro nodes queue hv
    obtain ⟨n, hn⟩ := getNode_of_valid (hv c (List.mem_cons_self _ _)).1
      (hv c (List.mem_cons_self _ _)).2
    have hupd := updNode_some (fun n => { n with fail := 0 }) hn
    generalize nodes.set c.toNat { n with fail := 0 } = nodes1 at hupd
    have hs1 : SameShape nodes nodes1 := updNode_shape hupd (fun _ => ⟨rfl, rfl, rfl⟩)
    have hm1 : SameMarks nodes nodes1 := updNode_marks hupd (fun _ => ⟨rfl, rfl⟩)
    obtain ⟨nodes2, h2, hs2, hm2, hout2, hf2⟩ := ih nodes1 (queue ++ [c])
      (fun c1 hc1 => by rw [hs1.1]; exact hv c1 (List.mem_cons_of_mem _ hc1))
    refine ⟨nodes2, ?_, hs1.shapeTrans hs2, SameMarks.marksTrans hs1 hm1 hm2, ?_, ?_⟩
    · unfold seedQueue
      simp only [hupd]
      rw [h2]; simp
    · intro v hv1
      simp only [List.mem_cons, not_or] at hv1
      rw [hout2 v hv1.2, updNode_other hupd hv1.1]
    · intro c1 n2 hc1 hn2
      by_cases hmem : c1 ∈ rest
      · exact hf2 c1 n2 hmem hn2
      · have : c1 = c := by
          rcases List.mem_cons.1 hc1 with h | h
          · exact h
          · exact absurd h hmem
        subst this
        rw [hout2 c1 hmem, updNode_self hupd hn] at hn2
        cases hn2; rfl

/-- The queue loop of `New` ends within `fuel` rounds, with the invariant. -/
theorem linkLoop_spec (o : MapOrder T) {nodes0 : List (Node T)} {path : Int → List T}
    (hp : PathFn nodes0 path) (fuel : Nat) :
    ∀ (nodes : List (Node T)) (done q : List Int), LinkInv nodes0 nodes path done q →
      nodes0.length ≤ done.length + fuel →
      ∃ nodes1 done1, linkLoop o fuel nodes q = some nodes1 ∧
        LinkInv nodes0 nodes1 path done1 [] := by
  induction fuel with
  | zero =>
    intro nodes done q inv hf
    have h0 := (hp.trie.depth _ _ (walk_nil nodes0)).2.1
    have := nodup_bound (by omega) inv.nodup inv.valid
    simp only [List.length_append] at this
    omega
  | succ fuel ih =>
    intro nodes done q inv hf
    cases q with
    | nil => exact ⟨nodes, done, rfl, inv⟩
    | cons cur rest =>
      obtain ⟨nodes2, cs, hstep, inv2⟩ := linkLoop_step o hp inv
      obtain ⟨nodes3, done3, h3, inv3⟩ := ih nodes2 (done ++ [cur]) (rest ++ cs) inv2
        (by simp only [List.length_append, List.length_singleton]; omega)
      exact ⟨nodes3, done3, by rw [hstep]; exact h3, inv3⟩

/-- The assignment `root.fail = root.id` and the seeding loop succeed, the queue holds the
children of the root, and the invariant of the queue loop holds. -/
theorem seedQueue_inv (o : MapOrder T) {nodes0 : List (Node T)} {path : Int → List T}
    (hp : PathFn nodes0 path)
    (hr : ∀ r, getNode nodes0 0 = some r → r.alternative = -1) :
    ∃ root nodesA nodesB, getNode nodes0 0 = some root ∧
      updNode nodes0 0 (fun n => { n with fail := root.id }) = some nodesA ∧
      seedQueue ((o.enum root.children).map Prod.snd) nodesA [] =
        some (nodesB, (o.enum root.children).map Prod.snd) ∧
      LinkInv nodes0 nodesB path [] ((o.enum root.children).map Prod.snd) := by
  have hT := hp.trie
  obtain ⟨root, hroot⟩ := hT.hasRoot
  have hrid := hT.ids 0 root hroot
  have hupd := updNode_some (fun n => { n with fail := root.id }) hroot
  generalize nodes0.set (0 : Int).toNat { root with fail := root.id } = nodesA at hupd
  have hsA : SameShape nodes0 nodesA := updNode_shape hupd (fun _ => ⟨rfl, rfl, rfl⟩)
  have hmA : SameMarks nodes0 nodesA := updNode_marks hupd (fun _ => ⟨rfl, rfl⟩)
  have hrootA := updNode_self hupd hroot
  obtain ⟨hmem, hnd⟩ := enum_children hT o hroot
  generalize hcs : (o.enum root.children).map Prod.snd = cs at hmem hnd
  have hcvalid : ∀ c, c ∈ cs → 0 < c ∧ c < nodes0.length := by
    intro c hc
    obtain ⟨a, ha⟩ := (hmem c).1 hc
    have h1 := childOf_some_valid hT ha
    have h2 := (walk_child_ne hT (walk_nil nodes0) ha).2
    exact ⟨by omega, h1.2⟩
  obtain ⟨nodesB, hseed, hsB, hmB, houtB, hfB⟩ := seedQueue_spec cs nodesA []
    (fun c hc => by rw [hsA.1]; have := hcvalid c hc; omega)
  have hsAB := hsA.shapeTrans hsB
  have h0cs : (0 : Int) ∉ cs := fun h => by have := hcvalid 0 h; omega
  have hcdepth : ∀ c, c ∈ cs → (path c).length = 1 := by
    intro c hc
    obtain ⟨a, ha⟩ := (hmem c).1 hc
    rw [hp.child ha, hp.rootPath]; simp
  have inv : LinkInv nodes0 nodesB path [] cs := by
    constructor
    · exact hsAB
    · exact SameMarks.marksTrans hsA hmA hmB
    · intro r hr1
      rw [houtB 0 h0cs, hrootA] at hr1
      cases hr1
      exact ⟨hrid, hr root hroot⟩
    · intro v hv
      exact hcvalid v (by simpa using hv)
    · simpa using hnd
    · simp only [List.nil_append]
      rw [List.pairwise_iff_forall_sublist]
      intro a b hab
      have ha := hab.subset (List.mem_cons_self _ _)
      have hb := hab.subset (List.mem_cons_of_mem _ (List.mem_singleton_self _))
      rw [hcdepth a ha, hcdepth b hb]
    · intro x hx y hy
      rw [hcdepth x hx, hcdepth y hy]; omega
    · intro v a c hc
      simp only [List.nil_append, List.not_mem_nil, or_false]
      constructor
      · intro h
        obtain ⟨a1, ha1⟩ := (hmem c).1 h
        exact hp.parent_unique hc ha1
      · intro h
        subst h
        exact (hmem c).2 ⟨a, hc⟩
    · intro v hv
      simp only [List.nil_append] at hv
      intro w n hw hn
      rw [hsAB.walk] at hw
      obtain ⟨a, ha⟩ := (hmem v).1 hv
      have hw1 : walk nodes0 ([] ++ [a]) = some v := by
        rw [walk_concat_of a (walk_nil nodes0)]; exact ha
      have := hT.inj _ _ _ hw hw1
      subst this
      rw [hfB v n hv hn]
      rfl
    · intro v hv; cases hv
  refine ⟨root, nodesA, nodesB, hroot, hupd, ?_, ?_⟩
  · rw [hcs]; simpa using hseed
  · rw [hcs]; exact inv

/-- The second phase of `New` succeeds and links the trie. -/
theorem linkFailures_spec (o : MapOrder T) {nodes0 : List (Node T)} (hT : Trie nodes0)
    (hr : ∀ r, getNode nodes0 0 = some r → r.alternative = -1) (fuel : Nat)
    (hfuel : nodes0.length ≤ fuel) :
    ∃ nodes1, linkFailures o fuel nodes0 = some nodes1 ∧ SameShape nodes0 nodes1 ∧
      SameMarks nodes0 nodes1 ∧ Linked nodes1 := by
  obtain ⟨path, hp⟩ := PathFn.exists hT
  obtain ⟨root, nodesA, nodesB, hroot, hupd, hseed, inv⟩ := seedQueue_inv o hp hr
  obtain ⟨nodes1, done1, hloop, inv1⟩ := linkLoop_spec o hp fuel nodesB [] _ inv
    (by simpa using hfuel)
  have hT1 : Trie nodes1 := hT.trieOfShape inv1.shape
  have hall : ∀ w v, walk nodes1 w = some v → v ≠ 0 → v ∈ done1 := by
    intro w v hw hv0
    rw [inv1.shape.walk] at hw
    have hv := hT.depth _ _ hw
    exact inv1.all_done hp (path v).length v (by omega) hv.2.1 (le_refl _)
  refine ⟨nodes1, ?_, inv1.shape, inv1.marks, ?_⟩
  · unfold linkFailures
    simp only [hroot, hupd, hseed]
    exact hloop
  · constructor
    · intro w v hw
      by_cases hv0 : v = 0
      · subst hv0
        exact failAt_root hT1 (fun r hr1 => (inv1.rootFail r hr1).1)
      · exact inv1.failOK v (by simpa using hall w v hw hv0)
    · intro r hr1
      exact (inv1.rootFail r hr1).2
    · intro w v hne hw
      have hv0 : v ≠ 0 := by
        intro h
        subst h
        exact hne (walk_eq_root hT1 hw)
      exact inv1.altOK v (hall w v hw hv0)

/-- `New` succeeds for every pattern list and every enumeration order of the maps, and the
automaton it returns satisfies the invariants of the construction. -/
theorem New_spec [Inhabited T] (o : MapOrder T) (P : List (List T)) :
    ∃ a, New o P = some a ∧ Built a.nodes P := by
  obtain ⟨nodes0, hb, hT, hC, hM⟩ := buildTrie_spec P
  obtain ⟨nodes1, hl, hs, hm, hL⟩ :=
    linkFailures_spec o hT (buildTrie_rootAlt hb) (nodes0.length + 1) (by omega)
  refine ⟨{ nodes := nodes1 }, ?_, hT.trieOfShape hs, hC.coversOfShape hs, hM.marksOfSame hs hm, hL⟩
  unfold New
  simp only [hb, hl]

end NewSpec

end aca

namespace aca

/-! ## One step of `Next` -/

section NextSpec

variable {T : Type} [DecidableEq T]

theorem Built.root_match {nodes : List (Node T)} {P : List (List T)} (hB : Built nodes P)
    {r : Node T} (hr : getNode nodes 0 = some r) : r.match_ = -1 := by
  rcases (hB.marks [] 0 r (walk_nil nodes) hr).1 with h | ⟨_, _, h, _⟩
  · exact h
  · exact absurd rfl h

theorem markAt_of {nodes : List (Node T)} {y : List T} {v : Int} {n : Node T}
    (hw : walk nodes y = some v) (hn : getNode nodes v = some n) :
    markAt nodes y = if n.match_ ≥ 0 then [n.match_] else [] := by
  simp [markAt, hw, hn]

theorem markAt_none {nodes : List (Node T)} {y : List T} (hw : walk nodes y = none) :
    markAt nodes y = [] := by
  simp [markAt, hw]

theorem outs_lsuf (nodes : List (Node T)) (u : List T) :
    outs nodes u = outs nodes (lsuf nodes u) := by
  induction u with
  | nil => rfl
  | cons a u ih =>
    by_cases h : (walk nodes (a :: u)).isSome
    · rw [lsuf_of_isSome h]
    · have hn : walk nodes (a :: u) = none := by
        cases hw : walk nodes (a :: u) with
        | none => rfl
        | some v => rw [hw] at h; exact absurd rfl h
      have e : lsuf nodes (a :: u) = lsuf nodes u := by simp [lsuf, hn]
      rw [e, ← ih]
      simp [outs, markAt_none hn]

theorem outs_eq_tail {nodes : List (Node T)} {x : List T} (hx : x ≠ []) :
    outs nodes x = markAt nodes x ++ outs nodes x.tail := by
  cases x with
  | nil => exact absurd rfl hx
  | cons a u => rfl

/-- The loop over the alternative chain appends the marks of the proper suffixes. -/
theorem altLoop_spec {nodes : List (Node T)} {P : List (List T)} (hB : Built nodes P)
    (k : Nat) :
    ∀ (x : List T) (v : Int) (n : Node T) (acc : List Int) (fuel : Nat),
      x.length ≤ k → x ≠ [] → walk nodes x = some v → getNode nodes v = some n →
      x.length ≤ fuel →
      altLoop fuel nodes n.alternative acc = some (acc ++ outs nodes x.tail) := by
  induction k with
  | zero =>
    intro x v n acc fuel hk hx
    exact absurd (List.length_eq_zero.1 (by omega)) hx
  | succ k ih =>
    intro x v n acc fuel hk hx hw hn hfuel
    obtain ⟨f, hf, halt⟩ := hB.linked.altOK x v hx hw n hn
    have hfa := hB.linked.failOK x v hw x n hw hn
    have hlt := tail_length_lt hx
    have hle := lsuf_length_le nodes x.tail
    rw [outs_lsuf nodes x.tail]
    have hfuel1 : 0 < fuel := by
      have : x.length ≠ 0 := fun h => hx (List.length_eq_zero.1 h)
      omega
    obtain ⟨fuel1, rfl⟩ : ∃ m, fuel = m + 1 := ⟨fuel - 1, by omega⟩
    by_cases hy : lsuf nodes x.tail = []
    · rw [hy] at hfa ⊢
      rw [walk_nil] at hfa
      have h0 : n.fail = 0 := (Option.some.inj hfa).symm
      rw [h0] at hf
      have hm := hB.root_match hf
      have ha := hB.linked.altRoot f hf
      rw [halt]
      simp [hm, ha, altLoop, outs]
    · rw [outs_eq_tail hy, markAt_of hfa hf]
      by_cases hm : f.match_ ≥ 0
      · have hv := hB.trie.depth _ _ hfa
        have hneg : ¬ n.fail < 0 := by omega
        rw [halt]
        simp only [hm, if_true]
        unfold altLoop
        simp only [hneg, if_false, hf]
        rw [ih (lsuf nodes x.tail) n.fail f (acc ++ [f.match_]) fuel1 (by omega) hy hfa hf
          (by omega)]
        simp
      · rw [halt]
        simp only [hm, if_false, List.nil_append]
        exact ih (lsuf nodes x.tail) n.fail f acc (fuel1 + 1) (by omega) hy hfa hf (by omega)

/-- The fallback loop of `Next` stops on the node below which the longest suffix of the input
hangs, or on the root when only the empty suffix is a path. -/
theorem failLoop_spec {nodes : List (Node T)} {P : List (List T)} (hB : Built nodes P)
    (c : T) (fuel : Nat) :
    ∀ (w : List T) (s : Int) (node : Node T), walk nodes w = some s →
      getNode nodes s = some node → w.length < fuel →
      ∃ node1 s1 x1, failLoop fuel nodes node c = some node1 ∧
        getNode nodes s1 = some node1 ∧ walk nodes x1 = some s1 ∧
        ((∃ t, mapGet node1.children c = some t ∧ lsuf nodes (w ++ [c]) = x1 ++ [c]) ∨
         (mapGet node1.children c = none ∧ lsuf nodes (w ++ [c]) = [] ∧ s1 = 0)) := by
  induction fuel with
  | zero => intro w s node _ _ h; omega
  | succ fuel ih =>
    intro w s node hw hn hfuel
    have hid := hB.trie.ids s node hn
    have hch := childOf_isSome_eq c hn
    have hwc : walk nodes (w ++ [c]) = mapGet node.children c := by
      rw [walk_concat_of c hw, hch]
    unfold failLoop
    by_cases h0 : node.id = 0
    · simp only [h0, if_true]
      rw [hid] at h0
      subst h0
      have hw0 := walk_eq_root hB.trie hw
      subst hw0
      refine ⟨node, 0, [], rfl, hn, walk_nil nodes, ?_⟩
      cases hc : mapGet node.children c with
      | some t =>
        left
        refine ⟨t, rfl, ?_⟩
        rw [lsuf_of_isSome (by rw [hwc, hc]; rfl)]
      | none =>
        right
        refine ⟨rfl, ?_, rfl⟩
        simp only [List.nil_append] at hwc ⊢
        simp [lsuf, hwc, hc]
    · simp only [h0, if_false]
      cases hc : mapGet node.children c with
      | some t =>
        simp only [Option.isSome_some, if_true]
        refine ⟨node, s, w, rfl, hn, hw, Or.inl ⟨t, hc, ?_⟩⟩
        rw [lsuf_of_isSome (by rw [hwc, hc]; rfl)]
      | none =>
        simp only [Option.isSome_none, Bool.false_eq_true, if_false]
        have hwne : w ≠ [] := by
          intro h
          subst h
          rw [walk_nil] at hw
          cases hw
          exact h0 hid
        have hfa := hB.linked.failOK w s hw w node hw hn
        obtain ⟨f, hf⟩ := hB.trie.node_of_walk hfa
        have hlt := tail_length_lt hwne
        have hle := lsuf_length_le nodes w.tail
        simp only [hf]
        obtain ⟨node1, s1, x1, h1, h2, h3, h4⟩ :=
          ih (lsuf nodes w.tail) node.fail f hfa hf (by omega)
        refine ⟨node1, s1, x1, h1, h2, h3, ?_⟩
        rw [lsuf_step hwne (by rw [hwc, hc])]
        exact h4

/-- The direct transition of `Next`. -/
theorem nextFrom_direct {nodes : List (Node T)} {P : List (List T)} (hB : Built nodes P)
    {w : List T} {s t : Int} {node : Node T} {c : T} (hw : walk nodes w = some s)
    (hn : getNode nodes s = some node) (hc : mapGet node.children c = some t)
    (fuel gas : Nat) (hfuel : nodes.length ≤ fuel) (acc : List Int) :
    nextFrom { nodes := nodes } fuel (gas + 1) node acc c =
      some (acc ++ outs nodes (w ++ [c]), t) ∧ walk nodes (w ++ [c]) = some t := by
  have hwc : walk nodes (w ++ [c]) = some t := by
    rw [walk_concat_of c hw, childOf_isSome_eq c hn, hc]
  obtain ⟨node1, hn1⟩ := hB.trie.node_of_walk hwc
  have hid := hB.trie.ids t node1 hn1
  have hne : w ++ [c] ≠ [] := by simp
  have hd := (hB.trie.depth _ _ hwc).2.2
  refine ⟨?_, hwc⟩
  unfold nextFrom
  simp only [hc, hn1]
  rw [altLoop_spec hB (w ++ [c]).length (w ++ [c]) t node1 _ fuel (le_refl _) hne hwc hn1
    (by omega)]
  rw [outs_eq_tail hne, markAt_of hwc hn1, hid]
  by_cases hm : node1.match_ ≥ 0 <;> simp [hm]

/-- One step of the automaton: from the node with path `w`, the atom `c` leads to the node of
the longest suffix of `w ++ [c]` in the trie, and the matches are the marks along the suffixes
of that word. -/
theorem NextFuel_spec {nodes : List (Node T)} {P : List (List T)} (hB : Built nodes P)
    {w : List T} {s : Int} (hw : walk nodes w = some s) (c : T) (fuel : Nat)
    (hfuel : nodes.length < fuel) (patterns : List (List T)) :
    ∃ t, NextFuel fuel { nodes := nodes } s patterns c = some (outs nodes (w ++ [c]), t) ∧
      walk nodes (lsuf nodes (w ++ [c])) = some t := by
  obtain ⟨node, hn⟩ := hB.trie.node_of_walk hw
  have hd := (hB.trie.depth _ _ hw).2.2
  have h1 : 0 < nodes.length := by omega
  obtain ⟨gas, rfl⟩ : ∃ m, fuel = m + 2 := ⟨fuel - 2, by omega⟩
  unfold NextFuel
  simp only [hn]
  cases hc : mapGet node.children c with
  | some t =>
    obtain ⟨e1, e2⟩ := nextFrom_direct hB hw hn hc (gas + 2) (gas + 1) (by omega) []
    refine ⟨t, by rw [e1]; simp, ?_⟩
    rw [lsuf_of_isSome (by rw [e2]; rfl)]
    exact e2
  | none =>
    obtain ⟨node1, s1, x1, hf1, hf2, hf3, hf4⟩ :=
      failLoop_spec hB c (gas + 2) w s node hw hn (by omega)
    rw [nextFrom]
    simp only [hc, hf1]
    rcases hf4 with ⟨t, ht, hl⟩ | ⟨hnone, hl, h0⟩
    · obtain ⟨e1, e2⟩ := nextFrom_direct hB hf3 hf2 ht (gas + 2) gas (by omega) []
      simp only [ht, Option.isSome_some, if_true]
      refine ⟨t, ?_, by rw [hl]; exact e2⟩
      rw [e1, outs_lsuf nodes (w ++ [c]), hl]
      simp
    · simp only [hnone, Option.isSome_none, Bool.false_eq_true, if_false]
      subst h0
      refine ⟨0, ?_, by rw [hl]; rfl⟩
      rw [outs_lsuf nodes (w ++ [c]), hl, hB.trie.ids 0 node1 hf2]
      rfl

end NextSpec

end aca

namespace aca

/-! ## The matches of a step, in terms of the patterns -/

section Outs

variable {T : Type} [DecidableEq T]

theorem Built.walk_pattern {nodes : List (Node T)} {P : List (List T)} (hB : Built nodes P)
    {p : List T} (hp : p ∈ P) : ∃ v n, walk nodes p = some v ∧ getNode nodes v = some n := by
  have h := (hB.covers p).2 (Or.inl ⟨p, hp, List.prefix_refl _⟩)
  cases hw : walk nodes p with
  | none => rw [hw] at h; cases h
  | some v =>
    obtain ⟨n, hn⟩ := hB.trie.node_of_walk hw
    exact ⟨v, n, rfl, hn⟩

/-- The mark at a path `y` is the last index of the non-empty pattern `y`. -/
theorem mem_markAt_iff {nodes : List (Node T)} {P : List (List T)} (hB : Built nodes P)
    (y : List T) (x : Int) :
    x ∈ markAt nodes y ↔
      (0 ≤ x ∧ P[x.toNat]? = some y ∧ y ≠ [] ∧ ∀ j : Nat, x.toNat < j → P[j]? ≠ some y) := by
  constructor
  · intro h
    cases hw : walk nodes y with
    | none => rw [markAt_none hw] at h; cases h
    | some v =>
      obtain ⟨n, hn⟩ := hB.trie.node_of_walk hw
      rw [markAt_of hw hn] at h
      obtain ⟨hA, hBm⟩ := hB.marks y v n hw hn
      by_cases hm : n.match_ ≥ 0
      · simp only [hm, if_true, List.mem_singleton] at h
        subst h
        rcases hA with hA | ⟨h0, hq, hne, _⟩
        · omega
        · refine ⟨h0, hq, hne, ?_⟩
          intro j hj hpj
          have := hBm j hpj hne
          omega
      · simp [hm] at h
  · intro ⟨h0, hq, hne, hlast⟩
    obtain ⟨v, n, hw, hn⟩ := hB.walk_pattern (List.getElem?_mem hq)
    rw [markAt_of hw hn]
    obtain ⟨hA, hBm⟩ := hB.marks y v n hw hn
    have hle := hBm x.toNat hq hne
    have hm : n.match_ ≥ 0 := by omega
    simp only [hm, if_true, List.mem_singleton]
    rcases hA with hA | ⟨_, hq2, _, _⟩
    · omega
    · by_contra hne2
      have : x.toNat < n.match_.toNat := by omega
      exact hlast _ this hq2

/-- Completeness and soundness of the matches of one step: the marks met along the suffixes
of `u` are the last indices of the non-empty patterns that are suffixes of `u`. -/
theorem mem_outs_iff {nodes : List (Node T)} {P : List (List T)} (hB : Built nodes P)
    (u : List T) (x : Int) :
    x ∈ outs nodes u ↔
      (0 ≤ x ∧ ∃ p, P[x.toNat]? = some p ∧ p ≠ [] ∧ p <:+ u ∧
        ∀ j : Nat, x.toNat < j → P[j]? ≠ some p) := by
  induction u with
  | nil =>
    simp only [outs, List.not_mem_nil, false_iff]
    intro ⟨_, p, _, hne, hs, _⟩
    exact hne (List.suffix_nil.1 hs)
  | cons a u ih =>
    simp only [outs, List.mem_append, mem_markAt_iff hB, ih]
    constructor
    · intro h
      rcases h with ⟨h0, hq, hne, hl⟩ | ⟨h0, p, hq, hne, hs, hl⟩
      · exact ⟨h0, a :: u, hq, hne, List.suffix_refl _, hl⟩
      · exact ⟨h0, p, hq, hne, hs.trans (List.suffix_cons a u), hl⟩
    · intro ⟨h0, p, hq, hne, hs, hl⟩
      rcases List.suffix_cons_iff.1 hs with h | h
      · subst h
        exact Or.inl ⟨h0, hq, hne, hl⟩
      · exact Or.inr ⟨h0, p, hq, hne, h, hl⟩

/-- The marks along the suffixes of `u` come in strictly decreasing pattern length. -/
theorem outs_pairwise {nodes : List (Node T)} {P : List (List T)} (hB : Built nodes P)
    (u : List T) :
    (outs nodes u).Pairwise
      (fun x y => (P.getD y.toNat []).length < (P.getD x.toNat []).length) := by
  induction u with
  | nil => simp [outs]
  | cons a u ih =>
    simp only [outs]
    rw [List.pairwise_append]
    refine ⟨?_, ih, ?_⟩
    · unfold markAt
      split
      · simp
      · split
        · simp
        · split <;> simp
    · intro x hx y hy
      obtain ⟨_, hq, _, _⟩ := (mem_markAt_iff hB _ x).1 hx
      obtain ⟨_, p, hp, _, hs, _⟩ := (mem_outs_iff hB _ y).1 hy
      have e1 : P.getD x.toNat [] = a :: u := by
        rw [List.getD_eq_getElem?_getD, hq]; rfl
      have e2 : P.getD y.toNat [] = p := by
        rw [List.getD_eq_getElem?_getD, hp]; rfl
      rw [e1, e2]
      have := hs.length_le
      simp only [List.length_cons]
      omega

theorem outs_nodup {nodes : List (Node T)} {P : List (List T)} (hB : Built nodes P)
    (u : List T) : (outs nodes u).Nodup := by
  refine (outs_pairwise hB u).imp ?_
  intro x y h e
  subst e
  omega

theorem outs_count {nodes : List (Node T)} {P : List (List T)} (hB : Built nodes P)
    (u : List T) (x : Int) :
    (outs nodes u).count x = if x ∈ outs nodes u then 1 else 0 :=
  List.count_eq_of_nodup (outs_nodup hB u)

/-- One step of a scan: after the input `u` the state is the node of the longest suffix of `u`
in the trie; the next atom `c` yields the marks along the suffixes of `u ++ [c]`. -/
theorem Next_scan {nodes : List (Node T)} {P : List (List T)} (hB : Built nodes P)
    (u : List T) {s : Int} (hs : walk nodes (lsuf nodes u) = some s) (c : T)
    (patterns : List (List T)) :
    ∃ t, Next { nodes := nodes } s patterns c = some (outs nodes (u ++ [c]), t) ∧
      walk nodes (lsuf nodes (u ++ [c])) = some t := by
  obtain ⟨t, h1, h2⟩ := NextFuel_spec hB hs c (nodes.length + 1) (by omega) patterns
  refine ⟨t, ?_, by rw [lsuf_concat]; exact h2⟩
  unfold Next
  simp only
  rw [h1, outs_lsuf nodes (u ++ [c]), lsuf_concat, ← outs_lsuf]

end Outs

end aca

namespace aca

/-! ## The loop of `Counts` -/

section Scans

variable {T : Type} [DecidableEq T]

theorem offsetsAt_nil (P : List (List T)) (i : Int) (k : Nat) : offsetsAt P i [] k = [] := rfl

theorem offsetsAt_append (P : List (List T)) (i : Int) (xs ys : List Int) (k : Nat) :
    offsetsAt P i (xs ++ ys) k = offsetsAt P i xs k ++ offsetsAt P i ys k := by
  unfold offsetsAt
  rw [List.count_append, List.replicate_add]

theorem offsetsAt_singleton (P : List (List T)) (i : Int) (x : Int) (k : Nat) :
    offsetsAt P i [x] k = if x = (k : Int) then [i - (patLen P k - 1)] else [] := by
  unfold offsetsAt
  by_cases h : x = (k : Int)
  · subst h; simp
  · simp [h, List.count_cons]

theorem hitOffsets_cons (nodes : List (Node T)) (P : List (List T)) (k : Nat) (u : List T)
    (c : T) (rest : List T) :
    hitOffsets nodes P k u (c :: rest) =
      offsetsAt P u.length (outs nodes (u ++ [c])) k ++ hitOffsets nodes P k (u ++ [c]) rest := by
  simp [hitOffsets, scanOuts, offsetsFrom]

theorem hitOffsets_nil (nodes : List (Node T)) (P : List (List T)) (k : Nat) (u : List T) :
    hitOffsets nodes P k u [] = [] := rfl

/-- The loop `matches[x]++`. -/
theorem bump_spec (xs : List Int) :
    ∀ (m : List Int), (∀ x, x ∈ xs → 0 ≤ x ∧ x < m.length) →
      ∃ m1, bump xs m = some m1 ∧ m1.length = m.length ∧
        ∀ k : Nat, m1.getD k 0 = m.getD k 0 + (xs.count (k : Int) : Int) := by
  induction xs with
  | nil =>
    intro m _
    exact ⟨m, rfl, rfl, fun k => by simp⟩
  | cons x xs ih =>
    intro m hv
    obtain ⟨h0, h1⟩ := hv x (List.mem_cons_self _ _)
    have hlt : x.toNat < m.length := by omega
    obtain ⟨m1, hb, hl, hg⟩ := ih (m.set x.toNat (m[x.toNat] + 1))
      (fun y hy => by
        rw [List.length_set]
        exact hv y (List.mem_cons_of_mem _ hy))
    refine ⟨m1, ?_, by rw [hl, List.length_set], ?_⟩
    · unfold bump
      simp only [h0, if_true, List.getElem?_eq_getElem hlt]
      exact hb
    · intro k
      rw [hg k, List.count_cons]
      simp only [List.getD_eq_getElem?_getD, List.getElem?_set]
      by_cases hk : x.toNat = k
      · subst hk
        have : x = ((x.toNat : Nat) : Int) := by omega
        simp [hlt, List.getElem?_eq_getElem hlt, ← this]
        omega
      · have : ¬ (x = (k : Int)) := by omega
        simp [hk, this]

/-- The statement `indexes[x] = append(indexes[x], v)`. -/
theorem pushAt_spec (idx : List (List Int)) {x : Int} (v : Int) (h0 : 0 ≤ x)
    (h1 : x < idx.length) :
    ∃ idx1, pushAt idx x v = some idx1 ∧ idx1.length = idx.length ∧
      ∀ k : Nat, idx1.getD k [] = idx.getD k [] ++ (if x = (k : Int) then [v] else []) := by
  have hlt : x.toNat < idx.length := by omega
  refine ⟨idx.set x.toNat (idx[x.toNat] ++ [v]), ?_, by simp, ?_⟩
  · unfold pushAt
    simp [h0, List.getElem?_eq_getElem hlt]
  · intro k
    simp only [List.getD_eq_getElem?_getD, List.getElem?_set]
    by_cases hk : x.toNat = k
    · subst hk
      have : x = ((x.toNat : Nat) : Int) := by omega
      simp [hlt, List.getElem?_eq_getElem hlt, ← this]
    · have : ¬ (x = (k : Int)) := by omega
      simp [hk, this]

theorem outs_valid {nodes : List (Node T)} {P : List (List T)} (hB : Built nodes P)
    (u : List T) {x : Int} (hx : x ∈ outs nodes u) : 0 ≤ x ∧ x < P.length := by
  obtain ⟨h0, p, hq, _⟩ := (mem_outs_iff hB u x).1 hx
  have := (List.getElem?_eq_some.1 hq).1
  omega

/-- The loop of `Counts`. -/
theorem countsLoop_spec {nodes : List (Node T)} {P : List (List T)} (hB : Built nodes P)
    (patterns : List (List T)) (rest : List T) :
    ∀ (u : List T) (s : Int) (m : List Int), walk nodes (lsuf nodes u) = some s →
      m.length = P.length →
      ∃ m1, countsLoop { nodes := nodes } patterns rest s m = some m1 ∧
        m1.length = P.length ∧
        ∀ k : Nat, m1.getD k 0 = m.getD k 0 + ((hitOffsets nodes P k u rest).length : Int) := by
  induction rest with
  | nil =>
    intro u s m _ hm
    exact ⟨m, rfl, hm, fun k => by simp [hitOffsets_nil]⟩
  | cons c rest ih =>
    intro u s m hs hm
    obtain ⟨t, hn, ht⟩ := Next_scan hB u hs c patterns
    obtain ⟨m1, hb, hl1, hg1⟩ := bump_spec (outs nodes (u ++ [c])) m
      (fun x hx => by rw [hm]; exact outs_valid hB _ hx)
    obtain ⟨m2, hc, hl2, hg2⟩ := ih (u ++ [c]) t m1 ht (by rw [hl1, hm])
    refine ⟨m2, ?_, hl2, ?_⟩
    · unfold countsLoop
      simp only [hn, hb]
      exact hc
    · intro k
      rw [hg2 k, hg1 k, hitOffsets_cons]
      simp only [List.length_append, offsetsAt, List.length_replicate]
      push_cast
      omega

/-- The match lists of `Next` driven over an input. -/
theorem nextRuns_spec {nodes : List (Node T)} {P : List (List T)} (hB : Built nodes P)
    (patterns : List (List T)) (rest : List T) :
    ∀ (u : List T) (s : Int), walk nodes (lsuf nodes u) = some s →
      nextRuns { nodes := nodes } patterns rest s = some (scanOuts nodes u rest) := by
  induction rest with
  | nil => intro u s _; rfl
  | cons c rest ih =>
    intro u s hs
    obtain ⟨t, hn, ht⟩ := Next_scan hB u hs c patterns
    unfold nextRuns
    simp only [hn, ih (u ++ [c]) t ht]
    rfl

end Scans

end aca

namespace aca

/-! ## The loop of `Indexes` -/

section IndexesSpec

variable {T : Type} [DecidableEq T]

/-- The fallback loop written out in `Indexes` is the fallback loop of `Next`. -/
theorem indexFailLoop_eq (fuel : Nat) (nodes : List (Node T)) (node : Node T) (c : T) :
    indexFailLoop fuel nodes node c = failLoop fuel nodes node c := by
  induction fuel generalizing node with
  | zero => rfl
  | succ fuel ih =>
    unfold indexFailLoop failLoop
    simp only [ih]

theorem Built.matchLen {nodes : List (Node T)} {P : List (List T)} (hB : Built nodes P)
    {y : List T} {v : Int} {n : Node T} (hw : walk nodes y = some v)
    (hn : getNode nodes v = some n) (hm : n.match_ ≥ 0) :
    n.match_ < P.length ∧ n.matchLen = patLen P n.match_ - 1 := by
  rcases (hB.marks y v n hw hn).1 with h | ⟨_, hq, _, hl⟩
  · omega
  · have := (List.getElem?_eq_some.1 hq).1
    refine ⟨by omega, ?_⟩
    rw [hl]
    unfold patLen
    rw [List.getD_eq_getElem?_getD, hq]
    rfl

/-- The loop over the alternative chain in `Indexes` records the offsets of the marks of the
proper suffixes. -/
theorem altIndexLoop_spec {nodes : List (Node T)} {P : List (List T)} (hB : Built nodes P)
    (i : Int) (k : Nat) :
    ∀ (x : List T) (v : Int) (n : Node T) (idx : List (List Int)) (fuel : Nat),
      x.length ≤ k → x ≠ [] → walk nodes x = some v → getNode nodes v = some n →
      x.length ≤ fuel → idx.length = P.length →
      ∃ idx1, altIndexLoop fuel nodes n.alternative i idx = some idx1 ∧
        idx1.length = P.length ∧
        ∀ j : Nat, idx1.getD j [] = idx.getD j [] ++ offsetsAt P i (outs nodes x.tail) j := by
  induction k with
  | zero =>
    intro x v n idx fuel hk hx
    exact absurd (List.length_eq_zero.1 (by omega)) hx
  | succ k ih =>
    intro x v n idx fuel hk hx hw hn hfuel hidx
    obtain ⟨f, hf, halt⟩ := hB.linked.altOK x v hx hw n hn
    have hfa := hB.linked.failOK x v hw x n hw hn
    have hlt := tail_length_lt hx
    have hle := lsuf_length_le nodes x.tail
    rw [outs_lsuf nodes x.tail]
    have hfuel1 : 0 < fuel := by
      have : x.length ≠ 0 := fun h => hx (List.length_eq_zero.1 h)
      omega
    obtain ⟨fuel1, rfl⟩ : ∃ m, fuel = m + 1 := ⟨fuel - 1, by omega⟩
    by_cases hy : lsuf nodes x.tail = []
    · rw [hy] at hfa ⊢
      rw [walk_nil] at hfa
      have h0 : n.fail = 0 := (Option.some.inj hfa).symm
      rw [h0] at hf
      have hm := hB.root_match hf
      have ha := hB.linked.altRoot f hf
      rw [halt]
      refine ⟨idx, by simp [hm, ha, altIndexLoop], hidx, fun j => by simp [outs, offsetsAt_nil]⟩
    · rw [outs_eq_tail hy, markAt_of hfa hf]
      by_cases hm : f.match_ ≥ 0
      · have hv := hB.trie.depth _ _ hfa
        have hneg : ¬ n.fail < 0 := by omega
        obtain ⟨hml, hmlen⟩ := hB.matchLen hfa hf hm
        obtain ⟨idx1, hp1, hl1, hg1⟩ := pushAt_spec idx (i - f.matchLen) hm
          (by rw [hidx]; exact hml)
        obtain ⟨idx2, h2, hl2, hg2⟩ :=
          ih (lsuf nodes x.tail) n.fail f idx1 fuel1 (by omega) hy hfa hf (by omega)
            (by rw [hl1, hidx])
        rw [halt]
        simp only [hm, if_true]
        refine ⟨idx2, ?_, hl2, ?_⟩
        · unfold altIndexLoop
          simp only [hneg, if_false, hf, hp1]
          exact h2
        · intro j
          rw [hg2 j, hg1 j, offsetsAt_append, offsetsAt_singleton, hmlen]
          by_cases hj : f.match_ = (j : Int)
          · simp [hj]
          · simp [hj]
      · rw [halt]
        simp only [hm, if_false, List.nil_append]
        exact ih (lsuf nodes x.tail) n.fail f idx (fuel1 + 1) (by omega) hy hfa hf (by omega)
          hidx

/-- An iteration of the loop of `Indexes` that takes the direct-child branch. -/
theorem indexesLoop_direct {nodes : List (Node T)} {P : List (List T)} (hB : Built nodes P)
    {w : List T} {s t : Int} {node : Node T} {c : T} (hw : walk nodes w = some s)
    (hn : getNode nodes s = some node) (hc : mapGet node.children c = some t)
    (fuel : Nat) (hfuel : nodes.length ≤ fuel) (input : List T) (i : Int)
    (hi : i < input.length) (h0 : 0 ≤ i) (hci : input[i.toNat]? = some c)
    (idx : List (List Int)) (hidx : idx.length = P.length) :
    ∃ node1 idx2, getNode nodes t = some node1 ∧ walk nodes (w ++ [c]) = some t ∧
      idx2.length = P.length ∧
      (∀ j : Nat, idx2.getD j [] = idx.getD j [] ++ offsetsAt P i (outs nodes (w ++ [c])) j) ∧
      ∀ gas, indexesLoop { nodes := nodes } fuel input (gas + 1) i node idx =
        indexesLoop { nodes := nodes } fuel input gas (i + 1) node1 idx2 := by
  have hwc : walk nodes (w ++ [c]) = some t := by
    rw [walk_concat_of c hw, childOf_isSome_eq c hn, hc]
  obtain ⟨node1, hn1⟩ := hB.trie.node_of_walk hwc
  have hne : w ++ [c] ≠ [] := by simp
  have hd := (hB.trie.depth _ _ hwc).2.2
  have hmark : ∃ idx1, (if node1.match_ ≥ 0 then pushAt idx node1.match_ (i - node1.matchLen)
      else some idx) = some idx1 ∧ idx1.length = P.length ∧
      ∀ j : Nat, idx1.getD j [] = idx.getD j [] ++ offsetsAt P i (markAt nodes (w ++ [c])) j := by
    rw [markAt_of hwc hn1]
    by_cases hm : node1.match_ ≥ 0
    · obtain ⟨hml, hmlen⟩ := hB.matchLen hwc hn1 hm
      obtain ⟨idx1, hp1, hl1, hg1⟩ := pushAt_spec idx (i - node1.matchLen) hm
        (by rw [hidx]; exact hml)
      refine ⟨idx1, by simp only [hm, if_true]; exact hp1, by rw [hl1, hidx], ?_⟩
      intro j
      rw [hg1 j]
      simp only [hm, if_true, offsetsAt_singleton, hmlen]
      by_cases hj : node1.match_ = (j : Int)
      · simp [hj]
      · simp [hj]
    · exact ⟨idx, by simp only [hm, if_false], hidx, fun j => by simp [hm, offsetsAt_nil]⟩
  obtain ⟨idx1, hm1, hl1, hg1⟩ := hmark
  obtain ⟨idx2, h2, hl2, hg2⟩ :=
    altIndexLoop_spec hB i (w ++ [c]).length (w ++ [c]) t node1 idx1 fuel (le_refl _) hne hwc
      hn1 (by omega) hl1
  refine ⟨node1, idx2, hn1, hwc, hl2, ?_, ?_⟩
  · intro j
    rw [hg2 j, hg1 j, outs_eq_tail hne, offsetsAt_append, List.append_assoc]
  · intro gas
    rw [indexesLoop]
    simp only [hi, h0, if_true, hci, hc, hn1, hm1, h2]

/-- The loop of `Indexes`: from position `len(u)` and the state reached on `u`, it records,
for every later position, the start offsets of the marks met there. -/
theorem indexesLoop_spec {nodes : List (Node T)} {P : List (List T)} (hB : Built nodes P)
    (input : List T) (rest : List T) :
    ∀ (u : List T) (s : Int) (node : Node T) (idx : List (List Int)) (gas : Nat),
      input = u ++ rest → walk nodes (lsuf nodes u) = some s → getNode nodes s = some node →
      idx.length = P.length → 2 * rest.length < gas →
      ∃ idx1, indexesLoop { nodes := nodes } (nodes.length + 1) input gas u.length node idx
          = some idx1 ∧
        idx1.length = P.length ∧
        ∀ j : Nat, idx1.getD j [] = idx.getD j [] ++ hitOffsets nodes P j u rest := by
  induction rest with
  | nil =>
    intro u s node idx gas hin _ _ hidx hgas
    obtain ⟨gas1, rfl⟩ : ∃ m, gas = m + 1 := ⟨gas - 1, by omega⟩
    refine ⟨idx, ?_, hidx, fun j => by simp [hitOffsets_nil]⟩
    unfold indexesLoop
    simp [hin]
  | cons c rest ih =>
    intro u s node idx gas hin hs hn hidx hgas
    simp only [List.length_cons] at hgas
    obtain ⟨gas2, rfl⟩ : ∃ m, gas = m + 2 := ⟨gas - 2, by omega⟩
    have hi : (u.length : Int) < input.length := by
      rw [hin]; simp
    have h0 : (0 : Int) ≤ u.length := by omega
    have hci : input[(u.length : Int).toNat]? = some c := by
      rw [hin, Int.toNat_ofNat, List.getElem?_append_right (le_refl _)]
      simp
    have hin' : input = (u ++ [c]) ++ rest := by rw [hin]; simp
    have houts : ∀ x, lsuf nodes (u ++ [c]) = x → outs nodes (u ++ [c]) = outs nodes x := by
      intro x hx
      rw [outs_lsuf nodes (u ++ [c]), hx]
    have hlc := lsuf_concat nodes u c
    cases hc : mapGet node.children c with
    | some t =>
      obtain ⟨node1, idx2, hn1, hwc, hl2, hg2, hstep⟩ :=
        indexesLoop_direct hB hs hn hc (nodes.length + 1) (by omega) input u.length hi h0 hci
          idx hidx
      have hl : lsuf nodes (u ++ [c]) = lsuf nodes u ++ [c] := by
        rw [hlc, lsuf_of_isSome (by rw [hwc]; rfl)]
      obtain ⟨idx3, h3, hl3, hg3⟩ := ih (u ++ [c]) t node1 idx2 (gas2 + 1) hin'
        (by rw [hl]; exact hwc) hn1 hl2 (by omega)
      refine ⟨idx3, ?_, hl3, ?_⟩
      · rw [hstep]
        simpa using h3
      · intro j
        rw [hg3 j, hg2 j, hitOffsets_cons, houts _ hl, List.append_assoc]
    | none =>
      obtain ⟨node1, s1, x1, hf1, hf2, hf3, hf4⟩ :=
        failLoop_spec hB c (nodes.length + 1) (lsuf nodes u) s node hs hn
          (by have := (hB.trie.depth _ _ hs).2.2; omega)
      rcases hf4 with ⟨t, ht, hl⟩ | ⟨hnone, hl, h00⟩
      · obtain ⟨node2, idx2, hn2, hwc, hl2, hg2, hstep⟩ :=
          indexesLoop_direct hB hf3 hf2 ht (nodes.length + 1) (by omega) input u.length hi h0
            hci idx hidx
        have hl' : lsuf nodes (u ++ [c]) = x1 ++ [c] := by rw [hlc, hl]
        obtain ⟨idx3, h3, hl3, hg3⟩ := ih (u ++ [c]) t node2 idx2 gas2 hin'
          (by rw [hl']; exact hwc) hn2 hl2 (by omega)
        refine ⟨idx3, ?_, hl3, ?_⟩
        · rw [indexesLoop]
          simp only [hi, h0, if_true, hci, hc, indexFailLoop_eq, hf1, ht, Option.isSome_some,
            Int.sub_add_cancel]
          rw [hstep]
          simpa using h3
        · intro j
          rw [hg3 j, hg2 j, hitOffsets_cons, houts _ hl', List.append_assoc]
      · have hl' : lsuf nodes (u ++ [c]) = [] := by rw [hlc, hl]
        subst h00
        obtain ⟨idx3, h3, hl3, hg3⟩ := ih (u ++ [c]) 0 node1 idx (gas2 + 1) hin'
          (by rw [hl']; rfl) hf2 hidx (by omega)
        refine ⟨idx3, ?_, hl3, ?_⟩
        · rw [indexesLoop]
          simp only [hi, h0, if_true, hci, hc, indexFailLoop_eq, hf1, hnone,
            Option.isSome_none, Bool.false_eq_true, if_false]
          simpa using h3
        · intro j
          rw [hg3 j, hitOffsets_cons, houts _ hl']
          simp [outs, offsetsAt_nil]

end IndexesSpec

end aca

namespace aca

/-! ## Occurrences by naive scanning -/

section Occurrences

variable {T : Type} [DecidableEq T]

/-- An occurrence at offset `j` is a suffix of the input cut at `j + len(p)`. -/
theorem occursAt_iff_suffix (p S : List T) (j : Nat) :
    occursAt p S j ↔ (j + p.length ≤ S.length ∧ p <:+ S.take (j + p.length)) := by
  unfold occursAt
  constructor
  · intro ⟨h1, h2⟩
    refine ⟨h1, ?_⟩
    rw [List.take_add, h2]
    exact List.suffix_append _ _
  · intro ⟨h1, t, ht⟩
    refine ⟨h1, ?_⟩
    rw [List.take_add] at ht
    have hl : ((S.drop j).take p.length).length = p.length := by
      rw [List.length_take, List.length_drop]; omega
    exact ((List.append_inj' ht hl.symm).2).symm

theorem suffix_take_iff {p S : List T} {i : Nat} (hi : i < S.length) :
    p <:+ S.take (i + 1) ↔ (p.length ≤ i + 1 ∧ occursAt p S (i + 1 - p.length)) := by
  constructor
  · intro h
    have hl := h.length_le
    rw [List.length_take] at hl
    have h1 : p.length ≤ i + 1 := by omega
    refine ⟨h1, (occursAt_iff_suffix p S _).2 ⟨by omega, ?_⟩⟩
    rw [Nat.sub_add_cancel h1]
    exact h
  · intro ⟨h1, h2⟩
    have := ((occursAt_iff_suffix p S _).1 h2).2
    rw [Nat.sub_add_cancel h1] at this
    exact this

/-- The end positions of `p` in `S`, shifted to start offsets, are the occurrences found by
naive scanning. -/
theorem ends_eq_occurrences {p : List T} (hp : p ≠ []) (S : List T) :
    ((List.range S.length).filter (fun i => decide (p <:+ S.take (i + 1)))).map
        (fun i => ((i : Nat) : Int) - ((p.length : Int) - 1)) =
      (occurrences p S).map (fun j => ((j : Nat) : Int)) := by
  have hL : 0 < p.length := List.length_pos.2 hp
  apply List.eq_of_perm_of_sorted (r := (· < ·))
  · rw [List.perm_ext_iff_of_nodup]
    · intro o
      simp only [List.mem_map, List.mem_filter, List.mem_range, decide_eq_true_eq, occurrences]
      constructor
      · intro ⟨i, ⟨hi, hs⟩, ho⟩
        obtain ⟨h1, h2⟩ := (suffix_take_iff hi).1 hs
        exact ⟨i + 1 - p.length, ⟨by omega, h2⟩, by omega⟩
      · intro ⟨j, ⟨hj, hs⟩, ho⟩
        obtain ⟨h1, h2⟩ := (occursAt_iff_suffix p S j).1 hs
        refine ⟨j + p.length - 1, ⟨by omega, ?_⟩, by omega⟩
        have : j + p.length - 1 + 1 = j + p.length := by omega
        rw [this]
        exact h2
    · refine List.Nodup.map_on ?_ ((List.nodup_range _).filter _)
      intro x _ y _ h
      omega
    · refine List.Nodup.map_on ?_ ((List.nodup_range _).filter _)
      intro x _ y _ h
      omega
  · refine List.Pairwise.map _ ?_ ((List.pairwise_lt_range _).filter _)
    intro a b h
    omega
  · refine List.Pairwise.map _ ?_ ((List.pairwise_lt_range _).filter _)
    intro a b h
    omega

theorem occurrences_sorted (p S : List T) :
    ((occurrences p S).map (fun j => ((j : Nat) : Int))).Sorted (· < ·) := by
  refine List.Pairwise.map _ ?_ ((List.pairwise_lt_range _).filter _)
  intro a b h
  omega

theorem mem_occurrences (p S : List T) (o : Int) :
    o ∈ (occurrences p S).map (fun j => ((j : Nat) : Int)) ↔ (0 ≤ o ∧ occursAt p S o.toNat) := by
  simp only [List.mem_map, occurrences, List.mem_filter, List.mem_range, decide_eq_true_eq]
  constructor
  · intro ⟨j, ⟨_, hs⟩, ho⟩
    subst ho
    exact ⟨by omega, by simpa using hs⟩
  · intro ⟨h0, hs⟩
    refine ⟨o.toNat, ⟨?_, hs⟩, by omega⟩
    have := hs.1
    omega

/-- Closed form of the offsets recorded for `k` over a scan. -/
theorem hitOffsets_eq {nodes : List (Node T)} {P : List (List T)} (hB : Built nodes P)
    (k : Nat) (rest : List T) :
    ∀ u : List T, hitOffsets nodes P k u rest =
      ((List.range rest.length).filter
          (fun i => decide ((k : Int) ∈ outs nodes (u ++ rest.take (i + 1))))).map
        (fun i => ((u.length + i : Nat) : Int) - (patLen P k - 1)) := by
  induction rest with
  | nil => intro u; rfl
  | cons c rest ih =>
    intro u
    rw [hitOffsets_cons, ih (u ++ [c]), List.length_cons, List.range_succ_eq_map,
      List.filter_cons, List.filter_map]
    have e1 : offsetsAt P u.length (outs nodes (u ++ [c])) k =
        if (k : Int) ∈ outs nodes (u ++ [c]) then [((u.length : Nat) : Int) - (patLen P k - 1)]
        else [] := by
      unfold offsetsAt
      rw [outs_count hB]
      by_cases h : (k : Int) ∈ outs nodes (u ++ [c]) <;> simp [h]
    have e0 : u ++ List.take (0 + 1) (c :: rest) = u ++ [c] := by simp
    have e2 : (fun i => decide ((k : Int) ∈ outs nodes (u ++ List.take (i + 1) (c :: rest))))
        ∘ Nat.succ = fun i => decide ((k : Int) ∈ outs nodes (u ++ [c] ++ List.take (i + 1) rest)) := by
      funext i
      simp
    have e3 : (fun i => ((u.length + i : Nat) : Int) - (patLen P k - 1)) ∘ Nat.succ =
        fun i => (((u ++ [c]).length + i : Nat) : Int) - (patLen P k - 1) := by
      funext i
      simp only [Function.comp, List.length_append, List.length_singleton]
      push_cast
      omega
    rw [e1, e0, e2]
    by_cases h : (k : Int) ∈ outs nodes (u ++ [c])
    · simp only [h, if_true, decide_True, List.map_cons, List.map_map, e3, Nat.add_zero,
        List.singleton_append]
    · simp only [h, if_false, decide_False, List.map_map, e3, List.nil_append,
        Bool.false_eq_true]

/-- The offsets recorded for the index `k` over a whole input: the occurrences of `P[k]`
when `P[k]` is non-empty and `k` is the last index holding it, nothing otherwise. -/
theorem hitOffsets_occurrences {nodes : List (Node T)} {P : List (List T)} (hB : Built nodes P)
    (k : Nat) (p : List T) (hk : P[k]? = some p) (S : List T) :
    hitOffsets nodes P k [] S =
      if p ≠ [] ∧ lastIndex P k then
        (occurrences p S).map (fun j => ((j : Nat) : Int))
      else [] := by
  rw [hitOffsets_eq hB]
  have hlast : lastIndex P k ↔ ∀ j : Nat, k < j → P[j]? ≠ some p := by
    unfold lastIndex
    rw [hk]
    constructor
    · intro h j hj
      by_cases hjl : j < P.length
      · exact h j hjl hj
      · rw [List.getElem?_eq_none (by omega)]
        simp
    · intro h j _ hj
      exact h j hj
  have hpl : patLen P k = p.length := by
    unfold patLen
    rw [List.getD_eq_getElem?_getD, Int.toNat_ofNat, hk]; rfl
  have hmem : ∀ x : List T, (k : Int) ∈ outs nodes x ↔
      (p ≠ [] ∧ (∀ j : Nat, k < j → P[j]? ≠ some p) ∧ p <:+ x) := by
    intro x
    rw [mem_outs_iff hB]
    constructor
    · intro ⟨_, q, hq, hne, hs, hl⟩
      rw [Int.toNat_ofNat, hk] at hq
      cases hq
      exact ⟨hne, by simpa using hl, hs⟩
    · intro ⟨hne, hl, hs⟩
      exact ⟨by omega, p, by simpa using hk, hne, hs, by simpa using hl⟩
  by_cases hc : p ≠ [] ∧ lastIndex P k
  · rw [if_pos hc, ← ends_eq_occurrences hc.1, hpl]
    have hc2 := hlast.1 hc.2
    congr 1
    · funext i
      simp
    · apply List.filter_congr
      intro i _
      simp only [List.nil_append]
      rw [decide_eq_decide, hmem]
      exact ⟨fun h => h.2.2, fun h => ⟨hc.1, hc2, h⟩⟩
  · rw [if_neg hc]
    have : ∀ i, (k : Int) ∉ outs nodes (S.take (i + 1)) := by
      intro i
      rw [hmem]
      intro ⟨h1, h2, _⟩
      exact hc ⟨h1, hlast.2 h2⟩
    simp [this]

end Occurrences

end aca

namespace aca

/-! ## `Counts` and `Indexes` on a built automaton -/

section Summary

variable {T : Type} [DecidableEq T]

theorem lsuf_nil_walk (nodes : List (Node T)) : walk nodes (lsuf nodes []) = some 0 := rfl

/-- `Counts` on a built automaton. -/
theorem Counts_spec {nodes : List (Node T)} {P : List (List T)} (hB : Built nodes P)
    (S : List T) :
    ∃ m, Counts { nodes := nodes } P S = some m ∧ m.length = P.length ∧
      ∀ k : Nat, k < P.length → m[k]? = some ((hitOffsets nodes P k [] S).length : Int) := by
  obtain ⟨m, h1, h2, h3⟩ := countsLoop_spec hB P S [] 0 (List.replicate P.length 0)
    (lsuf_nil_walk nodes) (by simp)
  refine ⟨m, h1, h2, ?_⟩
  intro k hk
  have := h3 k
  rw [List.getD_eq_getElem?_getD, List.getD_eq_getElem?_getD,
    List.getElem?_eq_getElem (by rw [h2]; exact hk),
    List.getElem?_eq_getElem (by simpa using hk)] at this
  rw [List.getElem?_eq_getElem (by rw [h2]; exact hk)]
  simp only [Option.getD_some, List.getElem_replicate, zero_add] at this
  rw [this]

/-- `Indexes` on a built automaton. -/
theorem Indexes_spec {nodes : List (Node T)} {P : List (List T)} (hB : Built nodes P)
    (S : List T) :
    ∃ idx, Indexes { nodes := nodes } P S = some idx ∧ idx.length = P.length ∧
      ∀ k : Nat, k < P.length → idx[k]? = some (hitOffsets nodes P k [] S) := by
  obtain ⟨root, hroot⟩ := hB.trie.hasRoot
  obtain ⟨idx, h1, h2, h3⟩ := indexesLoop_spec hB S S [] 0 root
    (List.replicate P.length []) (2 * S.length + 1) rfl (lsuf_nil_walk nodes) hroot (by simp)
    (by omega)
  refine ⟨idx, ?_, h2, ?_⟩
  · unfold Indexes
    simp only [hroot]
    exact h1
  · intro k hk
    have := h3 k
    rw [List.getD_eq_getElem?_getD, List.getD_eq_getElem?_getD,
      List.getElem?_eq_getElem (by rw [h2]; exact hk),
      List.getElem?_eq_getElem (by simpa using hk)] at this
    rw [List.getElem?_eq_getElem (by rw [h2]; exact hk)]
    simp only [Option.getD_some, List.getElem_replicate, List.nil_append] at this
    rw [this]

theorem scanOuts_length (nodes : List (Node T)) (rest : List T) :
    ∀ u, (scanOuts nodes u rest).length = rest.length := by
  induction rest with
  | nil => intro u; rfl
  | cons c rest ih => intro u; simp [scanOuts, ih]

theorem scanOuts_getElem? (nodes : List (Node T)) (rest : List T) :
    ∀ (u : List T) (i : Nat) (xs : List Int), (scanOuts nodes u rest)[i]? = some xs →
      xs = outs nodes (u ++ rest.take (i + 1)) := by
  induction rest with
  | nil => intro u i xs h; simp [scanOuts] at h
  | cons c rest ih =>
    intro u i xs h
    cases i with
    | zero =>
      simp only [scanOuts, List.getElem?_cons_zero, Option.some.injEq] at h
      rw [← h]; simp
    | succ i =>
      simp only [scanOuts, List.getElem?_cons_succ] at h
      rw [ih (u ++ [c]) i xs h]
      simp

theorem lastIndex_of_nodup {P : List (List T)} (hd : P.Nodup) {k : Nat} (hk : k < P.length) :
    lastIndex P k := by
  intro j hj hkj h
  rw [List.getElem?_eq_getElem hj, List.getElem?_eq_getElem hk] at h
  have := (List.Nodup.getElem_inj_iff hd).1 (Option.some.inj h)
  omega

theorem lastIndex_iff {P : List (List T)} {k : Nat} {p : List T} (hk : P[k]? = some p) :
    lastIndex P k ↔ ∀ j : Nat, k < j → P[j]? ≠ some p := by
  unfold lastIndex
  rw [hk]
  constructor
  · intro h j hj
    by_cases hjl : j < P.length
    · exact h j hjl hj
    · rw [List.getElem?_eq_none (by omega)]
      simp
  · intro h j _ hj
    exact h j hj

/-- The matches of a step from any valid state, as marks along suffixes. -/
theorem Next_valid_state {nodes : List (Node T)} {P : List (List T)} (hB : Built nodes P)
    {s : Int} (h0 : 0 ≤ s) (h1 : s < nodes.length) (c : T) (patterns : List (List T)) :
    ∃ w t, walk nodes w = some s ∧
      Next { nodes := nodes } s patterns c = some (outs nodes (w ++ [c]), t) ∧
      walk nodes (lsuf nodes (w ++ [c])) = some t := by
  obtain ⟨n, hn⟩ := getNode_of_valid h0 h1
  obtain ⟨w, hw⟩ := hB.trie.reach s n hn
  obtain ⟨t, ht, hwt⟩ := NextFuel_spec hB hw c (nodes.length + 1) (by omega) patterns
  exact ⟨w, t, hw, ht, hwt⟩

end Summary

end aca

namespace aca

/-! ## The structured step of the specification -/

section Refinement

variable {T : Type} [DecidableEq T]

/-- The alternative chain of the specification yields the marks of the proper suffixes. -/
theorem altMatches_spec {nodes : List (Node T)} {P : List (List T)} (hB : Built nodes P)
    (k : Nat) :
    ∀ (x : List T) (v : Int) (n : Node T) (fuel : Nat),
      x.length ≤ k → x ≠ [] → walk nodes x = some v → getNode nodes v = some n →
      x.length ≤ fuel →
      altMatches nodes fuel n.alternative = some (outs nodes x.tail) := by
  induction k with
  | zero =>
    intro x v n fuel hk hx
    exact absurd (List.length_eq_zero.1 (by omega)) hx
  | succ k ih =>
    intro x v n fuel hk hx hw hn hfuel
    obtain ⟨f, hf, halt⟩ := hB.linked.altOK x v hx hw n hn
    have hfa := hB.linked.failOK x v hw x n hw hn
    have hlt := tail_length_lt hx
    have hle := lsuf_length_le nodes x.tail
    rw [outs_lsuf nodes x.tail]
    have hfuel1 : 0 < fuel := by
      have : x.length ≠ 0 := fun h => hx (List.length_eq_zero.1 h)
      omega
    obtain ⟨fuel1, rfl⟩ : ∃ m, fuel = m + 1 := ⟨fuel - 1, by omega⟩
    by_cases hy : lsuf nodes x.tail = []
    · rw [hy] at hfa ⊢
      rw [walk_nil] at hfa
      have h0 : n.fail = 0 := (Option.some.inj hfa).symm
      rw [h0] at hf
      have hm := hB.root_match hf
      have ha := hB.linked.altRoot f hf
      rw [halt]
      simp [hm, ha, altMatches, outs]
    · rw [outs_eq_tail hy, markAt_of hfa hf]
      by_cases hm : f.match_ ≥ 0
      · have hv := hB.trie.depth _ _ hfa
        have hneg : ¬ n.fail = -1 := by omega
        rw [halt]
        simp only [hm, if_true]
        unfold altMatches
        simp only [hneg, if_false, hf]
        rw [ih (lsuf nodes x.tail) n.fail f fuel1 (by omega) hy hfa hf (by omega)]
        simp
      · rw [halt]
        simp only [hm, if_false, List.nil_append]
        exact ih (lsuf nodes x.tail) n.fail f (fuel1 + 1) (by omega) hy hfa hf (by omega)

/-- The fallback sequence of the specification ends on the node found by the fallback loop
of `Next`. -/
theorem firstWithChild_spec {nodes : List (Node T)} {P : List (List T)} (hB : Built nodes P)
    (c : T) (fuel : Nat) :
    ∀ (w : List T) (s : Int), walk nodes w = some s → w.length < fuel →
      (∃ v x t, firstWithChild nodes fuel s c = some (some v) ∧ walk nodes x = some v ∧
          childOf nodes v c = some t ∧ lsuf nodes (w ++ [c]) = x ++ [c]) ∨
      (firstWithChild nodes fuel s c = some none ∧ lsuf nodes (w ++ [c]) = []) := by
  induction fuel with
  | zero => intro w s _ h; omega
  | succ fuel ih =>
    intro w s hw hfuel
    obtain ⟨node, hn⟩ := hB.trie.node_of_walk hw
    have hch := childOf_isSome_eq c hn
    have hwc : walk nodes (w ++ [c]) = mapGet node.children c := by
      rw [walk_concat_of c hw, hch]
    unfold firstWithChild
    simp only [hn]
    cases hc : mapGet node.children c with
    | some t =>
      left
      refine ⟨s, w, t, by simp, hw, by rw [hch, hc], ?_⟩
      rw [lsuf_of_isSome (by rw [hwc, hc]; rfl)]
    | none =>
      simp only [Option.isSome_none, Bool.false_eq_true, if_false]
      by_cases h0 : s = 0
      · right
        subst h0
        have hw0 := walk_eq_root hB.trie hw
        subst hw0
        refine ⟨by simp, ?_⟩
        simp only [List.nil_append] at hwc ⊢
        simp [lsuf, hwc, hc]
      · simp only [h0, if_false]
        have hwne : w ≠ [] := by
          intro h
          subst h
          rw [walk_nil] at hw
          exact h0 (Option.some.inj hw).symm
        have hfa := hB.linked.failOK w s hw w node hw hn
        have hlt := tail_length_lt hwne
        have hle := lsuf_length_le nodes w.tail
        rw [lsuf_step hwne (by rw [hwc, hc])]
        exact ih (lsuf nodes w.tail) node.fail hfa (by omega)

/-- The structured step of the specification computes the marks along the suffixes and the
node of the longest suffix. -/
theorem nextSpec_spec {nodes : List (Node T)} {P : List (List T)} (hB : Built nodes P)
    {w : List T} {s : Int} (hw : walk nodes w = some s) (c : T) :
    ∃ t, nextSpec nodes s c = some (outs nodes (w ++ [c]), t) ∧
      walk nodes (lsuf nodes (w ++ [c])) = some t := by
  have hd := (hB.trie.depth _ _ hw).2.2
  unfold nextSpec
  rcases firstWithChild_spec hB c (nodes.length + 1) w s hw (by omega) with
    ⟨v, x, t, h1, h2, h3, h4⟩ | ⟨h1, h4⟩
  · have hwc : walk nodes (x ++ [c]) = some t := by rw [walk_concat_of c h2]; exact h3
    obtain ⟨n, hn⟩ := hB.trie.node_of_walk hwc
    have hne : x ++ [c] ≠ [] := by simp
    have hdx := (hB.trie.depth _ _ hwc).2.2
    have ha := altMatches_spec hB (x ++ [c]).length (x ++ [c]) t n (nodes.length + 1)
      (le_refl _) hne hwc hn (by omega)
    simp only [h1, h3, hn, ha]
    refine ⟨t, ?_, by rw [h4]; exact hwc⟩
    rw [outs_lsuf nodes (w ++ [c]), h4, outs_eq_tail hne, markAt_of hwc hn]
  · simp only [h1]
    refine ⟨0, ?_, by rw [h4]; rfl⟩
    rw [outs_lsuf nodes (w ++ [c]), h4]
    rfl

end Refinement

end aca

namespace aca

/-! ## The claims -/

section Claims

variable {T : Type} [DecidableEq T]

/-- C1: for pairwise distinct, non-empty patterns `P` and any input `S`, `New(P)` succeeds,
`Counts(P, S)` has length `len(P)` and its entry `k` is the number of start offsets `j` with
`j + len(P[k]) <= len(S)` and `S[j .. j+len(P[k])) == P[k]`, overlapping occurrences counted
separately; this holds for every enumeration order of the maps. -/
theorem Counts_eq_naiveCount [Inhabited T] (o : MapOrder T) (P : List (List T)) (S : List T)
    (hd : P.Nodup) (hne : ∀ p, p ∈ P → p ≠ []) :
    ∃ a m, New o P = some a ∧ Counts a P S = some m ∧ m.length = P.length ∧
      ∀ (k : Nat) (p : List T), P[k]? = some p → m[k]? = some ((naiveCount p S : Nat) : Int) := by
  obtain ⟨⟨nodes⟩, ha, hB⟩ := New_spec o P
  obtain ⟨m, hm, hl, hg⟩ := Counts_spec hB S
  refine ⟨_, m, ha, hm, hl, ?_⟩
  intro k p hk
  have hkl := (List.getElem?_eq_some.1 hk).1
  rw [hg k hkl, hitOffsets_occurrences hB k p hk S,
    if_pos ⟨hne p (List.getElem?_mem hk), lastIndex_of_nodup hd hkl⟩]
  simp [naiveCount]

/-- C1 at the input of `TestWithStrings`: the counts are `[1, 1, 1, 2, 2, 3]`. -/
theorem Counts_eq_naiveCount_witness :
    testPatterns.Nodup ∧ (∀ p, p ∈ testPatterns → p ≠ []) ∧
    (New (MapOrder.insertion Nat) testPatterns).bind
        (fun a => Counts a testPatterns testInput) = some [1, 1, 1, 2, 2, 3] ∧
    ∃ a m, New (MapOrder.insertion Nat) testPatterns = some a ∧
      Counts a testPatterns testInput = some m ∧ m.length = testPatterns.length ∧
      ∀ (k : Nat) (p : List Nat), testPatterns[k]? = some p →
        m[k]? = some ((naiveCount p testInput : Nat) : Int) :=
  ⟨by decide, by decide, by decide,
    Counts_eq_naiveCount (MapOrder.insertion Nat) testPatterns testInput (by decide)
      (by decide)⟩

/-- C2: for pairwise distinct, non-empty patterns `P` and any input `S`, `Indexes(P, S)` has
length `len(P)` and its entry `k` is the strictly increasing list of all start offsets at which
`P[k]` occurs in `S`: no occurrence is missed and none is reported twice. -/
theorem Indexes_eq_occurrences [Inhabited T] (o : MapOrder T) (P : List (List T))
    (S : List T) (hd : P.Nodup) (hne : ∀ p, p ∈ P → p ≠ []) :
    ∃ a idx, New o P = some a ∧ Indexes a P S = some idx ∧ idx.length = P.length ∧
      ∀ (k : Nat) (p : List T), P[k]? = some p →
        ∃ l, idx[k]? = some l ∧ l = (occurrences p S).map (fun j => ((j : Nat) : Int)) ∧
          l.Sorted (· < ·) ∧ ∀ off : Int, off ∈ l ↔ (0 ≤ off ∧ occursAt p S off.toNat) := by
  obtain ⟨⟨nodes⟩, ha, hB⟩ := New_spec o P
  obtain ⟨idx, hi, hl, hg⟩ := Indexes_spec hB S
  refine ⟨_, idx, ha, hi, hl, ?_⟩
  intro k p hk
  have hkl := (List.getElem?_eq_some.1 hk).1
  refine ⟨_, hg k hkl, ?_, ?_, ?_⟩
  · rw [hitOffsets_occurrences hB k p hk S,
      if_pos ⟨hne p (List.getElem?_mem hk), lastIndex_of_nodup hd hkl⟩]
  · rw [hitOffsets_occurrences hB k p hk S,
      if_pos ⟨hne p (List.getElem?_mem hk), lastIndex_of_nodup hd hkl⟩]
    exact occurrences_sorted p S
  · intro off
    rw [hitOffsets_occurrences hB k p hk S,
      if_pos ⟨hne p (List.getElem?_mem hk), lastIndex_of_nodup hd hkl⟩]
    exact mem_occurrences p S off

/-- C2 at the input of `TestIndexes`: the pattern `"o"` is found at the offsets 1, 2, 7, 8. -/
theorem Indexes_eq_occurrences_witness :
    testPatternO.Nodup ∧ (∀ p, p ∈ testPatternO → p ≠ []) ∧
    (New (MapOrder.insertion Nat) testPatternO).bind
        (fun a => Indexes a testPatternO testInput) = some [[1, 2, 7, 8]] ∧
    ∃ a idx, New (MapOrder.insertion Nat) testPatternO = some a ∧
      Indexes a testPatternO testInput = some idx ∧ idx.length = testPatternO.length ∧
      ∀ (k : Nat) (p : List Nat), testPatternO[k]? = some p →
        ∃ l, idx[k]? = some l ∧
          l = (occurrences p testInput).map (fun j => ((j : Nat) : Int)) ∧
          l.Sorted (· < ·) ∧
          ∀ off : Int, off ∈ l ↔ (0 ≤ off ∧ occursAt p testInput off.toNat) :=
  ⟨by decide, by decide, by decide,
    Indexes_eq_occurrences (MapOrder.insertion Nat) testPatternO testInput (by decide)
      (by decide)⟩

/-- C3: for every pattern list `P` (duplicates and empty patterns allowed) and input `S`,
every offset `off` in `Indexes(P, S)[k]` satisfies `0 <= off`, `off + len(P[k]) <= len(S)` and
`S[off .. off+len(P[k])) == P[k]`. -/
theorem Indexes_sound [Inhabited T] (o : MapOrder T) (P : List (List T)) (S : List T) :
    ∃ a idx, New o P = some a ∧ Indexes a P S = some idx ∧
      ∀ (k : Nat) (p : List T) (l : List Int) (off : Int), P[k]? = some p →
        idx[k]? = some l → off ∈ l →
        0 ≤ off ∧ off + p.length ≤ S.length ∧ (S.drop off.toNat).take p.length = p := by
  obtain ⟨⟨nodes⟩, ha, hB⟩ := New_spec o P
  obtain ⟨idx, hi, hl, hg⟩ := Indexes_spec hB S
  refine ⟨_, idx, ha, hi, ?_⟩
  intro k p l off hk hkl hoff
  have hlt := (List.getElem?_eq_some.1 hk).1
  rw [hg k hlt] at hkl
  cases hkl
  rw [hitOffsets_occurrences hB k p hk S] at hoff
  split at hoff
  · obtain ⟨h0, h1, h2⟩ := (mem_occurrences p S off).1 hoff
    exact ⟨h0, by omega, h2⟩
  · cases hoff

/-- C4: `Indexes` agrees with driving `Next` from state 0 over the input: entry `k` of
`Indexes(P, S)` is the list, in increasing `i`, of `i - (len(P[k]) - 1)` for each occurrence of
`k` in the matches of the `i`-th call; its length is `Counts(P, S)[k]`. The decrement of the
scan position in the fallback branch of `Indexes` does not make it diverge. -/
theorem Indexes_eq_nextRuns [Inhabited T] (o : MapOrder T) (P : List (List T)) (S : List T) :
    ∃ a idx runs m, New o P = some a ∧ Indexes a P S = some idx ∧
      nextRuns a P S 0 = some runs ∧ Counts a P S = some m ∧
      idx.length = P.length ∧ m.length = P.length ∧ runs.length = S.length ∧
      ∀ k : Nat, k < P.length →
        idx[k]? = some (offsetsFrom P k 0 runs) ∧
        m[k]? = some (((offsetsFrom P k 0 runs).length : Nat) : Int) := by
  obtain ⟨⟨nodes⟩, ha, hB⟩ := New_spec o P
  obtain ⟨idx, hi, hl, hg⟩ := Indexes_spec hB S
  obtain ⟨m, hm, hml, hmg⟩ := Counts_spec hB S
  have hr := nextRuns_spec hB P S [] 0 (lsuf_nil_walk nodes)
  refine ⟨_, idx, _, m, ha, hi, hr, hm, hl, hml, scanOuts_length nodes S [], ?_⟩
  intro k hk
  exact ⟨hg k hk, hmg k hk⟩

/-- C5: for pairwise distinct, non-empty patterns, the matches returned by the `i`-th call of
`Next` (state threaded from 0 over the input) are valid pattern indices and contain `k` exactly
when `P[k]` is a suffix of `S[0..i]`; so a pattern and its proper suffix pattern ending at the
same position are both reported there. -/
theorem Next_suffix_complete [Inhabited T] (o : MapOrder T) (P : List (List T)) (S : List T)
    (hd : P.Nodup) (hne : ∀ p, p ∈ P → p ≠ []) :
    ∃ a runs, New o P = some a ∧ nextRuns a P S 0 = some runs ∧ runs.length = S.length ∧
      ∀ (i : Nat) (xs : List Int), runs[i]? = some xs →
        (∀ x, x ∈ xs → 0 ≤ x ∧ x < P.length) ∧
        (∀ (k : Nat) (p : List T), P[k]? = some p → ((k : Int) ∈ xs ↔ p <:+ S.take (i + 1))) ∧
        (∀ (k1 k2 : Nat) (p1 p2 : List T), P[k1]? = some p1 → P[k2]? = some p2 →
          p1 <:+ p2 → p2 <:+ S.take (i + 1) → (k1 : Int) ∈ xs ∧ (k2 : Int) ∈ xs) := by
  obtain ⟨⟨nodes⟩, ha, hB⟩ := New_spec o P
  have hr := nextRuns_spec hB P S [] 0 (lsuf_nil_walk nodes)
  refine ⟨_, _, ha, hr, scanOuts_length nodes S [], ?_⟩
  intro i xs hxs
  have hx := scanOuts_getElem? nodes S [] i xs hxs
  simp only [List.nil_append] at hx
  subst hx
  have key : ∀ (k : Nat) (p : List T), P[k]? = some p →
      ((k : Int) ∈ outs nodes (S.take (i + 1)) ↔ p <:+ S.take (i + 1)) := by
    intro k p hk
    have hkl := (List.getElem?_eq_some.1 hk).1
    rw [mem_outs_iff hB]
    constructor
    · intro ⟨_, q, hq, _, hs, _⟩
      rw [Int.toNat_ofNat, hk] at hq
      cases hq
      exact hs
    · intro hs
      exact ⟨by omega, p, by simpa using hk, hne p (List.getElem?_mem hk), hs,
        by simpa using (lastIndex_iff hk).1 (lastIndex_of_nodup hd hkl)⟩
  refine ⟨fun x hx => outs_valid hB _ hx, key, ?_⟩
  intro k1 k2 p1 p2 h1 h2 h12 hs
  exact ⟨(key k1 p1 h1).2 (h12.trans hs), (key k2 p2 h2).2 hs⟩

/-- C5 at the input of `TestWithStrings`: at position 5 all six patterns end, longest first. -/
theorem Next_suffix_complete_witness :
    testPatterns.Nodup ∧ (∀ p, p ∈ testPatterns → p ≠ []) ∧
    ((New (MapOrder.insertion Nat) testPatterns).bind
        (fun a => nextRuns a testPatterns testInput 0)).map (fun runs => runs[5]?)
      = some (some [0, 1, 2, 3, 4, 5]) ∧
    ∃ a runs, New (MapOrder.insertion Nat) testPatterns = some a ∧
      nextRuns a testPatterns testInput 0 = some runs ∧ runs.length = testInput.length ∧
      ∀ (i : Nat) (xs : List Int), runs[i]? = some xs →
        (∀ x, x ∈ xs → 0 ≤ x ∧ x < testPatterns.length) ∧
        (∀ (k : Nat) (p : List Nat), testPatterns[k]? = some p →
          ((k : Int) ∈ xs ↔ p <:+ testInput.take (i + 1))) ∧
        (∀ (k1 k2 : Nat) (p1 p2 : List Nat), testPatterns[k1]? = some p1 →
          testPatterns[k2]? = some p2 → p1 <:+ p2 → p2 <:+ testInput.take (i + 1) →
          (k1 : Int) ∈ xs ∧ (k2 : Int) ∈ xs) :=
  ⟨by decide, by decide, by decide,
    Next_suffix_complete (MapOrder.insertion Nat) testPatterns testInput (by decide)
      (by decide)⟩

/-- C6: `New(P)` succeeds and has a root; from every valid state id `s` and for every atom
`c`, `Next(s, P, c)` returns (no out-of-range access, and every loop bound above the node
count suffices), the new state id is a valid node id and every returned match is an index
into `P`; hence `Counts` and `Indexes` with the same `P` return as well. -/
theorem Next_safe [Inhabited T] (o : MapOrder T) (P : List (List T)) :
    ∃ a, New o P = some a ∧ 0 < a.nodes.length ∧
      (∀ (s : Int) (c : T), 0 ≤ s → s < a.nodes.length →
        ∃ xs t, Next a s P c = some (xs, t) ∧
          (∀ fuel, a.nodes.length < fuel → NextFuel fuel a s P c = some (xs, t)) ∧
          0 ≤ t ∧ t < a.nodes.length ∧ ∀ x, x ∈ xs → 0 ≤ x ∧ x < P.length) ∧
      ∀ S : List T, (∃ m, Counts a P S = some m ∧ m.length = P.length) ∧
        ∃ idx, Indexes a P S = some idx ∧ idx.length = P.length := by
  obtain ⟨⟨nodes⟩, ha, hB⟩ := New_spec o P
  have h0 := (hB.trie.depth _ _ (walk_nil nodes)).2.1
  refine ⟨_, ha, by simpa using h0, ?_, ?_⟩
  · intro s c hs0 hs1
    obtain ⟨w, t, hw, hn, ht⟩ := Next_valid_state hB hs0 hs1 c P
    have hv := hB.trie.depth _ _ ht
    refine ⟨_, t, hn, ?_, hv.1, hv.2.1, fun x hx => outs_valid hB _ hx⟩
    intro fuel hfuel
    obtain ⟨t1, h1, h2⟩ := NextFuel_spec hB hw c fuel hfuel P
    rw [ht] at h2
    cases h2
    exact h1
  · intro S
    obtain ⟨idx, hi, hl, _⟩ := Indexes_spec hB S
    obtain ⟨m, hm, hml, _⟩ := Counts_spec hB S
    exact ⟨⟨m, hm, hml⟩, idx, hi, hl⟩

/-- C7: when `P[k]` has length 0, no call of `Next` on `New(P)` from a valid state returns
`k`, `Counts(P, S)[k] == 0` and `Indexes(P, S)[k]` is empty, for every input `S`. -/
theorem empty_pattern_never_matches [Inhabited T] (o : MapOrder T) (P : List (List T))
    (k : Nat) (hk : P[k]? = some []) :
    ∃ a, New o P = some a ∧
      (∀ (s : Int) (c : T), 0 ≤ s → s < a.nodes.length →
        ∃ xs t, Next a s P c = some (xs, t) ∧ (k : Int) ∉ xs) ∧
      ∀ S : List T, ∃ m idx, Counts a P S = some m ∧ Indexes a P S = some idx ∧
        m[k]? = some 0 ∧ idx[k]? = some [] := by
  obtain ⟨⟨nodes⟩, ha, hB⟩ := New_spec o P
  have hkl := (List.getElem?_eq_some.1 hk).1
  refine ⟨_, ha, ?_, ?_⟩
  · intro s c hs0 hs1
    obtain ⟨w, t, _, hn, _⟩ := Next_valid_state hB hs0 hs1 c P
    refine ⟨_, t, hn, ?_⟩
    rw [mem_outs_iff hB]
    intro ⟨_, q, hq, hqne, _⟩
    rw [Int.toNat_ofNat, hk] at hq
    exact hqne (Option.some.inj hq).symm
  · intro S
    obtain ⟨idx, hi, hl, hg⟩ := Indexes_spec hB S
    obtain ⟨m, hm, hml, hmg⟩ := Counts_spec hB S
    have h0 : hitOffsets nodes P k [] S = [] := by
      rw [hitOffsets_occurrences hB k [] hk S, if_neg (fun h => h.1 rfl)]
    refine ⟨m, idx, hm, hi, ?_, ?_⟩
    · rw [hmg k hkl, h0]; rfl
    · rw [hg k hkl, h0]

/-- C7 on a pattern list whose index 1 holds the empty pattern. -/
theorem empty_pattern_never_matches_witness :
    testWithEmpty[1]? = some [] ∧
    (New (MapOrder.insertion Nat) testWithEmpty).bind
        (fun a => Counts a testWithEmpty testInput) = some [2, 0, 3] ∧
    ∃ a, New (MapOrder.insertion Nat) testWithEmpty = some a ∧
      (∀ (s : Int) (c : Nat), 0 ≤ s → s < a.nodes.length →
        ∃ xs t, Next a s testWithEmpty c = some (xs, t) ∧ ((1 : Nat) : Int) ∉ xs) ∧
      ∀ S : List Nat, ∃ m idx, Counts a testWithEmpty S = some m ∧
        Indexes a testWithEmpty S = some idx ∧ m[1]? = some 0 ∧ idx[1]? = some [] :=
  ⟨by decide, by decide,
    empty_pattern_never_matches (MapOrder.insertion Nat) testWithEmpty 1 (by decide)⟩

/-- C8: when the non-empty pattern `p` stands at the indices `i < j` of `P` and `j` is the
last index holding it, `New(P)` succeeds and for every input the occurrences of `p` are
reported under `j` only: `Counts(P, S)[j]` is the brute-force occurrence count of `p`,
`Counts(P, S)[i] == 0` and `Indexes(P, S)[i]` is empty. -/
theorem duplicate_reports_last [Inhabited T] (o : MapOrder T) (P : List (List T))
    (i j : Nat) (p : List T) (hij : i < j) (hi : P[i]? = some p) (hj : P[j]? = some p)
    (hne : p ≠ []) (hlast : ∀ j1 : Nat, j < j1 → P[j1]? ≠ some p) :
    ∃ a, New o P = some a ∧
      ∀ S : List T, ∃ m idx, Counts a P S = some m ∧ Indexes a P S = some idx ∧
        m[j]? = some ((naiveCount p S : Nat) : Int) ∧ m[i]? = some 0 ∧ idx[i]? = some [] ∧
        idx[j]? = some ((occurrences p S).map (fun x => ((x : Nat) : Int))) := by
  obtain ⟨⟨nodes⟩, ha, hB⟩ := New_spec o P
  have hil := (List.getElem?_eq_some.1 hi).1
  have hjl := (List.getElem?_eq_some.1 hj).1
  refine ⟨_, ha, ?_⟩
  intro S
  obtain ⟨idx, hx, hl, hg⟩ := Indexes_spec hB S
  obtain ⟨m, hm, hml, hmg⟩ := Counts_spec hB S
  have hni : ¬ (p ≠ [] ∧ lastIndex P i) := by
    intro ⟨_, h⟩
    exact h j hjl hij (by rw [hi, hj])
  have h0 : hitOffsets nodes P i [] S = [] := by
    rw [hitOffsets_occurrences hB i p hi S, if_neg hni]
  have h1 : hitOffsets nodes P j [] S = (occurrences p S).map (fun x => ((x : Nat) : Int)) := by
    rw [hitOffsets_occurrences hB j p hj S, if_pos ⟨hne, (lastIndex_iff hj).2 hlast⟩]
  refine ⟨m, idx, hm, hx, ?_, ?_, ?_, ?_⟩
  · rw [hmg j hjl, h1]; simp [naiveCount]
  · rw [hmg i hil, h0]; rfl
  · rw [hg i hil, h0]
  · rw [hg j hjl, h1]

/-- C8 on a pattern list in which `"ar"` stands at the indices 0 and 2. -/
theorem duplicate_reports_last_witness :
    (0 < 2 ∧ testDuplicates[0]? = some [97, 114] ∧ testDuplicates[2]? = some [97, 114] ∧
      ([97, 114] : List Nat) ≠ [] ∧ ∀ j1 : Nat, 2 < j1 → testDuplicates[j1]? ≠ some [97, 114]) ∧
    (New (MapOrder.insertion Nat) testDuplicates).bind
        (fun a => Counts a testDuplicates testInput) = some [0, 3, 2] ∧
    ∃ a, New (MapOrder.insertion Nat) testDuplicates = some a ∧
      ∀ S : List Nat, ∃ m idx, Counts a testDuplicates S = some m ∧
        Indexes a testDuplicates S = some idx ∧
        m[2]? = some ((naiveCount [97, 114] S : Nat) : Int) ∧ m[0]? = some 0 ∧
        idx[0]? = some [] ∧
        idx[2]? = some ((occurrences [97, 114] S).map (fun x => ((x : Nat) : Int))) :=
  have hlast : ∀ j1 : Nat, 2 < j1 → testDuplicates[j1]? ≠ some [97, 114] := by
    intro j1 h
    rw [List.getElem?_eq_none (by simp [testDuplicates]; omega)]
    simp
  ⟨⟨by decide, by decide, by decide, by decide, hlast⟩, by decide,
    duplicate_reports_last (MapOrder.insertion Nat) testDuplicates 0 2 [97, 114] (by decide)
      (by decide) (by decide) (by decide) hlast⟩

/-- C9: on `New(P)`, from a valid state `s` and for an atom `c`, the goto-based `Next` returns
what the structured definition returns: with `v` the first node of `s, fail(s), ...` (ending
at the root) that has a child for `c`, the new state `t = child(v, c)` and the list
`[match(t)` if not negative`]` followed by the matches along the alternative chain of `t`
until `-1`; the empty list and state 0 when there is no such `v`. -/
theorem Next_eq_nextSpec [Inhabited T] (o : MapOrder T) (P : List (List T)) :
    ∃ a, New o P = some a ∧ 0 < a.nodes.length ∧
      ∀ (s : Int) (c : T), 0 ≤ s → s < a.nodes.length →
        ∃ r, nextSpec a.nodes s c = some r ∧ Next a s P c = some r := by
  obtain ⟨⟨nodes⟩, ha, hB⟩ := New_spec o P
  have h0 := (hB.trie.depth _ _ (walk_nil nodes)).2.1
  refine ⟨_, ha, by simpa using h0, ?_⟩
  intro s c hs0 hs1
  obtain ⟨w, t, hw, hn, ht⟩ := Next_valid_state hB hs0 hs1 c P
  obtain ⟨t1, hs, ht1⟩ := nextSpec_spec hB hw c
  rw [ht] at ht1
  cases ht1
  exact ⟨_, hs, hn⟩

/-- C10: on `New(P)`, from a valid state and for any atom, the matches returned by `Next` are
ordered from the longest to the shortest pattern: the lengths `len(P[x])` decrease strictly
along the list, so no index occurs twice. -/
theorem Next_matches_decreasing [Inhabited T] (o : MapOrder T) (P : List (List T)) :
    ∃ a, New o P = some a ∧ 0 < a.nodes.length ∧
      ∀ (s : Int) (c : T), 0 ≤ s → s < a.nodes.length →
        ∃ xs t, Next a s P c = some (xs, t) ∧
          (xs.map (patLen P)).Sorted (· > ·) ∧ xs.Nodup := by
  obtain ⟨⟨nodes⟩, ha, hB⟩ := New_spec o P
  have h0 := (hB.trie.depth _ _ (walk_nil nodes)).2.1
  refine ⟨_, ha, by simpa using h0, ?_⟩
  intro s c hs0 hs1
  obtain ⟨w, t, _, hn, _⟩ := Next_valid_state hB hs0 hs1 c P
  refine ⟨_, t, hn, ?_, outs_nodup hB _⟩
  unfold List.Sorted
  rw [List.pairwise_map]
  refine (outs_pairwise hB (w ++ [c])).imp ?_
  intro x y h
  unfold patLen
  omega

end Claims

end aca

namespace aca

/-! ## The links are determined by the trie -/

section Unique

variable {T : Type} [DecidableEq T]

theorem nodes_ext {l1 l2 : List (Node T)} (hlen : l1.length = l2.length)
    (h : ∀ v n1 n2, getNode l1 v = some n1 → getNode l2 v = some n2 → n1 = n2) : l1 = l2 := by
  apply List.ext_getElem hlen
  intro i h1 h2
  have e1 : getNode l1 (i : Int) = some l1[i] := by
    simp [getNode, List.getElem?_eq_getElem h1]
  have e2 : getNode l2 (i : Int) = some l2[i] := by
    simp [getNode, List.getElem?_eq_getElem h2]
  exact h i _ _ e1 e2

/-- Two linked slices over the same trie have the same failure links. -/
theorem fail_unique {nodes0 n1 n2 : List (Node T)} (hs1 : SameShape nodes0 n1)
    (hs2 : SameShape nodes0 n2) {w : List T} {v : Int} {a b : Node T}
    (hw : walk nodes0 w = some v) (ha : getNode n1 v = some a) (hb : getNode n2 v = some b)
    (h1 : FailAt n1 v) (h2 : FailAt n2 v) : a.fail = b.fail := by
  have e1 := h1 w a (by rw [hs1.walk]; exact hw) ha
  have e2 := h2 w b (by rw [hs2.walk]; exact hw) hb
  rw [hs1.walk, lsuf_congr hs1.walk] at e1
  rw [hs2.walk, lsuf_congr hs2.walk, e1] at e2
  exact Option.some.inj e2

/-- Two slices over the same trie whose failure and alternative links satisfy the local
equations up to some depth have the same alternative links up to that depth. -/
theorem alt_unique {nodes0 n1 n2 : List (Node T)} (hT : Trie nodes0)
    (hs1 : SameShape nodes0 n1) (hs2 : SameShape nodes0 n2) (hm1 : SameMarks nodes0 n1)
    (hm2 : SameMarks nodes0 n2)
    (hr1 : ∀ r, getNode n1 0 = some r → r.alternative = -1)
    (hr2 : ∀ r, getNode n2 0 = some r → r.alternative = -1) (k : Nat)
    (hF1 : ∀ w v, walk nodes0 w = some v → w.length ≤ k → FailAt n1 v)
    (hF2 : ∀ w v, walk nodes0 w = some v → w.length ≤ k → FailAt n2 v)
    (hA1 : ∀ w v, walk nodes0 w = some v → w ≠ [] → w.length ≤ k → AltAt n1 v)
    (hA2 : ∀ w v, walk nodes0 w = some v → w ≠ [] → w.length ≤ k → AltAt n2 v) :
    ∀ (d : Nat) (w : List T) (v : Int) (a b : Node T), w.length ≤ d → w.length ≤ k →
      walk nodes0 w = some v → getNode n1 v = some a → getNode n2 v = some b →
      a.alternative = b.alternative := by
  intro d
  induction d with
  | zero =>
    intro w v a b hd _ hw ha hb
    have hw0 : w = [] := List.length_eq_zero.1 (by omega)
    subst hw0
    rw [walk_nil] at hw
    have hv : v = 0 := (Option.some.inj hw).symm
    subst hv
    rw [hr1 a ha, hr2 b hb]
  | succ d ih =>
    intro w v a b hd hk hw ha hb
    by_cases hw0 : w = []
    · subst hw0
      rw [walk_nil] at hw
      have hv : v = 0 := (Option.some.inj hw).symm
      subst hv
      rw [hr1 a ha, hr2 b hb]
    · have hfe := fail_unique hs1 hs2 hw ha hb (hF1 w v hw hk) (hF2 w v hw hk)
      obtain ⟨fa, hfa, ea⟩ := hA1 w v hw hw0 hk a ha
      obtain ⟨fb, hfb, eb⟩ := hA2 w v hw hw0 hk b hb
      rw [← hfe] at hfb eb
      have hwf := hF1 w v hw hk w a (by rw [hs1.walk]; exact hw) ha
      rw [hs1.walk, lsuf_congr hs1.walk] at hwf
      have hlt := tail_length_lt hw0
      have hle := lsuf_length_le nodes0 w.tail
      obtain ⟨f0, hf0, _⟩ := hs1.back hfa
      have hma := (hm1 _ f0 fa hf0 hfa).1
      have hmb := (hm2 _ f0 fb hf0 hfb).1
      have halt := ih (lsuf nodes0 w.tail) a.fail fa fb (by omega) (by omega) hwf hfa hfb
      rw [ea, eb, hma, hmb, halt]

/-- The links of a finished automaton are determined by its trie. -/
theorem linked_unique {nodes0 n1 n2 : List (Node T)} (hT : Trie nodes0)
    (hs1 : SameShape nodes0 n1) (hs2 : SameShape nodes0 n2) (hm1 : SameMarks nodes0 n1)
    (hm2 : SameMarks nodes0 n2) (hL1 : Linked n1) (hL2 : Linked n2) : n1 = n2 := by
  apply nodes_ext (hs1.1.trans hs2.1.symm)
  intro v a b ha hb
  obtain ⟨n0, hn0, i1, d1, c1⟩ := hs1.back ha
  obtain ⟨n0', hn0', i2, d2, c2⟩ := hs2.back hb
  rw [hn0] at hn0'
  cases hn0'
  obtain ⟨w, hw⟩ := hT.reach v n0 hn0
  have hw1 : walk n1 w = some v := by rw [hs1.walk]; exact hw
  have hw2 : walk n2 w = some v := by rw [hs2.walk]; exact hw
  have hf := fail_unique hs1 hs2 hw ha hb (hL1.failOK w v hw1) (hL2.failOK w v hw2)
  have hal := alt_unique hT hs1 hs2 hm1 hm2 hL1.altRoot hL2.altRoot w.length
    (fun x u hx _ => hL1.failOK x u (by rw [hs1.walk]; exact hx))
    (fun x u hx _ => hL2.failOK x u (by rw [hs2.walk]; exact hx))
    (fun x u hx hne _ => hL1.altOK x u hne (by rw [hs1.walk]; exact hx))
    (fun x u hx hne _ => hL2.altOK x u hne (by rw [hs2.walk]; exact hx))
    w.length w v a b (le_refl _) (le_refl _) hw ha hb
  obtain ⟨m1, l1⟩ := hm1 v n0 a hn0 ha
  obtain ⟨m2, l2⟩ := hm2 v n0 b hn0 hb
  cases a
  cases b
  simp only at i1 d1 c1 i2 d2 c2 hf hal m1 l1 m2 l2
  simp only [Node.mk.injEq]
  exact ⟨i1.trans i2.symm, d1.trans d2.symm, c1.trans c2.symm, hf, hal, m1.trans m2.symm,
    l1.trans l2.symm⟩

/-- The second phase of `New` gives the same slice for every enumeration order of the maps
and every sufficient loop bound. -/
theorem linkFailures_order {nodes0 : List (Node T)} (hT : Trie nodes0)
    (hr : ∀ r, getNode nodes0 0 = some r → r.alternative = -1) (o1 o2 : MapOrder T)
    (f1 f2 : Nat) (h1 : nodes0.length ≤ f1) (h2 : nodes0.length ≤ f2) :
    linkFailures o1 f1 nodes0 = linkFailures o2 f2 nodes0 := by
  obtain ⟨n1, e1, s1, m1, L1⟩ := linkFailures_spec o1 hT hr f1 h1
  obtain ⟨n2, e2, s2, m2, L2⟩ := linkFailures_spec o2 hT hr f2 h2
  rw [e1, e2, linked_unique hT s1 s2 m1 m2 L1 L2]

theorem New_order [Inhabited T] (o1 o2 : MapOrder T) (P : List (List T)) :
    New o1 P = New o2 P := by
  obtain ⟨nodes0, hb, hT, _, _⟩ := buildTrie_spec P
  unfold New
  simp only [hb]
  rw [linkFailures_order hT (buildTrie_rootAlt hb) o1 o2 (nodes0.length + 1)
    (nodes0.length + 1) (by omega) (by omega)]

end Unique

end aca

namespace aca

/-! ## Pattern lists without atoms -/

section AllEmpty

variable {T : Type} [DecidableEq T]

theorem addPatterns_allEmpty [Inhabited T] (P : List (List T)) :
    ∀ (i : Int) (st : Build T), (∀ p, p ∈ P → p = []) →
      ∃ st1, addPatterns P i st = some st1 ∧ st1.nodes = st.nodes := by
  induction P with
  | nil => intro i st _; exact ⟨st, rfl, rfl⟩
  | cons p P ih =>
    intro i st h
    have hp : p = [] := h p (List.mem_cons_self _ _)
    subst hp
    obtain ⟨st1, h1, h2⟩ := ih (i + 1) { st with cur := 0 }
      (fun q hq => h q (List.mem_cons_of_mem _ hq))
    refine ⟨st1, ?_, h2⟩
    unfold addPatterns
    simp only [addAtoms]
    exact h1

theorem buildTrie_allEmpty [Inhabited T] {P : List (List T)} (h : ∀ p, p ∈ P → p = []) :
    buildTrie P = some [rootNode T] := by
  obtain ⟨st1, h1, h2⟩ := addPatterns_allEmpty P 0 { nodes := [rootNode T], cur := 0, ids := 1 } h
  unfold buildTrie
  rw [h1]
  simp only at h2 ⊢
  rw [h2]

theorem enum_nil (o : MapOrder T) : o.enum [] = [] :=
  List.Perm.eq_nil (o.perm [])

theorem linkFailures_rootOnly [Inhabited T] (o : MapOrder T) (fuel : Nat) :
    linkFailures o (fuel + 1) [rootNode T] = some [{ rootNode T with fail := 0 }] := by
  unfold linkFailures
  simp [getNode, updNode, rootNode, enum_nil, seedQueue, linkLoop]

/-- On a pattern list without atoms `New` returns the root alone. -/
theorem New_allEmpty [Inhabited T] (o : MapOrder T) {P : List (List T)}
    (h : ∀ p, p ∈ P → p = []) :
    New o P = some { nodes := [{ rootNode T with fail := 0 }] } := by
  unfold New
  rw [buildTrie_allEmpty h]
  simp only [List.length_singleton]
  rw [linkFailures_rootOnly]

theorem Next_rootOnly [Inhabited T] (patterns : List (List T)) (c : T) :
    Next { nodes := [{ rootNode T with fail := 0 }] } 0 patterns c = some ([], 0) := by
  simp [Next, NextFuel, getNode, nextFrom, rootNode, mapGet, failLoop]

theorem countsLoop_rootOnly [Inhabited T] (patterns : List (List T)) (S : List T) :
    ∀ m : List Int,
      countsLoop { nodes := [{ rootNode T with fail := 0 }] } patterns S 0 m = some m := by
  induction S with
  | nil => intro m; rfl
  | cons c S ih =>
    intro m
    unfold countsLoop
    rw [Next_rootOnly]
    simp only [bump]
    exact ih m

theorem indexesLoop_rootOnly [Inhabited T] (input : List T) (rest : List T) :
    ∀ (u : List T) (gas : Nat) (idx : List (List Int)), input = u ++ rest →
      rest.length < gas →
      indexesLoop { nodes := [{ rootNode T with fail := 0 }] } 2 input gas u.length
        { rootNode T with fail := 0 } idx = some idx := by
  induction rest with
  | nil =>
    intro u gas idx hin hgas
    obtain ⟨g, rfl⟩ : ∃ g, gas = g + 1 := ⟨gas - 1, by simp at hgas; omega⟩
    unfold indexesLoop
    simp [hin]
  | cons c rest ih =>
    intro u gas idx hin hgas
    simp only [List.length_cons] at hgas
    obtain ⟨g, rfl⟩ : ∃ g, gas = g + 1 := ⟨gas - 1, by omega⟩
    have hi : (u.length : Int) < input.length := by
      rw [hin]; simp
    have h0 : (0 : Int) ≤ u.length := by omega
    have hci : input[(u.length : Int).toNat]? = some c := by
      rw [hin, Int.toNat_ofNat, List.getElem?_append_right (le_refl _)]
      simp
    have hin1 : input = (u ++ [c]) ++ rest := by rw [hin]; simp
    have := ih (u ++ [c]) g idx hin1 (by omega)
    rw [indexesLoop]
    simp only [hi, h0, if_true, hci]
    simp only [rootNode, mapGet, indexFailLoop, if_true, Option.isSome_none,
      Bool.false_eq_true, if_false]
    simpa [rootNode] using this

end AllEmpty

end aca

namespace aca

/-! ## Chains of failure and alternative links -/

section Chains

variable {T : Type} [DecidableEq T]

theorem suffix_tail_of_lt {w y : List T} (hy : y <:+ w) (hl : y.length < w.length) :
    y <:+ w.tail := by
  cases w with
  | nil => simp at hl
  | cons a t =>
    rcases List.suffix_cons_iff.1 hy with h | h
    · subst h; simp at hl
    · exact h

theorem tail_suffix_lt {w : List T} (hw : w ≠ []) {x : List T} (hx : x <:+ w.tail) :
    x <:+ w ∧ x.length < w.length := by
  cases w with
  | nil => exact absurd rfl hw
  | cons a t =>
    refine ⟨hx.trans (List.suffix_cons a t), ?_⟩
    have := hx.length_le
    simp at this ⊢
    omega

/-- The failure node of a non-root node: its path is the longest proper suffix of the path
of the node that is a path of the trie. -/
theorem fail_longest {nodes : List (Node T)} {P : List (List T)} (hB : Built nodes P)
    {w : List T} {v : Int} {n : Node T} (hw : walk nodes w = some v) (hne : w ≠ [])
    (hn : getNode nodes v = some n) :
    walk nodes (lsuf nodes w.tail) = some n.fail ∧ lsuf nodes w.tail <:+ w ∧
      (lsuf nodes w.tail).length < w.length ∧
      ∀ y, y <:+ w → y.length < w.length → (walk nodes y).isSome →
        y <:+ lsuf nodes w.tail := by
  obtain ⟨h1, h2⟩ := tail_suffix_lt hne (lsuf_suffix nodes w.tail)
  exact ⟨hB.linked.failOK w v hw w n hw hn, h1, h2,
    fun y hy hl hs => lsuf_max (suffix_tail_of_lt hy hl) hs⟩

theorem root_fail {nodes : List (Node T)} {P : List (List T)} (hB : Built nodes P)
    {r : Node T} (hr : getNode nodes 0 = some r) : r.fail = 0 := by
  have := hB.linked.failOK [] 0 (walk_nil nodes) [] r (walk_nil nodes) hr
  exact (Option.some.inj this).symm

theorem walk_ne_root {nodes : List (Node T)} {x : List T} {u : Int}
    (hw : walk nodes x = some u) (h0 : u ≠ 0) : x ≠ [] := by
  intro h
  subst h
  exact h0 (Option.some.inj hw).symm

/-- The search `firstMarked` from a node gives the node when it is marked and its alternative
link otherwise. -/
theorem firstMarked_chain {nodes : List (Node T)} {P : List (List T)} (hB : Built nodes P) :
    ∀ (fuel : Nat) (x : List T) (u : Int) (f : Node T), walk nodes x = some u →
      getNode nodes u = some f → x.length < fuel →
      firstMarked nodes fuel u = some (if f.match_ ≥ 0 then u else f.alternative) := by
  intro fuel
  induction fuel with
  | zero => intro x u f _ _ h; omega
  | succ fuel ih =>
    intro x u f hw hf hl
    unfold firstMarked
    simp only [hf]
    by_cases hm : f.match_ ≥ 0
    · simp only [hm, if_true]
    · simp only [hm, if_false]
      by_cases h0 : u = 0
      · subst h0
        simp only [if_true]
        rw [hB.linked.altRoot f hf]
      · simp only [h0, if_false]
        have hx := walk_ne_root hw h0
        obtain ⟨g, hg, ha⟩ := hB.linked.altOK x u hx hw f hf
        have hfl := hB.linked.failOK x u hw x f hw hf
        have hlen := (tail_suffix_lt hx (lsuf_suffix nodes x.tail)).2
        rw [ih _ _ g hfl hg (by omega), ha]

/-- The alternative link of every node is the result of the search `firstMarked` from its
failure node. -/
theorem alternative_firstMarked {nodes : List (Node T)} {P : List (List T)}
    (hB : Built nodes P) {v : Int} {n : Node T} (hn : getNode nodes v = some n)
    (fuel : Nat) (hfuel : nodes.length ≤ fuel) :
    firstMarked nodes fuel n.fail = some n.alternative := by
  obtain ⟨w, hw⟩ := hB.trie.reach v n hn
  have hfl := hB.linked.failOK w v hw w n hw hn
  obtain ⟨g, hg⟩ := hB.trie.node_of_walk hfl
  have hd := (hB.trie.depth _ _ hfl).2.2
  rw [firstMarked_chain hB fuel _ _ g hfl hg (by omega)]
  by_cases h0 : v = 0
  · subst h0
    have hr := root_fail hB hn
    rw [hr] at hg
    have : g = n := Option.some.inj (hg.symm.trans hn)
    subst this
    have hm := hB.root_match hn
    rw [hm]
    simp
  · obtain ⟨g2, hg2, ha⟩ := hB.linked.altOK w v (walk_ne_root hw h0) hw n hn
    have : g2 = g := Option.some.inj (hg2.symm.trans hg)
    subst this
    rw [ha]

/-- A result of `firstMarked` other than `-1` is a marked node on the chain, not deeper than
the start of the search. -/
theorem firstMarked_found {nodes : List (Node T)} {P : List (List T)} (hB : Built nodes P) :
    ∀ (fuel : Nat) (x : List T) (u r : Int), walk nodes x = some u →
      firstMarked nodes fuel u = some r →
      r = -1 ∨ ∃ y m, walk nodes y = some r ∧ y.length ≤ x.length ∧
        getNode nodes r = some m ∧ m.match_ ≥ 0 := by
  intro fuel
  induction fuel with
  | zero => intro x u r _ h; simp [firstMarked] at h
  | succ fuel ih =>
    intro x u r hw h
    unfold firstMarked at h
    cases hf : getNode nodes u with
    | none => simp [hf] at h
    | some f =>
      simp only [hf] at h
      by_cases hm : f.match_ ≥ 0
      · simp only [hm, if_true, Option.some.injEq] at h
        subst h
        exact Or.inr ⟨x, f, hw, le_refl _, hf, hm⟩
      · simp only [hm, if_false] at h
        by_cases h0 : u = 0
        · simp only [h0, if_true, Option.some.injEq] at h
          exact Or.inl h.symm
        · simp only [h0, if_false] at h
          have hx := walk_ne_root hw h0
          have hfl := hB.linked.failOK x u hw x f hw hf
          have hlen := (tail_suffix_lt hx (lsuf_suffix nodes x.tail)).2
          rcases ih _ _ _ hfl h with h1 | ⟨y, m, h1, h2, h3, h4⟩
          · exact Or.inl h1
          · exact Or.inr ⟨y, m, h1, by omega, h3, h4⟩

/-- The alternative link of a node is `-1` or a marked node of smaller depth. -/
theorem alternative_depth {nodes : List (Node T)} {P : List (List T)} (hB : Built nodes P)
    {w : List T} {v : Int} {n : Node T} (hw : walk nodes w = some v)
    (hn : getNode nodes v = some n) :
    n.alternative = -1 ∨ ∃ y m, walk nodes y = some n.alternative ∧
      (w ≠ [] → y.length < w.length) ∧ getNode nodes n.alternative = some m ∧
      m.match_ ≥ 0 := by
  have hfl := hB.linked.failOK w v hw w n hw hn
  rcases firstMarked_found hB nodes.length _ _ _ hfl
    (alternative_firstMarked hB hn nodes.length (le_refl _)) with h | ⟨y, m, h1, h2, h3, h4⟩
  · exact Or.inl h
  · refine Or.inr ⟨y, m, h1, ?_, h3, h4⟩
    intro hne
    have := (tail_suffix_lt hne (lsuf_suffix nodes w.tail)).2
    omega

end Chains

end aca

namespace aca

/-! ## `Next` with loop bounds taken from the depth of the state -/

section NextDepth

variable {T : Type} [DecidableEq T]

theorem nextFrom_direct_depth {nodes : List (Node T)} {P : List (List T)} (hB : Built nodes P)
    {w : List T} {s t : Int} {node : Node T} {c : T} (hw : walk nodes w = some s)
    (hn : getNode nodes s = some node) (hc : mapGet node.children c = some t)
    (fuel gas : Nat) (hfuel : w.length + 1 ≤ fuel) (acc : List Int) :
    nextFrom { nodes := nodes } fuel (gas + 1) node acc c =
      some (acc ++ outs nodes (w ++ [c]), t) ∧ walk nodes (w ++ [c]) = some t := by
  have hwc : walk nodes (w ++ [c]) = some t := by
    rw [walk_concat_of c hw, childOf_isSome_eq c hn, hc]
  obtain ⟨node1, hn1⟩ := hB.trie.node_of_walk hwc
  have hid := hB.trie.ids t node1 hn1
  have hne : w ++ [c] ≠ [] := by simp
  refine ⟨?_, hwc⟩
  unfold nextFrom
  simp only [hc, hn1]
  rw [altLoop_spec hB (w ++ [c]).length (w ++ [c]) t node1 _ fuel (le_refl _) hne hwc hn1
    (by simp; omega)]
  rw [outs_eq_tail hne, markAt_of hwc hn1, hid]
  by_cases hm : node1.match_ ≥ 0 <;> simp [hm]

/-- The body of `Next` returns when each loop may run `depth + 1` times and the label `Start`
may be entered twice. -/
theorem nextFrom_depth {nodes : List (Node T)} {P : List (List T)} (hB : Built nodes P)
    {w : List T} {s : Int} {node : Node T} (hw : walk nodes w = some s)
    (hn : getNode nodes s = some node) (c : T) (fuel gas : Nat)
    (hfuel : w.length + 1 ≤ fuel) (hgas : 2 ≤ gas) :
    ∃ t, nextFrom { nodes := nodes } fuel gas node [] c = some (outs nodes (w ++ [c]), t) ∧
      walk nodes (lsuf nodes (w ++ [c])) = some t := by
  obtain ⟨g, rfl⟩ : ∃ m, gas = m + 2 := ⟨gas - 2, by omega⟩
  cases hc : mapGet node.children c with
  | some t =>
    obtain ⟨e1, e2⟩ := nextFrom_direct_depth hB hw hn hc fuel (g + 1) hfuel []
    refine ⟨t, by rw [e1]; simp, ?_⟩
    rw [lsuf_of_isSome (by rw [e2]; rfl)]
    exact e2
  | none =>
    obtain ⟨node1, s1, x1, hf1, hf2, hf3, hf4⟩ :=
      failLoop_spec hB c fuel w s node hw hn (by omega)
    rw [nextFrom]
    simp only [hc, hf1]
    rcases hf4 with ⟨t, ht, hl⟩ | ⟨hnone, hl, h0⟩
    · have hlen : x1.length + 1 ≤ fuel := by
        have := (lsuf_suffix nodes (w ++ [c])).length_le
        rw [hl] at this
        simp at this
        omega
      obtain ⟨e1, e2⟩ := nextFrom_direct_depth hB hf3 hf2 ht fuel g hlen []
      simp only [ht, Option.isSome_some, if_true]
      refine ⟨t, ?_, by rw [hl]; exact e2⟩
      rw [e1, outs_lsuf nodes (w ++ [c]), hl]
      simp
    · simp only [hnone, Option.isSome_none, Bool.false_eq_true, if_false]
      subst h0
      refine ⟨0, ?_, by rw [hl]; rfl⟩
      rw [outs_lsuf nodes (w ++ [c]), hl, hB.trie.ids 0 node1 hf2]
      rfl

/-- The states of a scan: after each atom the state is the node of the longest suffix of the
input read so far that is a path of the trie. -/
theorem nextStates_spec {nodes : List (Node T)} {P : List (List T)} (hB : Built nodes P)
    (patterns : List (List T)) (rest : List T) :
    ∀ (u : List T) (s : Int), walk nodes (lsuf nodes u) = some s →
      ∃ states, nextStates { nodes := nodes } patterns rest s = some states ∧
        states.length = rest.length ∧
        ∀ (i : Nat) (t : Int), states[i]? = some t →
          walk nodes (lsuf nodes (u ++ rest.take (i + 1))) = some t := by
  induction rest with
  | nil =>
    intro u s _
    exact ⟨[], rfl, rfl, fun i t h => by simp at h⟩
  | cons c rest ih =>
    intro u s hs
    obtain ⟨t, ht, hwt⟩ := Next_scan hB u hs c patterns
    obtain ⟨states, h1, h2, h3⟩ := ih (u ++ [c]) t hwt
    refine ⟨t :: states, ?_, by simp [h2], ?_⟩
    · unfold nextStates
      simp only [ht, h1]
    · intro i t1 hi
      cases i with
      | zero =>
        simp at hi
        subst hi
        simpa using hwt
      | succ i =>
        simp only [List.getElem?_cons_succ] at hi
        have := h3 i t1 hi
        simpa using this

/-- The paths of a built trie are the empty word and the prefixes of the patterns. -/
theorem Built.path_iff {nodes : List (Node T)} {P : List (List T)} (hB : Built nodes P)
    (y : List T) : (walk nodes y).isSome ↔ (y = [] ∨ ∃ p, p ∈ P ∧ y <+: p) := by
  rw [hB.covers y]
  constructor
  · rintro (h | h)
    · exact Or.inr h
    · exact Or.inl (List.prefix_nil.1 h)
  · rintro (h | h)
    · exact Or.inr (by rw [h])
    · exact Or.inl h

end NextDepth

end aca

namespace aca

/-! ## The iterations of the main loop of `Indexes` -/

section IndexesTrace

variable {T : Type} [DecidableEq T]

/-- Dropping the log from `indexesLoopLog` gives `indexesLoop`. -/
theorem indexesLoopLog_fst (a : ACAutomata T) (fuel : Nat) (input : List T) :
    ∀ (gas : Nat) (i : Int) (node : Node T) (idx : List (List Int)),
      (indexesLoopLog a fuel input gas i node idx).map Prod.fst =
        indexesLoop a fuel input gas i node idx := by
  intro gas
  induction gas with
  | zero => intro i node idx; rfl
  | succ gas ih =>
    intro i node idx
    rw [indexesLoopLog, indexesLoop]
    by_cases hi : i < input.length
    · simp only [hi, if_true]
      by_cases h0 : 0 ≤ i
      · simp only [h0, if_true]
        cases hc : input[i.toNat]? with
        | none => rfl
        | some c =>
          simp only []
          cases hm : mapGet node.children c with
          | some id =>
            simp only []
            cases hn : getNode a.nodes id with
            | none => rfl
            | some node1 =>
              simp only []
              cases hp : (if node1.match_ ≥ 0 then pushAt idx node1.match_ (i - node1.matchLen)
                  else some idx) with
              | none => rfl
              | some idx1 =>
                simp only []
                cases hal : altIndexLoop fuel a.nodes node1.alternative i idx1 with
                | none => rfl
                | some idx2 =>
                  simp only []
                  rw [← ih (i + 1) node1 idx2]
                  cases indexesLoopLog a fuel input gas (i + 1) node1 idx2 with
                  | none => rfl
                  | some p => rfl
          | none =>
            simp only []
            cases hf : indexFailLoop fuel a.nodes node c with
            | none => rfl
            | some node1 =>
              simp only []
              rw [← ih _ node1 idx]
              cases indexesLoopLog a fuel input gas
                  ((if (mapGet node1.children c).isSome = true then i - 1 else i) + 1)
                  node1 idx with
              | none => rfl
              | some p => rfl
      · simp only [h0, if_false]
        rfl
    · simp only [hi, if_false]
      rfl

theorem IndexesLog_fst (a : ACAutomata T) (patterns : List (List T)) (input : List T) :
    (IndexesLog a patterns input).map Prod.fst = Indexes a patterns input := by
  unfold IndexesLog Indexes
  cases getNode a.nodes 0 with
  | none => rfl
  | some node => exact indexesLoopLog_fst a _ input _ 0 node _

/-- One iteration of the main loop that takes the direct-child branch, read off a result. -/
theorem indexesLoopLog_direct (a : ACAutomata T) (fuel : Nat) (input : List T) (gas : Nat)
    (i : Int) (node : Node T) (idx : List (List Int)) (c : T) (t : Int)
    (hi : i < input.length) (h0 : 0 ≤ i) (hci : input[i.toNat]? = some c)
    (hc : mapGet node.children c = some t) (r : List (List Int)) (tr : List Visit)
    (h : indexesLoopLog a fuel input (gas + 1) i node idx = some (r, tr)) :
    ∃ node1 idx2 log, indexesLoopLog a fuel input gas (i + 1) node1 idx2 = some (r, log) ∧
      tr = { pos := i, direct := true, dec := false } :: log := by
  rw [indexesLoopLog] at h
  simp only [hi, h0, if_true, hci, hc] at h
  cases hn : getNode a.nodes t with
  | none => simp [hn] at h
  | some node1 =>
    simp only [hn] at h
    cases hp : (if node1.match_ ≥ 0 then pushAt idx node1.match_ (i - node1.matchLen)
        else some idx) with
    | none => simp [hp] at h
    | some idx1 =>
      simp only [hp] at h
      cases hal : altIndexLoop fuel a.nodes node1.alternative i idx1 with
      | none => simp [hal] at h
      | some idx2 =>
        simp only [hal] at h
        cases hrec : indexesLoopLog a fuel input gas (i + 1) node1 idx2 with
        | none => simp [hrec] at h
        | some p =>
          obtain ⟨r1, log⟩ := p
          simp only [hrec, Option.some.injEq, Prod.mk.injEq] at h
          obtain ⟨h1, h2⟩ := h
          subst h1
          exact ⟨node1, idx2, log, hrec, h2.symm⟩

/-- The log of the main loop of `Indexes`, for any automaton: position by position, one
direct iteration, or a fallback iteration ending with `i--` and then a direct iteration at the
same position, or a fallback iteration that found no child. -/
theorem indexesLoopLog_blocks (a : ACAutomata T) (fuel : Nat) (input : List T)
    (rest : List T) :
    ∀ (u : List T) (gas : Nat) (node : Node T) (idx r : List (List Int)) (tr : List Visit),
      input = u ++ rest →
      indexesLoopLog a fuel input gas u.length node idx = some (r, tr) →
      Blocks u.length rest.length tr := by
  induction rest with
  | nil =>
    intro u gas node idx r tr hin h
    cases gas with
    | zero => simp [indexesLoopLog] at h
    | succ gas =>
      rw [indexesLoopLog] at h
      simp [hin] at h
      simp [Blocks, h.2.symm]
  | cons c rest ih =>
    intro u gas node idx r tr hin h
    have hi : (u.length : Int) < input.length := by
      rw [hin]; simp
    have h0 : (0 : Int) ≤ u.length := by omega
    have hci : input[(u.length : Int).toNat]? = some c := by
      rw [hin, Int.toNat_ofNat, List.getElem?_append_right (le_refl _)]
      simp
    have hin1 : input = (u ++ [c]) ++ rest := by rw [hin]; simp
    have hnext : ((u.length : Int) + 1) = ((u ++ [c]).length : Int) := by simp
    cases gas with
    | zero => simp [indexesLoopLog] at h
    | succ gas =>
      cases hc : mapGet node.children c with
      | some t =>
        obtain ⟨node1, idx2, log, hrec, htr⟩ :=
          indexesLoopLog_direct a fuel input gas _ node idx c t hi h0 hci hc r tr h
        rw [hnext] at hrec
        have := ih (u ++ [c]) gas node1 idx2 r log hin1 hrec
        rw [← hnext] at this
        exact ⟨log, Or.inl htr, this⟩
      | none =>
        rw [indexesLoopLog] at h
        simp only [hi, h0, if_true, hci, hc] at h
        cases hf : indexFailLoop fuel a.nodes node c with
        | none => simp [hf] at h
        | some node1 =>
          simp only [hf] at h
          cases hfound : mapGet node1.children c with
          | some t =>
            simp only [hfound, Option.isSome_some, if_true, Int.sub_add_cancel] at h
            cases hrec : indexesLoopLog a fuel input gas u.length node1 idx with
            | none => simp [hrec] at h
            | some p =>
              obtain ⟨r1, log⟩ := p
              simp only [hrec, Option.some.injEq, Prod.mk.injEq] at h
              obtain ⟨h1, h2⟩ := h
              subst h1
              cases gas with
              | zero => simp [indexesLoopLog] at hrec
              | succ gas =>
                obtain ⟨node2, idx2, log2, hrec2, htr2⟩ :=
                  indexesLoopLog_direct a fuel input gas _ node1 idx c t hi h0 hci hfound
                    r1 log hrec
                rw [hnext] at hrec2
                have := ih (u ++ [c]) gas node2 idx2 r1 log2 hin1 hrec2
                rw [← hnext] at this
                refine ⟨log2, Or.inr (Or.inl ?_), this⟩
                rw [← h2, htr2]
          | none =>
            simp only [hfound, Option.isSome_none, Bool.false_eq_true, if_false] at h
            cases hrec : indexesLoopLog a fuel input gas ((u.length : Int) + 1) node1 idx with
            | none => simp [hrec] at h
            | some p =>
              obtain ⟨r1, log⟩ := p
              simp only [hrec, Option.some.injEq, Prod.mk.injEq] at h
              obtain ⟨h1, h2⟩ := h
              subst h1
              rw [hnext] at hrec
              have := ih (u ++ [c]) gas node1 idx r1 log hin1 hrec
              rw [← hnext] at this
              exact ⟨log, Or.inr (Or.inr h2.symm), this⟩

/-! ### What the shape of the log gives -/

theorem Blocks.length_le : ∀ (n : Nat) (i : Int) (tr : List Visit), Blocks i n tr →
    tr.length ≤ 2 * n := by
  intro n
  induction n with
  | zero => intro i tr h; simp [Blocks] at h; simp [h]
  | succ n ih =>
    intro i tr h
    obtain ⟨rest, hh, hb⟩ := h
    have := ih _ _ hb
    rcases hh with h | h | h <;> (subst h; simp; omega)

theorem Blocks.pos_range : ∀ (n : Nat) (i : Int) (tr : List Visit), Blocks i n tr →
    ∀ v, v ∈ tr → i ≤ v.pos ∧ v.pos < i + n := by
  intro n
  induction n with
  | zero => intro i tr h v hv; simp [Blocks] at h; simp [h] at hv
  | succ n ih =>
    intro i tr h v hv
    obtain ⟨rest, hh, hb⟩ := h
    have hr := ih _ _ hb
    have key : v.pos = i ∨ v ∈ rest := by
      rcases hh with h | h | h
      · subst h
        rcases List.mem_cons.1 hv with h | h
        · exact Or.inl (by rw [h])
        · exact Or.inr h
      · subst h
        rcases List.mem_cons.1 hv with h | h
        · exact Or.inl (by rw [h])
        · rcases List.mem_cons.1 h with h | h
          · exact Or.inl (by rw [h])
          · exact Or.inr h
      · subst h
        rcases List.mem_cons.1 hv with h | h
        · exact Or.inl (by rw [h])
        · exact Or.inr h
    rcases key with h | h
    · rw [h]; push_cast; omega
    · have := hr v h
      push_cast
      omega

theorem Blocks.count_le : ∀ (n : Nat) (i : Int) (tr : List Visit), Blocks i n tr →
    ∀ j : Int, (tr.filter (fun v => decide (v.pos = j))).length ≤ 2 := by
  intro n
  induction n with
  | zero => intro i tr h j; simp [Blocks] at h; simp [h]
  | succ n ih =>
    intro i tr h j
    obtain ⟨rest, hh, hb⟩ := h
    have hr := ih _ _ hb j
    have hpos := Blocks.pos_range _ _ _ hb
    by_cases hj : i = j
    · have hz : rest.filter (fun v => decide (v.pos = j)) = [] := by
        rw [List.filter_eq_nil_iff]
        intro v hv
        have := hpos v hv
        simp only [decide_eq_true_eq]
        omega
      rcases hh with h | h | h <;> (subst h; simp [List.filter_cons, hj, hz])
    · rcases hh with h | h | h <;> (subst h; simp [List.filter_cons, hj]; exact hr)

theorem Blocks.dec_next : ∀ (n : Nat) (i : Int) (tr : List Visit), Blocks i n tr →
    ∀ (k : Nat) (v : Visit), tr[k]? = some v → v.dec = true →
      v.direct = false ∧ tr[k + 1]? = some { pos := v.pos, direct := true, dec := false } := by
  intro n
  induction n with
  | zero => intro i tr h k v hk; simp [Blocks] at h; simp [h] at hk
  | succ n ih =>
    intro i tr h k v hk hd
    obtain ⟨rest, hh, hb⟩ := h
    have hr := ih _ _ hb
    rcases hh with h | h | h
    · subst h
      cases k with
      | zero =>
        simp at hk
        subst hk
        simp at hd
      | succ k =>
        simp only [List.getElem?_cons_succ] at hk ⊢
        exact hr k v hk hd
    · subst h
      cases k with
      | zero =>
        simp at hk
        subst hk
        simp
      | succ k =>
        cases k with
        | zero =>
          simp at hk
          subst hk
          simp at hd
        | succ k =>
          simp only [List.getElem?_cons_succ] at hk ⊢
          exact hr k v hk hd
    · subst h
      cases k with
      | zero =>
        simp at hk
        subst hk
        simp at hd
      | succ k =>
        simp only [List.getElem?_cons_succ] at hk ⊢
        exact hr k v hk hd

/-- The first iteration of the main loop, started at position 0 in the root, does not end
with `i--`. -/
theorem indexesLoopLog_head (a : ACAutomata T) (fuel : Nat) (input : List T) (gas : Nat)
    (node : Node T) (idx r : List (List Int)) (tr : List Visit) (hid : node.id = 0)
    (h : indexesLoopLog a (fuel + 1) input gas 0 node idx = some (r, tr)) :
    ∀ v, tr[0]? = some v → v.dec = false := by
  cases gas with
  | zero => simp [indexesLoopLog] at h
  | succ gas =>
    by_cases hi : (0 : Int) < input.length
    · cases hci : input[(0 : Int).toNat]? with
      | none =>
        rw [indexesLoopLog] at h
        simp only [hi, le_refl, if_true, hci] at h
        cases h
      | some c =>
        cases hc : mapGet node.children c with
        | some t =>
          obtain ⟨_, _, log, _, htr⟩ :=
            indexesLoopLog_direct a (fuel + 1) input gas 0 node idx c t hi (le_refl _) hci hc
              r tr h
          intro v hv
          rw [htr] at hv
          simp only [List.getElem?_cons_zero, Option.some.injEq] at hv
          rw [← hv]
        | none =>
          rw [indexesLoopLog] at h
          have hf : indexFailLoop (fuel + 1) a.nodes node c = some node := by
            simp [indexFailLoop, hid]
          simp only [hi, le_refl, if_true, hci, hc, hf, Option.isSome_none,
            Bool.false_eq_true, if_false] at h
          cases hrec : indexesLoopLog a (fuel + 1) input gas (0 + 1) node idx with
          | none => rw [hrec] at h; cases h
          | some p =>
            obtain ⟨r1, log⟩ := p
            rw [hrec] at h
            simp only [Option.some.injEq, Prod.mk.injEq] at h
            intro v hv
            rw [← h.2] at hv
            simp only [List.getElem?_cons_zero, Option.some.injEq] at hv
            rw [← hv]
    · rw [indexesLoopLog] at h
      simp only [hi, if_false, Option.some.injEq, Prod.mk.injEq] at h
      intro v hv
      rw [← h.2] at hv
      simp at hv

theorem Blocks.dec_pos (n : Nat) (i : Int) (tr : List Visit) (hb : Blocks i n tr)
    (hhead : ∀ v, tr[0]? = some v → v.dec = false) :
    ∀ v, v ∈ tr → v.dec = true → i + 1 ≤ v.pos := by
  cases n with
  | zero => intro v hv; simp [Blocks] at hb; simp [hb] at hv
  | succ n =>
    obtain ⟨rest, hh, hr⟩ := hb
    have hpos := Blocks.pos_range _ _ _ hr
    intro v hv hd
    rcases hh with h | h | h
    · subst h
      rcases List.mem_cons.1 hv with e | e
      · subst e; simp at hd
      · exact (hpos v e).1
    · subst h
      have := hhead { pos := i, direct := false, dec := true } rfl
      simp at this
    · subst h
      rcases List.mem_cons.1 hv with e | e
      · subst e; simp at hd
      · exact (hpos v e).1

/-- The main loop of `Indexes` on a built automaton: it returns, its log has the shape
`Blocks`, and an iteration that ends with `i--` stands at a position `i >= 1`. -/
theorem IndexesLog_spec {nodes : List (Node T)} {P : List (List T)} (hB : Built nodes P)
    (S : List T) :
    ∃ idx tr, IndexesLog { nodes := nodes } P S = some (idx, tr) ∧
      Indexes { nodes := nodes } P S = some idx ∧ Blocks 0 S.length tr ∧
      ∀ v, v ∈ tr → v.dec = true → 1 ≤ v.pos := by
  obtain ⟨idx, hi, _, _⟩ := Indexes_spec hB S
  have hfst := IndexesLog_fst { nodes := nodes } P S
  rw [hi] at hfst
  cases hl : IndexesLog { nodes := nodes } P S with
  | none => rw [hl] at hfst; simp at hfst
  | some p =>
    obtain ⟨r, tr⟩ := p
    rw [hl] at hfst
    simp at hfst
    subst hfst
    unfold IndexesLog at hl
    cases hr : getNode nodes 0 with
    | none => simp [hr] at hl
    | some root =>
      simp only [hr] at hl
      have hb := indexesLoopLog_blocks { nodes := nodes } _ S S [] _ root _ r tr rfl hl
      have hhead := indexesLoopLog_head { nodes := nodes } _ S _ root _ r tr
        (hB.trie.ids 0 root hr) hl
      have hdec := Blocks.dec_pos _ _ _ hb hhead
      refine ⟨r, tr, rfl, hi, hb, ?_⟩
      · intro v hv hd
        have := hdec v hv hd
        simpa using this

end IndexesTrace

end aca

namespace aca

/-! ## The log of the failure-link pass -/

section LinkLog

variable {T : Type} [DecidableEq T]

/-- Dropping the step count from `suffixSearchSteps` gives `suffixSearch`. -/
theorem suffixSearchSteps_fst (nodes : List (Node T)) (a : T) :
    ∀ (fuel : Nat) (temp : Int),
      (suffixSearchSteps fuel nodes temp a).map Prod.fst = suffixSearch fuel nodes temp a := by
  intro fuel
  induction fuel with
  | zero => intro temp; rfl
  | succ fuel ih =>
    intro temp
    rw [suffixSearchSteps, suffixSearch]
    cases hg : getNode nodes temp with
    | none => rfl
    | some t =>
      simp only []
      cases hnext : (if (!(mapGet t.children a).isSome && decide (temp ≠ 0)) = true
          then (getNode nodes t.fail).map (fun _ => t.fail) else some temp) with
      | none => rfl
      | some temp1 =>
        simp only []
        by_cases hc : (temp1 = 0 || (mapGet t.children a).isSome) = true
        · simp only [hc, if_true]
          rfl
        · simp only [hc, if_false]
          rw [← ih temp1]
          cases suffixSearchSteps fuel nodes temp1 a with
          | none => rfl
          | some p => rfl

/-- The suffix search makes at most as many fail steps as its start node is deep. -/
theorem suffixSearchSteps_le {nodes : List (Node T)} (D : Nat)
    (hF : ∀ x v n, walk nodes x = some v → x.length ≤ D → getNode nodes v = some n →
      walk nodes (lsuf nodes x.tail) = some n.fail)
    (a : T) :
    ∀ (fuel : Nat) (x : List T) (temp r : Int) (k : Nat), walk nodes x = some temp →
      x.length ≤ D → suffixSearchSteps fuel nodes temp a = some (r, k) → k ≤ x.length := by
  intro fuel
  induction fuel with
  | zero => intro x temp r k _ _ h; simp [suffixSearchSteps] at h
  | succ fuel ih =>
    intro x temp r k hw hD h
    rw [suffixSearchSteps] at h
    cases hg : getNode nodes temp with
    | none => simp [hg] at h
    | some t =>
      simp only [hg] at h
      by_cases hmoved : (!(mapGet t.children a).isSome && decide (temp ≠ 0)) = true
      · simp only [hmoved, if_true] at h
        have hne : temp ≠ 0 := by
          simp only [Bool.and_eq_true, decide_eq_true_eq] at hmoved
          exact hmoved.2
        have hx := walk_ne_root hw hne
        have hlen := tail_length_lt hx
        have hl := lsuf_length_le nodes x.tail
        cases hf : getNode nodes t.fail with
        | none => simp [hf] at h
        | some f =>
          simp only [hf, Option.map_some'] at h
          by_cases hc : (t.fail = 0 || (mapGet t.children a).isSome) = true
          · simp only [hc, if_true, Option.some.injEq, Prod.mk.injEq] at h
            omega
          · have hc2 : (decide (t.fail = 0) || (mapGet t.children a).isSome) = false := by
              simpa using hc
            simp only [hc2, Bool.false_eq_true, if_false] at h
            cases hrec : suffixSearchSteps fuel nodes t.fail a with
            | none => simp [hrec] at h
            | some p =>
              obtain ⟨r1, n⟩ := p
              simp only [hrec, Option.some.injEq, Prod.mk.injEq] at h
              have := ih (lsuf nodes x.tail) t.fail r1 n (hF x temp t hw hD hg) (by omega) hrec
              omega
      · have hm2 : (!(mapGet t.children a).isSome && decide (temp ≠ 0)) = false := by
          simpa using hmoved
        simp only [hm2, Bool.false_eq_true, if_false] at h
        have hc : (temp = 0 || (mapGet t.children a).isSome) = true := by
          simp only [Bool.and_eq_true, decide_eq_true_eq, not_and, Bool.not_eq_true',
            Bool.or_eq_true] at hmoved ⊢
          by_cases h0 : temp = 0
          · exact Or.inl h0
          · right
            cases hh : (mapGet t.children a).isSome with
            | true => rfl
            | false => exact absurd (hmoved hh) (by simpa using h0)
        simp only [hc, if_true, Option.some.injEq, Prod.mk.injEq] at h
        omega

/-- Dropping the step counts from `linkChildrenLog` gives `linkChildren`. -/
theorem linkChildrenLog_fst (fuel : Nat) (cur : Int) (cs : List Int) :
    ∀ (nodes : List (Node T)) (queue : List Int) (steps : List Nat),
      (linkChildrenLog fuel cur cs nodes queue steps).map (fun r => (r.1, r.2.1)) =
        linkChildren fuel cur cs nodes queue := by
  induction cs with
  | nil => intro nodes queue steps; rfl
  | cons c rest ih =>
    intro nodes queue steps
    rw [linkChildrenLog, linkChildren]
    cases hchild : getNode nodes c with
    | none => rfl
    | some child =>
      simp only []
      cases hcurN : getNode nodes cur with
      | none => rfl
      | some curN =>
        simp only []
        cases hf : getNode nodes curN.fail with
        | none => rfl
        | some f =>
          simp only []
          rw [← suffixSearchSteps_fst nodes child.data fuel curN.fail]
          cases hss : suffixSearchSteps fuel nodes curN.fail child.data with
          | none => rfl
          | some p =>
            obtain ⟨temp, k⟩ := p
            simp only [Option.map_some']
            cases ht : getNode nodes temp with
            | none => rfl
            | some t =>
              simp only []
              cases hroot : getNode nodes 0 with
              | none => rfl
              | some root =>
                simp only []
                cases hupd : updNode nodes c
                    (fun n => { n with fail := failTarget t root child.data }) with
                | none => rfl
                | some nodes1 =>
                  simp only []
                  exact ih nodes1 (queue ++ [child.id]) (steps ++ [k])

/-- The step counts logged by the loop over the children of the node `cur`: one for each
child, each smaller than the depth of `cur`. -/
theorem linkChildrenLog_steps {cur : Int} {wcur : List T} (hne : wcur ≠ []) (fuel : Nat)
    (cs : List Int) :
    ∀ (nodes : List (Node T)) (queue : List Int) (steps : List Nat), Trie nodes →
      walk nodes wcur = some cur →
      (∀ c, c ∈ cs → ∃ a, childOf nodes cur a = some c) →
      FailAt nodes cur →
      (∀ x v, walk nodes x = some v → x.length < wcur.length → FailAt nodes v) →
      ∀ (nodes1 : List (Node T)) (queue1 : List Int) (steps1 : List Nat),
        linkChildrenLog fuel cur cs nodes queue steps = some (nodes1, queue1, steps1) →
        ∃ ks, steps1 = steps ++ ks ∧ ks.length = cs.length ∧ ∀ k, k ∈ ks → k < wcur.length := by
  induction cs with
  | nil =>
    intro nodes queue steps _ _ _ _ _ nodes1 queue1 steps1 h
    simp only [linkChildrenLog, Option.some.injEq, Prod.mk.injEq] at h
    exact ⟨[], by simp [h.2.2], rfl, fun k hk => by cases hk⟩
  | cons c rest ih =>
    intro nodes queue steps hT hwcur hcs hFcur hF nodes1 queue1 steps1 h
    obtain ⟨a, hca⟩ := hcs c (List.mem_cons_self _ _)
    have hwc : walk nodes (wcur ++ [a]) = some c := by
      rw [walk_concat_of a hwcur]; exact hca
    obtain ⟨child, hchild⟩ := hT.node_of_walk hwc
    obtain ⟨curN, hcurN⟩ := hT.node_of_walk hwcur
    have hfc := hFcur wcur curN hwcur hcurN
    obtain ⟨fN, hfN⟩ := hT.node_of_walk hfc
    have hx0 : (lsuf nodes wcur.tail).length < wcur.length := by
      have := lsuf_length_le nodes wcur.tail
      have := tail_length_lt hne
      omega
    rw [linkChildrenLog] at h
    simp only [hchild, hcurN, hfN] at h
    cases hss : suffixSearchSteps fuel nodes curN.fail child.data with
    | none => simp [hss] at h
    | some p =>
      obtain ⟨temp, k⟩ := p
      simp only [hss] at h
      have hk : k ≤ (lsuf nodes wcur.tail).length :=
        suffixSearchSteps_le (wcur.length - 1)
          (fun x v n hx hl hn => hF x v hx (by omega) x n hx hn) child.data fuel
          (lsuf nodes wcur.tail) curN.fail temp k hfc (by omega) hss
      cases ht : getNode nodes temp with
      | none => simp [ht] at h
      | some t =>
        simp only [ht] at h
        cases hroot : getNode nodes 0 with
        | none => simp [hroot] at h
        | some root =>
          simp only [hroot] at h
          cases hupd : updNode nodes c
              (fun n => { n with fail := failTarget t root child.data }) with
          | none => simp [hupd] at h
          | some nodesA =>
            simp only [hupd] at h
            have hshape : SameShape nodes nodesA :=
              updNode_shape hupd (fun _ => ⟨rfl, rfl, rfl⟩)
            have hT1 := hT.trieOfShape hshape
            have hcne := walk_child_ne hT hwcur hca
            have hsameFail : ∀ v, v ≠ c → ∀ n n1, getNode nodes v = some n →
                getNode nodesA v = some n1 → n1.fail = n.fail := by
              intro v hv n n1 hn h1
              rw [updNode_other hupd hv, hn] at h1
              cases h1; rfl
            obtain ⟨ks, h1, h2, h3⟩ :=
              ih nodesA (queue ++ [child.id]) (steps ++ [k]) hT1
                (by rw [hshape.walk]; exact hwcur)
                (fun c1 hc1 => by
                  obtain ⟨a1, ha1⟩ := hcs c1 (List.mem_cons_of_mem _ hc1)
                  exact ⟨a1, by rw [hshape.childOf]; exact ha1⟩)
                (hFcur.failOfSame hshape (hsameFail cur (fun h => hcne.1 h.symm)))
                (fun x v hx hl => by
                  rw [hshape.walk] at hx
                  refine (hF x v hx hl).failOfSame hshape (hsameFail v ?_)
                  intro h
                  subst h
                  have := hT.inj _ _ _ hx hwc
                  subst this
                  simp at hl)
                nodes1 queue1 steps1 h
            refine ⟨k :: ks, by rw [h1]; simp, by simp [h2], ?_⟩
            intro k1 hk1
            rcases List.mem_cons.1 hk1 with e | e
            · rw [e]; omega
            · exact h3 k1 e

/-- What the invariant gives when the node `cur` is popped: the failure links of the nodes
that are not deeper than `cur` and the alternative links of the nodes less deep than `cur`
satisfy their equations. -/
theorem LinkInv.level {nodes0 nodes : List (Node T)} {path : Int → List T}
    {done rest : List Int} {cur : Int} (hp : PathFn nodes0 path)
    (inv : LinkInv nodes0 nodes path done (cur :: rest)) :
    (∀ w v, walk nodes0 w = some v → w.length ≤ (path cur).length → FailAt nodes v) ∧
    (∀ w v, walk nodes0 w = some v → w ≠ [] → w.length < (path cur).length →
      AltAt nodes v) := by
  have hT0 := hp.trie
  have hT : Trie nodes := hT0.trieOfShape inv.shape
  have hshallow : ∀ v : Int, 0 < v → v < nodes0.length →
      (path v).length < (path cur).length → v ∈ done :=
    fun v h0 h1 hl => inv.shallow_done hp (path v).length v h0 h1 (le_refl _) hl
  constructor
  · intro w v hw hl
    have hv := hT0.depth _ _ hw
    have hpv := hp.eq hw
    by_cases h0 : v = 0
    · subst h0
      exact failAt_root hT (fun r hr => (inv.rootFail r hr).1)
    · by_cases hlt : w.length < (path cur).length
      · exact inv.failOK v (List.mem_append_left _
          (hshallow v (by omega) hv.2.1 (by rw [hpv]; exact hlt)))
      · obtain ⟨u, a, hc, hu0, hu1⟩ := hp.parent (by omega : 0 < v) hv.2.1
        have hch := hp.child hc
        have hul : (path u).length < (path cur).length := by
          have : (path v).length = (path u).length + 1 := by rw [hch]; simp
          rw [hpv] at this
          omega
        have hmem : u = 0 ∨ u ∈ done := by
          by_cases hu : u = 0
          · exact Or.inl hu
          · exact Or.inr (hshallow u (by omega) hu1 hul)
        exact inv.failOK v ((inv.front u a v hc).2 hmem)
  · intro w v hw hne hl
    have hv := hT0.depth _ _ hw
    have hpv := hp.eq hw
    have h0 : v ≠ 0 := by
      intro h
      subst h
      exact hne (walk_eq_root hT0 hw)
    exact inv.altOK v (hshallow v (by omega) hv.2.1 (by rw [hpv]; exact hl))

/-- What the loop over the children of `cur` needs from the invariant. -/
theorem LinkInv.ready (o : MapOrder T) {nodes0 nodes : List (Node T)} {path : Int → List T}
    {done rest : List Int} {cur : Int} (hp : PathFn nodes0 path)
    (inv : LinkInv nodes0 nodes path done (cur :: rest)) :
    Trie nodes ∧ walk nodes (path cur) = some cur ∧ path cur ≠ [] ∧ FailAt nodes cur ∧
      (∀ x v, walk nodes x = some v → x.length < (path cur).length → FailAt nodes v) ∧
      ∀ curN, getNode nodes cur = some curN →
        ∀ c, c ∈ (o.enum curN.children).map Prod.snd → ∃ a, childOf nodes cur a = some c := by
  have hT0 := hp.trie
  have hT : Trie nodes := hT0.trieOfShape inv.shape
  have hcurv := inv.valid cur (by simp)
  have hwcur0 := hp.onPath cur (by omega) hcurv.2
  have hwcur : walk nodes (path cur) = some cur := by rw [inv.shape.walk]; exact hwcur0
  refine ⟨hT, hwcur, hp.ne_nil hcurv.1 hcurv.2, inv.failOK cur (by simp), ?_, ?_⟩
  · intro x v hx hl
    rw [inv.shape.walk] at hx
    exact (inv.level hp).1 x v hx (by omega)
  · intro curN hcurN c hc
    exact ((enum_children hT o hcurN).1 c).1 hc

/-- Dropping the log from `linkLoopLog` gives `linkLoop`. -/
theorem linkLoopLog_fst (o : MapOrder T) :
    ∀ (fuel : Nat) (nodes : List (Node T)) (q : List Int),
      (linkLoopLog o fuel nodes q).map Prod.fst = linkLoop o fuel nodes q := by
  intro fuel
  induction fuel with
  | zero => intro nodes q; rfl
  | succ fuel ih =>
    intro nodes q
    cases q with
    | nil => rfl
    | cons id failQueue =>
      rw [linkLoopLog, linkLoop]
      cases hcurN : getNode nodes id with
      | none => rfl
      | some curN =>
        simp only []
        rw [← linkChildrenLog_fst (nodes.length + 1) id _ nodes failQueue []]
        cases hl : linkChildrenLog (nodes.length + 1) id
            ((o.enum curN.children).map Prod.snd) nodes failQueue [] with
        | none => rfl
        | some p =>
          obtain ⟨nodes1, queue1, steps⟩ := p
          simp only [Option.map_some']
          cases hsa : setAlternative nodes1 id with
          | none => rfl
          | some nodes2 =>
            simp only []
            rw [← ih nodes2 queue1]
            cases linkLoopLog o fuel nodes2 queue1 with
            | none => rfl
            | some p2 => rfl

/-- The log of the queue loop: the popped ids are the queue followed by what the rounds
appended, every round starts in a state that satisfies the invariant with its node at the head
of the queue, and every suffix search of a round makes fewer fail steps than its node is
deep. -/
theorem linkLoopLog_spec (o : MapOrder T) {nodes0 : List (Node T)} {path : Int → List T}
    (hp : PathFn nodes0 path) :
    ∀ (fuel : Nat) (nodes : List (Node T)) (done q : List Int) (nodes3 : List (Node T))
      (log : List (Round T)), LinkInv nodes0 nodes path done q →
      linkLoopLog o fuel nodes q = some (nodes3, log) →
      log.map Round.cur = q ++ pushedAll log ∧
      LinkInv nodes0 nodes3 path (done ++ (q ++ pushedAll log)) [] ∧
      ∀ r, r ∈ log →
        (∃ d2 q2, LinkInv nodes0 r.before path d2 (r.cur :: q2)) ∧
        r.steps.length = r.pushed.length ∧
        ∀ k, k ∈ r.steps → k < (path r.cur).length := by
  intro fuel
  induction fuel with
  | zero => intro nodes done q nodes3 log _ h; simp [linkLoopLog] at h
  | succ fuel ih =>
    intro nodes done q nodes3 log inv h
    cases q with
    | nil =>
      simp only [linkLoopLog, Option.some.injEq, Prod.mk.injEq] at h
      obtain ⟨h1, h2⟩ := h
      subst h1 h2
      refine ⟨by simp [pushedAll], by simpa [pushedAll] using inv, ?_⟩
      intro r hr
      cases hr
    | cons cur rest =>
      obtain ⟨curN, nodes1, nodes2, hcurN, hl1, hsa, inv2⟩ := linkLoop_round o hp inv
      obtain ⟨hT, hwcur, hne, hFcur, hF, hcs⟩ := inv.ready o hp
      rw [linkLoopLog] at h
      simp only [hcurN] at h
      have hfst := linkChildrenLog_fst (nodes.length + 1) cur
        ((o.enum curN.children).map Prod.snd) nodes rest []
      rw [hl1] at hfst
      cases hl : linkChildrenLog (nodes.length + 1) cur
          ((o.enum curN.children).map Prod.snd) nodes rest [] with
      | none => rw [hl] at hfst; simp at hfst
      | some p =>
        obtain ⟨nodesL, queue1, steps⟩ := p
        rw [hl] at hfst
        simp only [Option.map_some', Option.some.injEq, Prod.mk.injEq] at hfst
        obtain ⟨e1, e2⟩ := hfst
        subst e1 e2
        obtain ⟨ks, hk1, hk2, hk3⟩ :=
          linkChildrenLog_steps hne (nodes.length + 1) _ nodes rest [] hT hwcur
            (hcs curN hcurN) hFcur hF _ _ _ hl
        simp only [hl, hsa] at h
        cases hrec : linkLoopLog o fuel nodes2
            (rest ++ (o.enum curN.children).map Prod.snd) with
        | none => simp [hrec] at h
        | some p2 =>
          obtain ⟨nodesR, log1⟩ := p2
          simp only [hrec, Option.some.injEq, Prod.mk.injEq] at h
          obtain ⟨h1, h2⟩ := h
          subst h1 h2
          obtain ⟨i1, i2, i3⟩ := ih nodes2 (done ++ [cur])
            (rest ++ (o.enum curN.children).map Prod.snd) nodesR log1 inv2 hrec
          refine ⟨?_, ?_, ?_⟩
          · simp [pushedAll, i1]
          · simpa [pushedAll] using i2
          · intro r hr
            rcases List.mem_cons.1 hr with e | e
            · subst e
              refine ⟨⟨done, rest, inv⟩, ?_, ?_⟩
              · simp [hk1, hk2]
              · intro k hk
                simp only [hk1, List.nil_append] at hk
                exact hk3 k hk
            · exact i3 r e

/-- The failure-link pass of `New` with its log, on the trie of the pattern list. -/
theorem NewLog_spec [Inhabited T] (o : MapOrder T) (P : List (List T)) :
    ∃ nodes0 path a seeds log, buildTrie P = some nodes0 ∧ PathFn nodes0 path ∧
      NewLog o P = some (a, seeds, log) ∧ New o P = some a ∧ Built a.nodes P ∧
      log.map Round.cur = received seeds log ∧
      LinkInv nodes0 a.nodes path (received seeds log) [] ∧
      ∀ r, r ∈ log →
        (∃ d2 q2, LinkInv nodes0 r.before path d2 (r.cur :: q2)) ∧
        r.steps.length = r.pushed.length ∧
        ∀ k, k ∈ r.steps → k < (path r.cur).length := by
  obtain ⟨nodes0, hb, hT, _, _⟩ := buildTrie_spec P
  obtain ⟨path, hp⟩ := PathFn.exists hT
  obtain ⟨root, nodesA, nodesB, hroot, hupd, hseed, inv⟩ :=
    seedQueue_inv o hp (buildTrie_rootAlt hb)
  obtain ⟨nodes1, done1, hloop, _⟩ :=
    linkLoop_spec o hp (nodes0.length + 1) nodesB [] _ inv (by simp)
  have hfst := linkLoopLog_fst o (nodes0.length + 1) nodesB
    ((o.enum root.children).map Prod.snd)
  rw [hloop] at hfst
  cases hl : linkLoopLog o (nodes0.length + 1) nodesB
      ((o.enum root.children).map Prod.snd) with
  | none => rw [hl] at hfst; simp at hfst
  | some p =>
    obtain ⟨nodesR, log⟩ := p
    rw [hl] at hfst
    simp only [Option.map_some', Option.some.injEq] at hfst
    subst hfst
    obtain ⟨i1, i2, i3⟩ := linkLoopLog_spec o hp _ _ _ _ _ _ inv hl
    have hnew : New o P = some { nodes := nodesR } := by
      unfold New
      simp only [hb]
      unfold linkFailures
      simp only [hroot, hupd, hseed, hloop]
    obtain ⟨a, ha, hB⟩ := New_spec o P
    rw [hnew] at ha
    cases ha
    refine ⟨nodes0, path, { nodes := nodesR }, (o.enum root.children).map Prod.snd, log, hb,
      hp, ?_, hnew, hB, i1, by simpa [received] using i2, i3⟩
    unfold NewLog
    simp only [hb]
    unfold linkFailuresLog
    simp only [hroot, hupd, hseed, hl]

end LinkLog

end aca

namespace aca

/-! ## The claims on the construction and on termination -/

section ClaimsBuild

variable {T : Type} [DecidableEq T]

/-- C11: `New(P)` succeeds and returns the same automaton (the same node slice, hence the same
`id`, `children`, `fail`, `alternative`, `match` and `matchLen` of every node) for any two
enumeration orders `o1`, `o2` of the children maps in the failure-link pass; so `Counts(P, S)`
and `Indexes(P, S)` return, with the same results, on the two builds. -/
theorem New_order_independent [Inhabited T] (o1 o2 : MapOrder T) (P : List (List T)) :
    ∃ a, New o1 P = some a ∧ New o2 P = some a ∧
      ∀ S : List T, ∃ m idx,
        (New o1 P).bind (fun a1 => Counts a1 P S) = some m ∧
        (New o2 P).bind (fun a2 => Counts a2 P S) = some m ∧
        (New o1 P).bind (fun a1 => Indexes a1 P S) = some idx ∧
        (New o2 P).bind (fun a2 => Indexes a2 P S) = some idx := by
  obtain ⟨⟨nodes⟩, ha, hB⟩ := New_spec o1 P
  have h2 : New o2 P = some { nodes := nodes } := by rw [New_order o2 o1 P]; exact ha
  refine ⟨_, ha, h2, ?_⟩
  intro S
  obtain ⟨m, hm, _, _⟩ := Counts_spec hB S
  obtain ⟨idx, hi, _, _⟩ := Indexes_spec hB S
  refine ⟨m, idx, ?_, ?_, ?_, ?_⟩
  · rw [ha]; exact hm
  · rw [h2]; exact hm
  · rw [ha]; exact hi
  · rw [h2]; exact hi

/-- The two orders `insertion` and `reversed` make the queue loop of `New` pop the nodes of
the trie of `TestWithStrings` in different orders. -/
theorem NewLog_orders_differ :
    (NewLog (MapOrder.insertion Nat) testPatterns).map (fun r => r.2.1) =
      some [1, 7, 15, 18, 20] ∧
    (NewLog (MapOrder.reversed Nat) testPatterns).map (fun r => r.2.1) =
      some [20, 18, 15, 7, 1] := by
  constructor <;> decide

/-- C12: for a pattern list `P` all of whose patterns have length 0 (the empty list included)
`New(P)` returns an automaton with exactly one node, the root, with id 0, fail 0, alternative
-1 and match -1; `Next(0, P, c)` returns the empty match list and the state 0 for every atom
`c`; for every input `S`, `Counts` returns `len(P)` zeros and `Indexes` returns `len(P)` empty
lists. -/
theorem New_of_empty_patterns [Inhabited T] (o : MapOrder T) (P : List (List T))
    (h : ∀ p, p ∈ P → p = []) :
    ∃ a root, New o P = some a ∧ a.nodes = [root] ∧ root.id = 0 ∧ root.fail = 0 ∧
      root.alternative = -1 ∧ root.match_ = -1 ∧ root.children = [] ∧
      (∀ c, Next a 0 P c = some ([], 0)) ∧
      ∀ S : List T, Counts a P S = some (List.replicate P.length 0) ∧
        Indexes a P S = some (List.replicate P.length []) := by
  refine ⟨_, { rootNode T with fail := 0 }, New_allEmpty o h, rfl, rfl, rfl, rfl, rfl, rfl,
    fun c => Next_rootOnly P c, ?_⟩
  intro S
  refine ⟨countsLoop_rootOnly P S _, ?_⟩
  unfold Indexes
  have hg : getNode [({ rootNode T with fail := 0 } : Node T)] 0 =
      some { rootNode T with fail := 0 } := by simp [getNode]
  simp only [hg]
  have := indexesLoop_rootOnly S S [] (2 * S.length + 1) (List.replicate P.length [])
    (by simp) (by omega)
  simpa using this

/-- C12 on the empty pattern list and on a list of two zero-length patterns, with the input of
`TestWithStrings`. -/
theorem New_of_empty_patterns_witness :
    (∀ p, p ∈ testAllEmpty → p = []) ∧
    (New (MapOrder.insertion Nat) testAllEmpty).bind
        (fun a => Counts a testAllEmpty testInput) = some [0, 0] ∧
    (New (MapOrder.insertion Nat) ([] : List (List Nat))).bind
        (fun a => Indexes a [] testInput) = some [] ∧
    ∃ a root, New (MapOrder.insertion Nat) testAllEmpty = some a ∧ a.nodes = [root] ∧
      root.id = 0 ∧ root.fail = 0 ∧ root.alternative = -1 ∧ root.match_ = -1 ∧
      root.children = [] ∧
      (∀ c, Next a 0 testAllEmpty c = some ([], 0)) ∧
      ∀ S : List Nat, Counts a testAllEmpty S = some (List.replicate testAllEmpty.length 0) ∧
        Indexes a testAllEmpty S = some (List.replicate testAllEmpty.length []) :=
  ⟨by decide, by decide, by decide,
    New_of_empty_patterns (MapOrder.insertion Nat) testAllEmpty (by decide)⟩

/-- C13: in `New(P)` the root has `fail == 0`; every node has exactly one path from the root;
for a node `v` with the non-empty path `w`, the node `fail(v)` has a path `x` that is a proper
suffix of `w`, and every proper suffix of `w` that is the path of a node is at most as long as
`x`; when no non-empty proper suffix of `w` is a path, and in particular when `v` has depth 1,
`fail(v)` is the root. -/
theorem fail_invariant [Inhabited T] (o : MapOrder T) (P : List (List T)) :
    ∃ a, New o P = some a ∧
      (∃ r, getNode a.nodes 0 = some r ∧ r.fail = 0) ∧
      (∀ v n, getNode a.nodes v = some n →
        ∃ w, walk a.nodes w = some v ∧ (v ≠ 0 → w ≠ []) ∧
          ∀ w2, walk a.nodes w2 = some v → w2 = w) ∧
      ∀ (w : List T) (v : Int) (n : Node T), walk a.nodes w = some v → w ≠ [] →
        getNode a.nodes v = some n →
        ∃ x, walk a.nodes x = some n.fail ∧ (∀ x2, walk a.nodes x2 = some n.fail → x2 = x) ∧
          x <:+ w ∧ x.length < w.length ∧
          (∀ y, y <:+ w → y.length < w.length → (walk a.nodes y).isSome →
            y.length ≤ x.length) ∧
          ((∀ y, y <:+ w → y.length < w.length → y ≠ [] → walk a.nodes y = none) →
            n.fail = 0) ∧
          (w.length = 1 → n.fail = 0) := by
  obtain ⟨⟨nodes⟩, ha, hB⟩ := New_spec o P
  have hB : Built nodes P := hB
  obtain ⟨r, hr⟩ := hB.trie.hasRoot
  refine ⟨_, ha, ⟨r, hr, root_fail hB hr⟩, ?_, ?_⟩
  · intro v n hn
    obtain ⟨w, hw⟩ := hB.trie.reach v n hn
    refine ⟨w, hw, ?_, fun w2 hw2 => hB.trie.inj _ _ _ hw2 hw⟩
    intro hv
    exact walk_ne_root hw hv
  · intro w v n hw hne hn
    obtain ⟨h1, h2, h3, h4⟩ := fail_longest hB hw hne hn
    have hroot : lsuf nodes w.tail = [] → n.fail = 0 := by
      intro he
      rw [he, walk_nil] at h1
      exact (Option.some.inj h1).symm
    refine ⟨lsuf nodes w.tail, h1, fun x2 hx2 => hB.trie.inj _ _ _ hx2 h1, h2, h3,
      fun y hy hl hs => (h4 y hy hl hs).length_le, ?_, ?_⟩
    · intro hnone
      apply hroot
      by_contra hx
      have := hnone _ h2 h3 hx
      rw [h1] at this
      cases this
    · intro hl1
      have hz : (lsuf nodes w.tail).length = 0 := by omega
      exact hroot (List.length_eq_zero.1 hz)

/-- C14: in `New(P)`, for every node `v` (the root and the nodes created with the field at its
zero value included), `alternative(v)` is the result of the search `firstMarked` from
`fail(v)`: the first node `u` on the chain `fail(v), fail(fail(v)), ...` with `match(u) >= 0`,
and `-1` if no node on that chain up to and including the root has `match >= 0`. So
`alternative(v)` is `-1` or the id of a node with `match >= 0`, and `alternative(root) == -1`. -/
theorem alternative_invariant [Inhabited T] (o : MapOrder T) (P : List (List T)) :
    ∃ a, New o P = some a ∧
      (∃ r, getNode a.nodes 0 = some r ∧ r.alternative = -1) ∧
      ∀ v n, getNode a.nodes v = some n →
        (∀ fuel, a.nodes.length ≤ fuel →
          firstMarked a.nodes fuel n.fail = some n.alternative) ∧
        (n.alternative = -1 ∨
          ∃ m, getNode a.nodes n.alternative = some m ∧ m.match_ ≥ 0) := by
  obtain ⟨⟨nodes⟩, ha, hB⟩ := New_spec o P
  obtain ⟨r, hr⟩ := hB.trie.hasRoot
  refine ⟨_, ha, ⟨r, hr, hB.linked.altRoot r hr⟩, ?_⟩
  intro v n hn
  refine ⟨fun fuel hf => alternative_firstMarked hB hn fuel hf, ?_⟩
  obtain ⟨w, hw⟩ := hB.trie.reach v n hn
  rcases alternative_depth hB hw hn with h | ⟨y, m, _, _, h3, h4⟩
  · exact Or.inl h
  · exact Or.inr ⟨m, h3, h4⟩

/-- C15: the nodes of `New(P)` correspond one to one to the distinct prefixes of the patterns
of `P`, the empty prefix (the root, at index 0) included: `nodes[k].id == k`; every node has
exactly one path from the root, and this path is empty or a prefix of a pattern (a prefix of a
pattern whenever `P` is not empty); every prefix of every pattern is the path of a node (of
one node, `walk` being a function); `children(v)[a]` is the node whose path is the path of `v`
followed by `a`. -/
theorem trie_shape [Inhabited T] (o : MapOrder T) (P : List (List T)) :
    ∃ a, New o P = some a ∧
      walk a.nodes [] = some 0 ∧
      (∀ (k : Nat) (n : Node T), a.nodes[k]? = some n → n.id = (k : Int)) ∧
      (∀ v n, getNode a.nodes v = some n →
        ∃ w, walk a.nodes w = some v ∧ (∀ w2, walk a.nodes w2 = some v → w2 = w) ∧
          (w = [] ∨ ∃ p, p ∈ P ∧ w <+: p)) ∧
      (∀ p y, p ∈ P → y <+: p → ∃ v n, walk a.nodes y = some v ∧ getNode a.nodes v = some n) ∧
      (∀ (w : List T) (v : Int) (c : T) (u : Int), walk a.nodes w = some v →
        (childOf a.nodes v c = some u ↔ walk a.nodes (w ++ [c]) = some u)) ∧
      (P ≠ [] → ∀ w v, walk a.nodes w = some v → ∃ p, p ∈ P ∧ w <+: p) := by
  obtain ⟨⟨nodes⟩, ha, hB⟩ := New_spec o P
  refine ⟨_, ha, walk_nil nodes, ?_, ?_, ?_, ?_, ?_⟩
  · intro k n hk
    exact hB.trie.ids (k : Int) n (by simpa [getNode] using hk)
  · intro v n hn
    obtain ⟨w, hw⟩ := hB.trie.reach v n hn
    exact ⟨w, hw, fun w2 hw2 => hB.trie.inj _ _ _ hw2 hw,
      (hB.path_iff w).1 (by rw [hw]; rfl)⟩
  · intro p y hp hy
    have hs := (hB.path_iff y).2 (Or.inr ⟨p, hp, hy⟩)
    obtain ⟨v, hv⟩ := Option.isSome_iff_exists.1 hs
    obtain ⟨n, hn⟩ := hB.trie.node_of_walk hv
    exact ⟨v, n, hv, hn⟩
  · intro w v c u hw
    rw [walk_concat_of c hw]
  · intro hP w v hw
    rcases (hB.path_iff w).1 (by rw [hw]; rfl) with h | h
    · obtain ⟨p, hp⟩ := List.exists_mem_of_ne_nil P hP
      exact ⟨p, hp, by rw [h]; exact List.nil_prefix⟩
    · exact h

/-- For the empty pattern list the trie is the root alone, and its path, the empty word, is a
prefix of no pattern: the empty prefix is a node also when `P` has no pattern. -/
theorem root_without_patterns [Inhabited T] (o : MapOrder T) :
    ∃ a r, New o ([] : List (List T)) = some a ∧ a.nodes = [r] ∧
      walk a.nodes [] = some 0 ∧ ¬ ∃ p, p ∈ ([] : List (List T)) ∧ ([] : List T) <+: p := by
  refine ⟨_, _, New_allEmpty o (fun p hp => by cases hp), rfl, rfl, ?_⟩
  rintro ⟨p, hp, _⟩
  cases hp

/-- C16: in `New(P)`, for the node `v` with path `w`: when the non-empty pattern `w` stands in
`P`, `match(v)` is the largest index at which it stands and `matchLen(v)` is its length minus
one; otherwise (`w` empty, as for the root, or no pattern equal to `w`) `match(v) == -1`.
The node of a pattern is marked whether the pattern created it or found it in the trie. -/
theorem terminal_marking [Inhabited T] (o : MapOrder T) (P : List (List T)) :
    ∃ a, New o P = some a ∧
      (∃ r, getNode a.nodes 0 = some r ∧ r.match_ = -1) ∧
      (∀ p, p ∈ P → ∃ v n, walk a.nodes p = some v ∧ getNode a.nodes v = some n) ∧
      ∀ (w : List T) (v : Int) (n : Node T), walk a.nodes w = some v →
        getNode a.nodes v = some n →
        (∀ i : Nat, P[i]? = some w → w ≠ [] →
          0 ≤ n.match_ ∧ P[n.match_.toNat]? = some w ∧ (i : Int) ≤ n.match_ ∧
            n.matchLen = (w.length : Int) - 1) ∧
        ((w = [] ∨ ∀ i : Nat, P[i]? ≠ some w) → n.match_ = -1) ∧
        (n.match_ = -1 ∨ 0 ≤ n.match_) ∧
        (0 ≤ n.match_ → P[n.match_.toNat]? = some w ∧
          n.matchLen = ((P.getD n.match_.toNat []).length : Int) - 1) := by
  obtain ⟨⟨nodes⟩, ha, hB⟩ := New_spec o P
  obtain ⟨r, hr⟩ := hB.trie.hasRoot
  refine ⟨_, ha, ⟨r, hr, hB.root_match hr⟩, fun p hp => hB.walk_pattern hp, ?_⟩
  intro w v n hw hn
  obtain ⟨h1, h2⟩ := hB.marks w v n hw hn
  refine ⟨?_, ?_, ?_, ?_⟩
  · intro i hi hne
    have hle := h2 i hi hne
    rcases h1 with h | ⟨h3, h4, _, h6⟩
    · omega
    · exact ⟨h3, h4, hle, h6⟩
  · intro hnone
    rcases h1 with h | ⟨_, h4, h5, _⟩
    · exact h
    · rcases hnone with h | h
      · exact absurd h h5
      · exact absurd h4 (h _)
  · rcases h1 with h | ⟨h3, _⟩
    · exact Or.inl h
    · exact Or.inr h3
  · intro h0
    rcases h1 with h | ⟨_, h4, _, h6⟩
    · omega
    · refine ⟨h4, ?_⟩
      rw [h6, List.getD_eq_getElem?_getD, h4]
      rfl

end ClaimsBuild

end aca

namespace aca

/-! ## The claims on termination and on the scan state -/

section ClaimsRun

variable {T : Type} [DecidableEq T]

/-- C17: `New(P)` returns. The queue of its failure-link pass receives every non-root node
exactly once, in non-decreasing depth order, and every node received is popped, in that order.
When a node `cur` is popped, the `fail` field of every node not deeper than `cur` and the
`alternative` field of every node less deep than `cur` already hold the values they have in
the automaton returned. Every suffix search of the round of `cur` executes
`temp = nodes[temp.fail]` at most `depth(cur)` times. -/
theorem New_visits_each_node_once [Inhabited T] (o : MapOrder T) (P : List (List T)) :
    ∃ a seeds log, NewLog o P = some (a, seeds, log) ∧ New o P = some a ∧
      (received seeds log).Nodup ∧
      (∀ v : Int, v ∈ received seeds log ↔ (0 < v ∧ v < a.nodes.length)) ∧
      log.map Round.cur = received seeds log ∧
      (received seeds log).Pairwise (fun x y => ∀ wx wy, walk a.nodes wx = some x →
        walk a.nodes wy = some y → wx.length ≤ wy.length) ∧
      ∀ r, r ∈ log → ∃ wc, walk a.nodes wc = some r.cur ∧
        r.before.length = a.nodes.length ∧
        (∀ w v n m, walk a.nodes w = some v → w.length ≤ wc.length →
          getNode r.before v = some n → getNode a.nodes v = some m → n.fail = m.fail) ∧
        (∀ w v n m, walk a.nodes w = some v → w.length < wc.length →
          getNode r.before v = some n → getNode a.nodes v = some m →
          n.alternative = m.alternative) ∧
        r.steps.length = r.pushed.length ∧
        ∀ k, k ∈ r.steps → k ≤ wc.length := by
  obtain ⟨nodes0, path, a, seeds, log, hb, hp, hlog, hnew, hB, hcur, invF, hrounds⟩ :=
    NewLog_spec o P
  have hlen : a.nodes.length = nodes0.length := invF.shape.1
  refine ⟨a, seeds, log, hlog, hnew, ?_, ?_, hcur, ?_, ?_⟩
  · simpa using invF.nodup
  · intro v
    constructor
    · intro hv
      have := invF.valid v (by simpa using hv)
      rw [hlen]
      exact this
    · intro hv
      rw [hlen] at hv
      exact invF.all_done hp (path v).length v hv.1 hv.2 (le_refl _)
  · have hs := invF.sorted
    simp only [List.append_nil] at hs
    refine hs.imp ?_
    intro x y hxy wx wy hwx hwy
    rw [invF.shape.walk] at hwx hwy
    rw [← hp.eq hwx, ← hp.eq hwy]
    exact hxy
  · intro r hr
    obtain ⟨⟨d2, q2, invr⟩, hsl, hsteps⟩ := hrounds r hr
    have hcv := invr.valid r.cur (by simp)
    have hw0 := hp.onPath r.cur (by omega) hcv.2
    refine ⟨path r.cur, by rw [invF.shape.walk]; exact hw0,
      invr.shape.1.trans hlen.symm, ?_, ?_, hsl, fun k hk => le_of_lt (hsteps k hk)⟩
    · intro w v n m hw hl hn hm
      have hw1 := hw
      rw [invF.shape.walk] at hw
      exact fail_unique invr.shape invF.shape hw hn hm ((invr.level hp).1 w v hw hl)
        (hB.linked.failOK w v hw1)
    · intro w v n m hw hl hn hm
      rw [invF.shape.walk] at hw
      exact alt_unique hp.trie invr.shape invF.shape invr.marks invF.marks
        (fun r0 hr0 => (invr.rootFail r0 hr0).2) hB.linked.altRoot ((path r.cur).length - 1)
        (fun x u hx hxl => (invr.level hp).1 x u hx (by omega))
        (fun x u hx _ => hB.linked.failOK x u (by rw [invF.shape.walk]; exact hx))
        (fun x u hx hne hxl => (invr.level hp).2 x u hx hne (by omega))
        (fun x u hx hne _ => hB.linked.altOK x u hne (by rw [invF.shape.walk]; exact hx))
        w.length w v n m (le_refl _) (by omega) hw hn hm

/-- The log of `New` on the patterns `"aac", "c"`: the queue receives the nodes 1, 4, 2, 3, and
the suffix search for the child of node 2 makes one fail step. -/
theorem NewLog_example :
    (NewLog (MapOrder.insertion Nat) testFallback).map
        (fun r => (r.2.1, r.2.2.map Round.cur, r.2.2.map Round.pushed,
          r.2.2.map Round.steps)) =
      some ([1, 4], [1, 4, 2, 3], [[2], [], [3], []], [[0], [], [1], []]) := by
  decide

/-- C18: on `New(P)` every valid state has a path from the root; `depth(fail(v)) < depth(v)`
for every non-root node `v`; `alternative(v)` is `-1` or the id of a node less deep than `v`;
from every valid state `s` and for every atom `c`, `Next` returns, and its body returns the
same result whenever each of its two loops may run `depth(s) + 1` times and the label `Start`
may be entered twice (re-entered once). -/
theorem Next_terminates [Inhabited T] (o : MapOrder T) (P : List (List T)) :
    ∃ a, New o P = some a ∧
      (∀ s : Int, 0 ≤ s → s < a.nodes.length →
        ∃ w node, walk a.nodes w = some s ∧ getNode a.nodes s = some node) ∧
      ∀ (w : List T) (s : Int) (node : Node T), walk a.nodes w = some s →
        getNode a.nodes s = some node →
        (w ≠ [] → ∃ x, walk a.nodes x = some node.fail ∧ x.length < w.length) ∧
        (node.alternative = -1 ∨ 0 ≤ node.alternative) ∧
        (0 ≤ node.alternative →
          ∃ y, walk a.nodes y = some node.alternative ∧ y.length < w.length) ∧
        ∀ c, ∃ r, Next a s P c = some r ∧
          ∀ fuel gas, w.length + 1 ≤ fuel → 2 ≤ gas →
            nextFrom a fuel gas node [] c = some r := by
  obtain ⟨⟨nodes⟩, ha, hB⟩ := New_spec o P
  have hB : Built nodes P := hB
  refine ⟨_, ha, ?_, ?_⟩
  · intro s h0 h1
    obtain ⟨node, hn⟩ := getNode_of_valid h0 h1
    obtain ⟨w, hw⟩ := hB.trie.reach s node hn
    exact ⟨w, node, hw, hn⟩
  · intro w s node hw hn
    have halt := alternative_depth hB hw hn
    have hroot : w = [] → node.alternative = -1 := by
      intro he
      subst he
      rw [walk_nil] at hw
      cases hw
      exact hB.linked.altRoot node hn
    refine ⟨?_, ?_, ?_, ?_⟩
    · intro hne
      obtain ⟨h1, _, h3, _⟩ := fail_longest hB hw hne hn
      exact ⟨_, h1, h3⟩
    · rcases halt with h | ⟨y, m, h1, _, _, _⟩
      · exact Or.inl h
      · exact Or.inr (hB.trie.depth _ _ h1).1
    · intro h0
      rcases halt with h | ⟨y, m, h1, h2, _, _⟩
      · omega
      · refine ⟨y, h1, h2 ?_⟩
        intro he
        have := hroot he
        omega
    · intro c
      have hd := (hB.trie.depth _ _ hw).2.2
      obtain ⟨t, ht, hwt⟩ :=
        nextFrom_depth hB hw hn c (nodes.length + 1) (nodes.length + 1) (by omega) (by omega)
      refine ⟨(outs nodes (w ++ [c]), t), ?_, ?_⟩
      · simp only [Next, NextFuel, hn]
        exact ht
      · intro fuel gas hf hg
        obtain ⟨t2, ht2, hwt2⟩ := nextFrom_depth hB hw hn c fuel gas hf hg
        have : t2 = t := Option.some.inj (hwt2.symm.trans hwt)
        rw [ht2, this]

/-- C19: after the atoms `S[0], ..., S[i]` are fed to `Next` from the state 0 on `New(P)`, the
state is the node whose path `x` from the root is the longest suffix of `S[0..i]` that is a
prefix of a pattern of `P`: `x` is a suffix of `S[0..i]`, it is empty or a prefix of a pattern,
and no suffix of `S[0..i]` that is a prefix of a pattern is longer. The state is the root when
no non-empty suffix is a prefix of a pattern. -/
theorem scan_state_invariant [Inhabited T] (o : MapOrder T) (P : List (List T))
    (S : List T) :
    ∃ a states, New o P = some a ∧ nextStates a P S 0 = some states ∧
      states.length = S.length ∧
      ∀ (i : Nat) (t : Int), states[i]? = some t →
        ∃ x, walk a.nodes x = some t ∧ (∀ x2, walk a.nodes x2 = some t → x2 = x) ∧
          x <:+ S.take (i + 1) ∧ (x = [] ∨ ∃ p, p ∈ P ∧ x <+: p) ∧
          (∀ y p, y <:+ S.take (i + 1) → p ∈ P → y <+: p → y.length ≤ x.length) ∧
          ((∀ y p, y <:+ S.take (i + 1) → y ≠ [] → p ∈ P → ¬ y <+: p) → t = 0) := by
  obtain ⟨⟨nodes⟩, ha, hB⟩ := New_spec o P
  have hB : Built nodes P := hB
  obtain ⟨states, h1, h2, h3⟩ := nextStates_spec hB P S [] 0 (lsuf_nil_walk nodes)
  refine ⟨_, states, ha, h1, h2, ?_⟩
  intro i t hi
  have hw := h3 i t hi
  simp only [List.nil_append] at hw
  have hpath := (hB.path_iff (lsuf nodes (S.take (i + 1)))).1 (by rw [hw]; rfl)
  refine ⟨lsuf nodes (S.take (i + 1)), hw, fun x2 hx2 => hB.trie.inj _ _ _ hx2 hw,
    lsuf_suffix nodes _, hpath, ?_, ?_⟩
  · intro y p hy hp hyp
    exact (lsuf_max hy ((hB.path_iff y).2 (Or.inr ⟨p, hp, hyp⟩))).length_le
  · intro hnone
    have hx : lsuf nodes (S.take (i + 1)) = [] := by
      by_contra hne
      rcases hpath with h | ⟨p, hp, hpre⟩
      · exact hne h
      · exact hnone _ p (lsuf_suffix nodes _) hne hp hpre
    rw [hx, walk_nil] at hw
    exact (Option.some.inj hw).symm

/-- The states of the scan of `TestWithStrings`. -/
theorem nextStates_example :
    (New (MapOrder.insertion Nat) testPatterns).bind
        (fun a => nextStates a testPatterns testInput 0) =
      some [1, 2, 3, 4, 5, 6, 1, 2, 3, 4, 5, 0, 15, 16, 17, 20] := by
  decide

/-- C20: on `New(P)` and an input `S`, `Indexes` returns. The log of the iterations of its
main loop, position by position from 0 to `len(S) - 1`, holds one direct iteration, or a
fallback iteration ending with `i--` followed by a direct iteration at the same position, or
one fallback iteration without `i--`. So the body is executed at most twice for a position and
at most `2 * len(S)` times in all, at positions `0 <= i < len(S)` only; an iteration that ends
with `i--` stands at a position `i >= 1`, so the decrement does not make `i` negative, and it
is a fallback iteration followed by a direct iteration at the same position. -/
theorem Indexes_terminates [Inhabited T] (o : MapOrder T) (P : List (List T)) (S : List T) :
    ∃ a idx tr, New o P = some a ∧ IndexesLog a P S = some (idx, tr) ∧
      Indexes a P S = some idx ∧ Blocks 0 S.length tr ∧ tr.length ≤ 2 * S.length ∧
      (∀ v, v ∈ tr → 0 ≤ v.pos ∧ v.pos < S.length) ∧
      (∀ v, v ∈ tr → v.dec = true → 1 ≤ v.pos) ∧
      (∀ j : Int, (tr.filter (fun v => decide (v.pos = j))).length ≤ 2) ∧
      ∀ (k : Nat) (v : Visit), tr[k]? = some v → v.dec = true →
        v.direct = false ∧
          tr[k + 1]? = some { pos := v.pos, direct := true, dec := false } := by
  obtain ⟨⟨nodes⟩, ha, hB⟩ := New_spec o P
  have hB : Built nodes P := hB
  obtain ⟨idx, tr, h1, h2, hb, hdec⟩ := IndexesLog_spec hB S
  refine ⟨_, idx, tr, ha, h1, h2, hb, Blocks.length_le _ _ _ hb, ?_, hdec,
    Blocks.count_le _ _ _ hb, Blocks.dec_next _ _ _ hb⟩
  intro v hv
  have := Blocks.pos_range _ _ _ hb v hv
  omega

/-- The log of `Indexes` for the patterns `"aac", "c"` on the input `"aaacb"`: position 2 is
visited twice, first by a fallback iteration that ends with `i--`. -/
theorem IndexesLog_example :
    (New (MapOrder.insertion Nat) testFallback).bind
        (fun a => IndexesLog a testFallback [97, 97, 97, 99, 98]) =
      some ([[1], [3]],
        [{ pos := 0, direct := true, dec := false }, { pos := 1, direct := true, dec := false },
          { pos := 2, direct := false, dec := true }, { pos := 2, direct := true, dec := false },
          { pos := 3, direct := true, dec := false },
          { pos := 4, direct := false, dec := false }]) := by
  decide

end ClaimsRun

end aca
